import Mathlib

/-!
Verification of the left-leaning red-black BST core of the `algorithms-ts`
repository: the sorted set (src/data-structures/sorted-set) and the sorted
map (src/data-structures/sorted-map).

The tree is embedded as the inductive `RBT`: a `Node<T>` (fields `value`,
`left`, `right`, `color`, `size`) or `null` (`RBT.nil`).  The mutating
TypeScript functions return the new subtree root, so they are translated as
pure functions from trees to trees.  `ok(...)` assertions from
`node:assert/strict` throw on violation; each assertion site is modelled by
a `Prop`-valued predicate (`...Ok`) recording the asserted condition, the
function itself continues past the assertion unchanged (for `rotateLeft`,
`rotateRight` and `flipColors`, whose rearrangement would dereference a
missing child, the missing-child case returns the input unchanged), and the
predicates are proved to hold on every call reachable through the public
facade, so the modelled executions coincide with the real ones there.

The sorted map's `node.ts` and `redBlackBST.ts` are not in the repository
snapshot (only the map facade, `BST.ts` and tests are); the map mutation
functions are modelled from the spec, which states the map variant is the
same LLRB algorithm with a (key, value) payload and that `balance`
recomputes the size field.  A map node is embedded as a tree over pairs
`K × V` (`key` = first component, `value` = second component).
-/

set_option linter.unusedVariables false

/-- Node colors, as in `node.ts`: `RED = true`, `BLACK = false`. -/
abbrev Color := Bool

/-- `RED` from `node.ts`. -/
def RED : Color := true

/-- `BLACK` from `node.ts`. -/
def BLACK : Color := false

/-- A `Node<T>` from `node.ts` (`node value left right color size`), or
`null` (`nil`).  The `size` field is the stored subtree-size counter, not a
recomputed value. -/
inductive RBT (α : Type) where
  | nil : RBT α
  | node (value : α) (left right : RBT α) (color : Color) (sz : Nat) : RBT α

namespace RBT

variable {α : Type}

/-- `size` from `node.ts`: the stored `size` field, `0` for `null`. -/
def size : RBT α → Nat
  | nil => 0
  | node _ _ _ _ s => s

/-- `isRed` from `node.ts`: `false` for `null`, else `color === RED`. -/
def isRed : RBT α → Bool
  | nil => false
  | node _ _ _ c _ => c == RED

/-- `root.left` (`null` when the node itself is `null`). -/
def left : RBT α → RBT α
  | nil => nil
  | node _ l _ _ _ => l

/-- `root.right` (`null` when the node itself is `null`). -/
def right : RBT α → RBT α
  | nil => nil
  | node _ _ r _ _ => r

/-- `!root` in TypeScript: the node is `null`. -/
def isNil : RBT α → Bool
  | nil => true
  | node .. => false

/-- `root.left = x` on a node (identity on `null`). -/
def setLeft : RBT α → RBT α → RBT α
  | nil, _ => nil
  | node v _ r c s, l => node v l r c s

/-- `root.right = x` on a node (identity on `null`). -/
def setRight : RBT α → RBT α → RBT α
  | nil, _ => nil
  | node v l _ c s, r => node v l r c s

/-- The number of nodes actually in the tree (reference count used to state
invariant 6; the code never computes this). -/
def count : RBT α → Nat
  | nil => 0
  | node _ l r _ _ => count l + count r + 1

/-- A comparator, as in `common/types.ts`: negative, zero or positive. -/
abbrev Cmp (α : Type) := α → α → Int

/-- `has` from `sorted-set/BST.ts` (the iterative descent rendered as
recursion). -/
def has (cmp : Cmp α) (x : α) : RBT α → Bool
  | nil => false
  | node v l r _ _ =>
    if cmp x v < 0 then has cmp x l
    else if 0 < cmp x v then has cmp x r
    else true

/-- `min` from `sorted-set/BST.ts`; the TypeScript signature requires a
non-null node, so the `null` case is `none`. -/
def minVal : RBT α → Option α
  | nil => none
  | node v l _ _ _ =>
    match l with
    | nil => some v
    | node .. => minVal l

/-- `max` from `sorted-set/BST.ts`. -/
def maxVal : RBT α → Option α
  | nil => none
  | node v _ r _ _ =>
    match r with
    | nil => some v
    | node .. => maxVal r

/-- `floor` from `sorted-set/BST.ts`: `null` result is `none`. -/
def floor (cmp : Cmp α) (x : α) : RBT α → Option α
  | nil => none
  | node v l r _ _ =>
    if cmp x v = 0 then some v
    else if cmp x v < 0 then floor cmp x l
    else some ((floor cmp x r).getD v)

/-- `ceiling` from `sorted-set/BST.ts`. -/
def ceiling (cmp : Cmp α) (x : α) : RBT α → Option α
  | nil => none
  | node v l r _ _ =>
    if cmp x v = 0 then some v
    else if 0 < cmp x v then ceiling cmp x r
    else some ((ceiling cmp x l).getD v)

/-- `createSnapshot` from `sorted-set/BST.ts`: the in-order value list. -/
def createSnapshot : RBT α → List α
  | nil => []
  | node v l r _ _ => createSnapshot l ++ v :: createSnapshot r

/-- `rotateLeft` from `redBlackBST.ts`.  Asserted precondition
(`root.right` non-null and red) is `rotateLeftOk`; if the right child is
`null` the rearrangement is impossible and the input is returned. -/
def rotateLeft : RBT α → RBT α
  | node v l (node rv rl rr rc rs) c s =>
    node rv (node v l rl RED (size l + size rl + 1)) rr c s
  | t => t

/-- The condition asserted by `ok` in `rotateLeft`. -/
def rotateLeftOk (t : RBT α) : Prop := isRed t.right = true

/-- `rotateRight` from `redBlackBST.ts`. -/
def rotateRight : RBT α → RBT α
  | node v (node lv ll lr lc ls) r c s =>
    node lv ll (node v lr r RED (size lr + size r + 1)) c s
  | t => t

/-- The condition asserted by `ok` in `rotateRight`. -/
def rotateRightOk (t : RBT α) : Prop := isRed t.left = true

/-- `flipColors` from `redBlackBST.ts`: toggles the colors of a node and
its two children (identity when a child is `null`, a case excluded by its
assertions). -/
def flipColors : RBT α → RBT α
  | node v (node lv ll lr lc ls) (node rv rl rr rc rs) c s =>
    node v (node lv ll lr (!lc) ls) (node rv rl rr (!rc) rs) (!c) s
  | t => t

/-- The conditions asserted by `ok` in `flipColors`: both children present,
equal colors, opposite to the node's color. -/
def flipColorsOk (t : RBT α) : Prop :=
  t.left.isNil = false ∧ t.right.isNil = false ∧
    isRed t.left = isRed t.right ∧ isRed t ≠ isRed t.left

/-- `moveRedLeft` from `redBlackBST.ts`. -/
def moveRedLeft (t : RBT α) : RBT α :=
  let t1 := flipColors t
  if isRed t1.right.left then
    let t2 := setRight t1 (rotateRight t1.right)
    flipColors (rotateLeft t2)
  else t1

/-- The conditions asserted by `ok` in `moveRedLeft` (the node is red, its
left child and that child's left child are black, the right child exists). -/
def moveRedLeftOk (t : RBT α) : Prop :=
  isRed t = true ∧ t.left.isNil = false ∧ isRed t.left = false ∧
    isRed t.left.left = false ∧ t.right.isNil = false

/-- `moveRedRight` from `redBlackBST.ts`. -/
def moveRedRight (t : RBT α) : RBT α :=
  let t1 := flipColors t
  if isRed t1.left.left then
    flipColors (rotateRight t1)
  else t1

/-- The conditions asserted by `ok` in `moveRedRight`. -/
def moveRedRightOk (t : RBT α) : Prop :=
  isRed t = true ∧ t.right.isNil = false ∧ isRed t.right = false ∧
    isRed t.right.left = false ∧ t.left.isNil = false

/-- `balance` from `sorted-set/redBlackBST.ts`.  Note: no size recompute
appears in the source (sizes are only written inside the rotations). -/
def balance (t : RBT α) : RBT α :=
  let t1 := if isRed t.right && !isRed t.left then rotateLeft t else t
  let t2 := if isRed t1.left && isRed t1.left.left then rotateRight t1 else t1
  if isRed t2.left && isRed t2.right then flipColors t2 else t2

/-- `insert` from `sorted-set/redBlackBST.ts`. -/
def insert (cmp : Cmp α) (x : α) : RBT α → RBT α
  | nil => node x nil nil RED 1
  | node v l r c s =>
    if cmp x v < 0 then balance (node v (insert cmp x l) r c s)
    else if 0 < cmp x v then balance (node v l (insert cmp x r) c s)
    else balance (node v l r c s)

theorem count_node (v : α) (l r : RBT α) (c : Color) (s : Nat) :
    count (node v l r c s) = count l + count r + 1 := rfl

theorem count_flipColors (t : RBT α) : count (flipColors t) = count t := by
  cases t with
  | nil => rfl
  | node v l r c s =>
    cases l <;> cases r <;> rfl

theorem count_rotateLeft (t : RBT α) : count (rotateLeft t) = count t := by
  cases t with
  | nil => rfl
  | node v l r c s =>
    cases r with
    | nil => rfl
    | node rv rl rr rc rs => simp only [rotateLeft, count]; omega

theorem count_rotateRight (t : RBT α) : count (rotateRight t) = count t := by
  cases t with
  | nil => rfl
  | node v l r c s =>
    cases l with
    | nil => rfl
    | node lv ll lr lc ls => simp only [rotateRight, count]; omega

theorem count_setRight_rotateRight (t : RBT α) :
    count (setRight t (rotateRight t.right)) = count t := by
  cases t with
  | nil => rfl
  | node v l r c s => simp only [setRight, right, count, count_rotateRight]

theorem count_moveRedLeft (t : RBT α) : count (moveRedLeft t) = count t := by
  simp only [moveRedLeft]
  split
  · rw [count_flipColors, count_rotateLeft, count_setRight_rotateRight,
      count_flipColors]
  · rw [count_flipColors]

theorem count_moveRedRight (t : RBT α) : count (moveRedRight t) = count t := by
  simp only [moveRedRight]
  split
  · rw [count_flipColors, count_rotateRight, count_flipColors]
  · rw [count_flipColors]

theorem flipColors_ne_nil {t : RBT α} (h : t ≠ nil) : flipColors t ≠ nil := by
  cases t with
  | nil => exact absurd rfl h
  | node v l r c s => cases l <;> cases r <;> simp [flipColors]

theorem rotateLeft_ne_nil {t : RBT α} (h : t ≠ nil) : rotateLeft t ≠ nil := by
  cases t with
  | nil => exact absurd rfl h
  | node v l r c s => cases r <;> simp [rotateLeft]

theorem rotateRight_ne_nil {t : RBT α} (h : t ≠ nil) : rotateRight t ≠ nil := by
  cases t with
  | nil => exact absurd rfl h
  | node v l r c s => cases l <;> simp [rotateRight]

theorem setRight_ne_nil {t x : RBT α} (h : t ≠ nil) : setRight t x ≠ nil := by
  cases t with
  | nil => exact absurd rfl h
  | node v l r c s => simp [setRight]

theorem moveRedLeft_ne_nil {t : RBT α} (h : t ≠ nil) : moveRedLeft t ≠ nil := by
  simp only [moveRedLeft]
  split
  · exact flipColors_ne_nil (rotateLeft_ne_nil (setRight_ne_nil (flipColors_ne_nil h)))
  · exact flipColors_ne_nil h

theorem moveRedRight_ne_nil {t : RBT α} (h : t ≠ nil) : moveRedRight t ≠ nil := by
  simp only [moveRedRight]
  split
  · exact flipColors_ne_nil (rotateRight_ne_nil (flipColors_ne_nil h))
  · exact flipColors_ne_nil h

theorem count_left_lt {t : RBT α} (h : t ≠ nil) : count t.left < count t := by
  cases t with
  | nil => exact absurd rfl h
  | node v l r c s => simp only [left, count]; omega

theorem count_right_lt {t : RBT α} (h : t ≠ nil) : count t.right < count t := by
  cases t with
  | nil => exact absurd rfl h
  | node v l r c s => simp only [right, count]; omega

theorem count_left_lt_node (v : α) (l r : RBT α) (c : Color) (s : Nat) :
    count l < count (node v l r c s) := by
  simp only [count]; omega

/-- `deleteMin` from `sorted-set/redBlackBST.ts`.  The asserted
precondition (`isRed(root) || isRed(root.left)`) is `deleteMinPre`. -/
def deleteMin (t : RBT α) : RBT α :=
  match t with
  | nil => nil
  | node v l r c s =>
    if isNil l then nil
    else if !isRed l && !isRed l.left then
      balance (setLeft (moveRedLeft (node v l r c s))
        (deleteMin (moveRedLeft (node v l r c s)).left))
    else
      balance (node v (deleteMin l) r c s)
termination_by count t
decreasing_by
  · exact lt_of_lt_of_eq (count_left_lt (moveRedLeft_ne_nil (by simp)))
      (count_moveRedLeft _)
  · apply count_left_lt_node

/-- The condition asserted by `ok` at the top of `deleteMin`. -/
def deleteMinPre (t : RBT α) : Prop := isRed t = true ∨ isRed t.left = true

/-- `deleteMax` from `sorted-set/redBlackBST.ts`: rotate right first when
the left child is red, then mirror `deleteMin` on the right spine. -/
def deleteMax (t : RBT α) : RBT α :=
  match t with
  | nil => nil
  | node v l r c s =>
    let t1 := if isRed l then rotateRight (node v l r c s) else node v l r c s
    if isNil t1.right then nil
    else if !isRed t1.right && !isRed t1.right.left then
      balance (setRight (moveRedRight t1) (deleteMax (moveRedRight t1).right))
    else
      balance (setRight t1 (deleteMax t1.right))
termination_by count t
decreasing_by
  · refine lt_of_lt_of_eq (count_right_lt (moveRedRight_ne_nil ?_)) ?_
    · repeat' split
      all_goals first
        | exact rotateRight_ne_nil (by simp)
        | simp
    · rw [count_moveRedRight]
      repeat' split
      all_goals simp [count_rotateRight]
  · refine lt_of_lt_of_eq (count_right_lt ?_) ?_
    · repeat' split
      all_goals first
        | exact rotateRight_ne_nil (by simp)
        | simp
    · repeat' split
      all_goals simp [count_rotateRight]

/-- The condition asserted by `ok` at the top of `deleteMax`. -/
def deleteMaxPre (t : RBT α) : Prop :=
  isRed t = true ∨ isRed t.right = true ∨ isRed t.left = true

/-- `root.value`, with a default for the (unreachable) `null` case. -/
def valD : RBT α → α → α
  | nil, d => d
  | node v _ _ _ _, _ => v

/-- `root.value = x` on a node (identity on `null`). -/
def setValue : RBT α → α → RBT α
  | nil, _ => nil
  | node _ l r c s, v => node v l r c s

/-- `remove` from `sorted-set/redBlackBST.ts`.  The TypeScript function
assumes the value is present in the subtree (the facade pre-checks
membership with `has`); `ok(root.left)` / `ok(root.right)` assertion sites
are part of `removeOkAt`.  On the equal match with an absent right child it
returns `null`; on an inner equal match it overwrites the node's value with
the minimum of the right subtree and deletes that minimum. -/
def remove (cmp : Cmp α) (x : α) (t : RBT α) : RBT α :=
  match t with
  | nil => nil
  | node v l r c s =>
    if cmp x v < 0 then
      if !isRed l && !isRed l.left then
        balance (setLeft (moveRedLeft (node v l r c s))
          (remove cmp x (moveRedLeft (node v l r c s)).left))
      else
        balance (node v (remove cmp x l) r c s)
    else
      let t2 := if isRed l then rotateRight (node v l r c s) else node v l r c s
      if cmp x (valD t2 x) = 0 ∧ isNil t2.right then nil
      else
        let t3 := if !isRed t2.right && !isRed t2.right.left
          then moveRedRight t2 else t2
        if cmp x (valD t3 x) = 0 then
          match minVal t3.right with
          | some m => balance (setValue (setRight t3 (deleteMin t3.right)) m)
          | none => balance (setRight t3 (deleteMin t3.right))
        else
          balance (setRight t3 (remove cmp x t3.right))
termination_by count t
decreasing_by
  · exact lt_of_lt_of_eq (count_left_lt (moveRedLeft_ne_nil (by simp)))
      (count_moveRedLeft _)
  · apply count_left_lt_node
  · refine lt_of_lt_of_eq (count_right_lt ?_) ?_
    · repeat' split
      all_goals first
        | exact moveRedRight_ne_nil (rotateRight_ne_nil (by simp))
        | exact moveRedRight_ne_nil (by simp)
        | exact rotateRight_ne_nil (by simp)
        | simp
    · repeat' split
      all_goals simp [count_moveRedRight, count_rotateRight]

/-- `root.color = c` (identity on `null`), used by the facades to recolor
the root before/after mutations. -/
def setColor : RBT α → Color → RBT α
  | nil, _ => nil
  | node v l r _ s, c => node v l r c s

/-- Recompute the stored size of the root from its children, the final
step of the spec-modelled map `balance` ("Recomputes size"). -/
def recomputeSz : RBT α → RBT α
  | nil => nil
  | node v l r c _ => node v l r c (size l + size r + 1)

/-- Modelled from the spec: the sorted map's `balance`
(`sorted-map/redBlackBST.ts` is missing from the snapshot).  Per spec
section 4.2 it performs steps (a)-(c) exactly as the set variant and then
recomputes the size field. -/
def balanceM (t : RBT α) : RBT α := recomputeSz (balance t)

theorem count_balance (t : RBT α) : count (balance t) = count t := by
  simp only [balance]
  repeat' split
  all_goals simp [count_flipColors, count_rotateLeft, count_rotateRight]

theorem count_recomputeSz (t : RBT α) : count (recomputeSz t) = count t := by
  cases t <;> rfl

theorem count_balanceM (t : RBT α) : count (balanceM t) = count t := by
  rw [balanceM, count_recomputeSz, count_balance]

/-- Modelled from the spec: the sorted map's `insert`
(`sorted-map/redBlackBST.ts` is missing).  Same recursion as the set's
`insert` with a (key, value) payload: on an equal key it overwrites the
stored value; `balance` is the size-recomputing map variant. -/
def insertP (cmp : Cmp κ) (k : κ) (v : ν) : RBT (κ × ν) → RBT (κ × ν)
  | nil => node (k, v) nil nil RED 1
  | node p l r c s =>
    if cmp k p.1 < 0 then balanceM (node p (insertP cmp k v l) r c s)
    else if 0 < cmp k p.1 then balanceM (node p l (insertP cmp k v r) c s)
    else balanceM (node (p.1, v) l r c s)

/-- Modelled from the spec: the sorted map's `deleteMin` — identical to
the set's except that `balance` recomputes the size field. -/
def deleteMinP (t : RBT α) : RBT α :=
  match t with
  | nil => nil
  | node v l r c s =>
    if isNil l then nil
    else if !isRed l && !isRed l.left then
      balanceM (setLeft (moveRedLeft (node v l r c s))
        (deleteMinP (moveRedLeft (node v l r c s)).left))
    else
      balanceM (node v (deleteMinP l) r c s)
termination_by count t
decreasing_by
  · exact lt_of_lt_of_eq (count_left_lt (moveRedLeft_ne_nil (by simp)))
      (count_moveRedLeft _)
  · apply count_left_lt_node

/-- Modelled from the spec: the sorted map's `deleteMax`. -/
def deleteMaxP (t : RBT α) : RBT α :=
  match t with
  | nil => nil
  | node v l r c s =>
    let t1 := if isRed l then rotateRight (node v l r c s) else node v l r c s
    if isNil t1.right then nil
    else if !isRed t1.right && !isRed t1.right.left then
      balanceM (setRight (moveRedRight t1) (deleteMaxP (moveRedRight t1).right))
    else
      balanceM (setRight t1 (deleteMaxP t1.right))
termination_by count t
decreasing_by
  · refine lt_of_lt_of_eq (count_right_lt (moveRedRight_ne_nil ?_)) ?_
    · repeat' split
      all_goals first
        | exact rotateRight_ne_nil (by simp)
        | simp
    · rw [count_moveRedRight]
      repeat' split
      all_goals simp [count_rotateRight]
  · refine lt_of_lt_of_eq (count_right_lt ?_) ?_
    · repeat' split
      all_goals first
        | exact rotateRight_ne_nil (by simp)
        | simp
    · repeat' split
      all_goals simp [count_rotateRight]

/-- `root.key`, with a default for the (unreachable) `null` case. -/
def keyD : RBT (κ × ν) → κ → κ
  | nil, d => d
  | node p _ _ _ _, _ => p.1

/-- Modelled from the spec: the sorted map's `remove` — the set's
recursion comparing on keys, replacing key and value together with the
in-order successor pair on an inner match. -/
def removeP (cmp : Cmp κ) (k : κ) (t : RBT (κ × ν)) : RBT (κ × ν) :=
  match t with
  | nil => nil
  | node p l r c s =>
    if cmp k p.1 < 0 then
      if !isRed l && !isRed l.left then
        balanceM (setLeft (moveRedLeft (node p l r c s))
          (removeP cmp k (moveRedLeft (node p l r c s)).left))
      else
        balanceM (node p (removeP cmp k l) r c s)
    else
      let t2 := if isRed l then rotateRight (node p l r c s) else node p l r c s
      if cmp k (keyD t2 k) = 0 ∧ isNil t2.right then nil
      else
        let t3 := if !isRed t2.right && !isRed t2.right.left
          then moveRedRight t2 else t2
        if cmp k (keyD t3 k) = 0 then
          match minVal t3.right with
          | some m => balanceM (setValue (setRight t3 (deleteMinP t3.right)) m)
          | none => balanceM (setRight t3 (deleteMinP t3.right))
        else
          balanceM (setRight t3 (removeP cmp k t3.right))
termination_by count t
decreasing_by
  · exact lt_of_lt_of_eq (count_left_lt (moveRedLeft_ne_nil (by simp)))
      (count_moveRedLeft _)
  · apply count_left_lt_node
  · refine lt_of_lt_of_eq (count_right_lt ?_) ?_
    · repeat' split
      all_goals first
        | exact moveRedRight_ne_nil (rotateRight_ne_nil (by simp))
        | exact moveRedRight_ne_nil (by simp)
        | exact rotateRight_ne_nil (by simp)
        | simp
    · repeat' split
      all_goals simp [count_moveRedRight, count_rotateRight]

/-- `has` from `sorted-map/BST.ts`: descends comparing the query key with
each node's key. -/
def hasK (cmp : Cmp κ) (k : κ) : RBT (κ × ν) → Bool
  | nil => false
  | node p l r _ _ =>
    if cmp k p.1 < 0 then hasK cmp k l
    else if 0 < cmp k p.1 then hasK cmp k r
    else true

/-- `get` from `sorted-map/BST.ts`; the `NoSuchElementError` throw on a
missed descent is modelled as `none`. -/
def getK (cmp : Cmp κ) (k : κ) : RBT (κ × ν) → Option ν
  | nil => none
  | node p l r _ _ =>
    if cmp k p.1 < 0 then getK cmp k l
    else if 0 < cmp k p.1 then getK cmp k r
    else some p.2

/-- `floor` from `sorted-map/BST.ts` (returns the node, here its pair). -/
def floorK (cmp : Cmp κ) (k : κ) : RBT (κ × ν) → Option (κ × ν)
  | nil => none
  | node p l r _ _ =>
    if cmp k p.1 = 0 then some p
    else if cmp k p.1 < 0 then floorK cmp k l
    else some ((floorK cmp k r).getD p)

/-- `ceiling` from `sorted-map/BST.ts`. -/
def ceilingK (cmp : Cmp κ) (k : κ) : RBT (κ × ν) → Option (κ × ν)
  | nil => none
  | node p l r _ _ =>
    if cmp k p.1 = 0 then some p
    else if 0 < cmp k p.1 then ceilingK cmp k r
    else some ((ceilingK cmp k l).getD p)

/-- Error kinds surfaced by the facades (`NoSuchElementError` with the
"is empty" message is `emptyTree`; with the "too small"/"too large"
message, `noBound`). -/
inductive Err where
  | emptyTree : Err
  | noBound : Err
deriving DecidableEq, Repr

/-! ### Sorted set facade (`sorted-set/index.ts`)

The facade state is the `_root` tree; the comparator is a parameter of
each operation.  Operations that mutate return the new root; `delete`
additionally returns its boolean result; operations that can throw return
`Except Err`. -/

/-- `SortedSet.size`: the stored size field of the root, O(1). -/
def sizeS (t : RBT α) : Nat := size t

/-- `SortedSet.isEmpty`. -/
def isEmptyS (t : RBT α) : Bool := isNil t

/-- `SortedSet.clear`. -/
def clearS : RBT α := (nil : RBT α)

/-- `SortedSet.has`. -/
def hasS (cmp : Cmp α) (x : α) (t : RBT α) : Bool := has cmp x t

/-- `SortedSet.add`: insert, then color the root black. -/
def addS (cmp : Cmp α) (x : α) (t : RBT α) : RBT α :=
  setColor (insert cmp x t) BLACK

/-- `SortedSet.delete`: pre-checks membership; on a hit, colors the root
red when both its children are black, calls `remove`, recolors the new
root black.  Returns (was present, new root). -/
def deleteS (cmp : Cmp α) (x : α) (t : RBT α) : Bool × RBT α :=
  if !has cmp x t then (false, t)
  else
    let t0 := if !isRed t.left && !isRed t.right then setColor t RED else t
    (true, setColor (remove cmp x t0) BLACK)

/-- `SortedSet.min`. -/
def minS (t : RBT α) : Except Err α :=
  if isNil t then .error .emptyTree
  else
    match minVal t with
    | some v => .ok v
    | none => .error .emptyTree

/-- `SortedSet.max`. -/
def maxS (t : RBT α) : Except Err α :=
  if isNil t then .error .emptyTree
  else
    match maxVal t with
    | some v => .ok v
    | none => .error .emptyTree

/-- `SortedSet.deleteMin`: empty check, red pre-coloring of the root when
both children are black, recursive `deleteMin`, black post-coloring. -/
def deleteMinS (t : RBT α) : Except Err (RBT α) :=
  if isNil t then .error .emptyTree
  else
    let t0 := if !isRed t.left && !isRed t.right then setColor t RED else t
    .ok (setColor (deleteMin t0) BLACK)

/-- `SortedSet.deleteMax`. -/
def deleteMaxS (t : RBT α) : Except Err (RBT α) :=
  if isNil t then .error .emptyTree
  else
    let t0 := if !isRed t.left && !isRed t.right then setColor t RED else t
    .ok (setColor (deleteMax t0) BLACK)

/-- `SortedSet.floor`: empty check, descent, "too small" error on a
`null` result. -/
def floorS (cmp : Cmp α) (x : α) (t : RBT α) : Except Err α :=
  if isNil t then .error .emptyTree
  else
    match floor cmp x t with
    | some v => .ok v
    | none => .error .noBound

/-- `SortedSet.ceiling`. -/
def ceilingS (cmp : Cmp α) (x : α) (t : RBT α) : Except Err α :=
  if isNil t then .error .emptyTree
  else
    match ceiling cmp x t with
    | some v => .ok v
    | none => .error .noBound

/-- `SortedSet[Symbol.iterator]`: yields the snapshot. -/
def iterS (t : RBT α) : List α := createSnapshot t

/-! ### Sorted map facade (`sorted-map/index.ts`)

Over trees of (key, value) pairs.  Mutations go through the spec-modelled
`insertP`/`removeP`/`deleteMinP`/`deleteMaxP`. -/

/-- `SortedMap.size`. -/
def sizeM (t : RBT (κ × ν)) : Nat := size t

/-- `SortedMap.isEmpty`. -/
def isEmptyM (t : RBT (κ × ν)) : Bool := isNil t

/-- `SortedMap.get`: wraps `get` in try/catch, the throw becoming
`undefined`, i.e. `none`. -/
def getM (cmp : Cmp κ) (k : κ) (t : RBT (κ × ν)) : Option ν := getK cmp k t

/-- `SortedMap.has`. -/
def hasM (cmp : Cmp κ) (k : κ) (t : RBT (κ × ν)) : Bool := hasK cmp k t

/-- `SortedMap.set`: insert (overwriting on an equal key), then color the
root black. -/
def setM (cmp : Cmp κ) (k : κ) (v : ν) (t : RBT (κ × ν)) : RBT (κ × ν) :=
  setColor (insertP cmp k v t) BLACK

/-- `SortedMap.delete`. -/
def deleteM (cmp : Cmp κ) (k : κ) (t : RBT (κ × ν)) : Bool × RBT (κ × ν) :=
  if !hasK cmp k t then (false, t)
  else
    let t0 := if !isRed t.left && !isRed t.right then setColor t RED else t
    (true, setColor (removeP cmp k t0) BLACK)

/-- `SortedMap.min` (the smallest key). -/
def minM (t : RBT (κ × ν)) : Except Err κ :=
  if isNil t then .error .emptyTree
  else
    match minVal t with
    | some p => .ok p.1
    | none => .error .emptyTree

/-- `SortedMap.max`. -/
def maxM (t : RBT (κ × ν)) : Except Err κ :=
  if isNil t then .error .emptyTree
  else
    match maxVal t with
    | some p => .ok p.1
    | none => .error .emptyTree

/-- `SortedMap.deleteMin`. -/
def deleteMinM (t : RBT (κ × ν)) : Except Err (RBT (κ × ν)) :=
  if isNil t then .error .emptyTree
  else
    let t0 := if !isRed t.left && !isRed t.right then setColor t RED else t
    .ok (setColor (deleteMinP t0) BLACK)

/-- `SortedMap.deleteMax`. -/
def deleteMaxM (t : RBT (κ × ν)) : Except Err (RBT (κ × ν)) :=
  if isNil t then .error .emptyTree
  else
    let t0 := if !isRed t.left && !isRed t.right then setColor t RED else t
    .ok (setColor (deleteMaxP t0) BLACK)

/-- `SortedMap.floor` (returns the key). -/
def floorM (cmp : Cmp κ) (k : κ) (t : RBT (κ × ν)) : Except Err κ :=
  if isNil t then .error .emptyTree
  else
    match floorK cmp k t with
    | some p => .ok p.1
    | none => .error .noBound

/-- `SortedMap.ceiling`. -/
def ceilingM (cmp : Cmp κ) (k : κ) (t : RBT (κ × ν)) : Except Err κ :=
  if isNil t then .error .emptyTree
  else
    match ceilingK cmp k t with
    | some p => .ok p.1
    | none => .error .noBound

/-- `SortedMap[Symbol.iterator]`: yields the snapshot of entries. -/
def iterM (t : RBT (κ × ν)) : List (κ × ν) := createSnapshot t

end RBT

/-! ### Size-erased trees

The balancing logic never branches on the `size` field, so all color and
ordering reasoning is carried out once on size-erased trees `CTree` and
transported to the set functions and to the size-recomputing map variants
through `RBT.strip`.  Each `CTree` function mirrors its `RBT` namesake with
the size arithmetic removed. -/

inductive CTree (α : Type) where
  | nil : CTree α
  | node (value : α) (left right : CTree α) (color : Color) : CTree α

namespace CTree

variable {α : Type}

def isRed : CTree α → Bool
  | nil => false
  | node _ _ _ c => c == RED

def left : CTree α → CTree α
  | nil => nil
  | node _ l _ _ => l

def right : CTree α → CTree α
  | nil => nil
  | node _ _ r _ => r

def isNil : CTree α → Bool
  | nil => true
  | node .. => false

def setLeft : CTree α → CTree α → CTree α
  | nil, _ => nil
  | node v _ r c, l => node v l r c

def setRight : CTree α → CTree α → CTree α
  | nil, _ => nil
  | node v l _ c, r => node v l r c

def setValue : CTree α → α → CTree α
  | nil, _ => nil
  | node _ l r c, v => node v l r c

def setColor : CTree α → Color → CTree α
  | nil, _ => nil
  | node v l r _, c => node v l r c

def count : CTree α → Nat
  | nil => 0
  | node _ l r _ => count l + count r + 1

def toList : CTree α → List α
  | nil => []
  | node v l r _ => toList l ++ v :: toList r

def minVal : CTree α → Option α
  | nil => none
  | node v l _ _ =>
    match l with
    | nil => some v
    | node .. => minVal l

def valD : CTree α → α → α
  | nil, d => d
  | node v _ _ _, _ => v

def rotateLeft : CTree α → CTree α
  | node v l (node rv rl rr rc) c => node rv (node v l rl RED) rr c
  | t => t

def rotateRight : CTree α → CTree α
  | node v (node lv ll lr lc) r c => node lv ll (node v lr r RED) c
  | t => t

def flipColors : CTree α → CTree α
  | node v (node lv ll lr lc) (node rv rl rr rc) c =>
    node v (node lv ll lr (!lc)) (node rv rl rr (!rc)) (!c)
  | t => t

def moveRedLeft (t : CTree α) : CTree α :=
  let t1 := flipColors t
  if isRed t1.right.left then
    let t2 := setRight t1 (rotateRight t1.right)
    flipColors (rotateLeft t2)
  else t1

def moveRedRight (t : CTree α) : CTree α :=
  let t1 := flipColors t
  if isRed t1.left.left then
    flipColors (rotateRight t1)
  else t1

def balance (t : CTree α) : CTree α :=
  let t1 := if isRed t.right && !isRed t.left then rotateLeft t else t
  let t2 := if isRed t1.left && isRed t1.left.left then rotateRight t1 else t1
  if isRed t2.left && isRed t2.right then flipColors t2 else t2

def insert (cmp : RBT.Cmp α) (x : α) : CTree α → CTree α
  | nil => node x nil nil RED
  | node v l r c =>
    if cmp x v < 0 then balance (node v (insert cmp x l) r c)
    else if 0 < cmp x v then balance (node v l (insert cmp x r) c)
    else balance (node v l r c)

def insertP (cmp : RBT.Cmp κ) (k : κ) (w : ν) : CTree (κ × ν) → CTree (κ × ν)
  | nil => node (k, w) nil nil RED
  | node p l r c =>
    if cmp k p.1 < 0 then balance (node p (insertP cmp k w l) r c)
    else if 0 < cmp k p.1 then balance (node p l (insertP cmp k w r) c)
    else balance (node (p.1, w) l r c)

theorem ctCount_node (v : α) (l r : CTree α) (c : Color) :
    count (node v l r c) = count l + count r + 1 := rfl

theorem ctCount_flipColors (t : CTree α) : count (flipColors t) = count t := by
  cases t with
  | nil => rfl
  | node v l r c => cases l <;> cases r <;> rfl

theorem ctCount_rotateLeft (t : CTree α) : count (rotateLeft t) = count t := by
  cases t with
  | nil => rfl
  | node v l r c =>
    cases r with
    | nil => rfl
    | node rv rl rr rc => simp only [rotateLeft, count]; omega

theorem ctCount_rotateRight (t : CTree α) : count (rotateRight t) = count t := by
  cases t with
  | nil => rfl
  | node v l r c =>
    cases l with
    | nil => rfl
    | node lv ll lr lc => simp only [rotateRight, count]; omega

theorem ctCount_setRight_rotateRight (t : CTree α) :
    count (setRight t (rotateRight t.right)) = count t := by
  cases t with
  | nil => rfl
  | node v l r c => simp only [setRight, right, count, ctCount_rotateRight]

theorem ctCount_moveRedLeft (t : CTree α) : count (moveRedLeft t) = count t := by
  simp only [moveRedLeft]
  split
  · rw [ctCount_flipColors, ctCount_rotateLeft, ctCount_setRight_rotateRight,
      ctCount_flipColors]
  · rw [ctCount_flipColors]

theorem ctCount_moveRedRight (t : CTree α) : count (moveRedRight t) = count t := by
  simp only [moveRedRight]
  split
  · rw [ctCount_flipColors, ctCount_rotateRight, ctCount_flipColors]
  · rw [ctCount_flipColors]

theorem ctFlipColors_ne_nil {t : CTree α} (h : t ≠ nil) : flipColors t ≠ nil := by
  cases t with
  | nil => exact absurd rfl h
  | node v l r c => cases l <;> cases r <;> simp [flipColors]

theorem ctRotateLeft_ne_nil {t : CTree α} (h : t ≠ nil) : rotateLeft t ≠ nil := by
  cases t with
  | nil => exact absurd rfl h
  | node v l r c => cases r <;> simp [rotateLeft]

theorem ctRotateRight_ne_nil {t : CTree α} (h : t ≠ nil) : rotateRight t ≠ nil := by
  cases t with
  | nil => exact absurd rfl h
  | node v l r c => cases l <;> simp [rotateRight]

theorem ctSetRight_ne_nil {t x : CTree α} (h : t ≠ nil) : setRight t x ≠ nil := by
  cases t with
  | nil => exact absurd rfl h
  | node v l r c => simp [setRight]

theorem ctMoveRedLeft_ne_nil {t : CTree α} (h : t ≠ nil) : moveRedLeft t ≠ nil := by
  simp only [moveRedLeft]
  split
  · exact ctFlipColors_ne_nil (ctRotateLeft_ne_nil (ctSetRight_ne_nil (ctFlipColors_ne_nil h)))
  · exact ctFlipColors_ne_nil h

theorem ctMoveRedRight_ne_nil {t : CTree α} (h : t ≠ nil) : moveRedRight t ≠ nil := by
  simp only [moveRedRight]
  split
  · exact ctFlipColors_ne_nil (ctRotateRight_ne_nil (ctFlipColors_ne_nil h))
  · exact ctFlipColors_ne_nil h

theorem ctCount_left_lt {t : CTree α} (h : t ≠ nil) : count t.left < count t := by
  cases t with
  | nil => exact absurd rfl h
  | node v l r c => simp only [left, count]; omega

theorem ctCount_right_lt {t : CTree α} (h : t ≠ nil) : count t.right < count t := by
  cases t with
  | nil => exact absurd rfl h
  | node v l r c => simp only [right, count]; omega

theorem ctCount_left_lt_node (v : α) (l r : CTree α) (c : Color) :
    count l < count (node v l r c) := by
  simp only [count]; omega

def deleteMin (t : CTree α) : CTree α :=
  match t with
  | nil => nil
  | node v l r c =>
    if isNil l then nil
    else if !isRed l && !isRed l.left then
      balance (setLeft (moveRedLeft (node v l r c))
        (deleteMin (moveRedLeft (node v l r c)).left))
    else
      balance (node v (deleteMin l) r c)
termination_by count t
decreasing_by
  · exact lt_of_lt_of_eq (ctCount_left_lt (ctMoveRedLeft_ne_nil (by simp)))
      (ctCount_moveRedLeft _)
  · apply ctCount_left_lt_node

def deleteMax (t : CTree α) : CTree α :=
  match t with
  | nil => nil
  | node v l r c =>
    let t1 := if isRed l then rotateRight (node v l r c) else node v l r c
    if isNil t1.right then nil
    else if !isRed t1.right && !isRed t1.right.left then
      balance (setRight (moveRedRight t1) (deleteMax (moveRedRight t1).right))
    else
      balance (setRight t1 (deleteMax t1.right))
termination_by count t
decreasing_by
  · refine lt_of_lt_of_eq (ctCount_right_lt (ctMoveRedRight_ne_nil ?_)) ?_
    · repeat' split
      all_goals first
        | exact ctRotateRight_ne_nil (by simp)
        | simp
    · rw [ctCount_moveRedRight]
      repeat' split
      all_goals simp [ctCount_rotateRight]
  · refine lt_of_lt_of_eq (ctCount_right_lt ?_) ?_
    · repeat' split
      all_goals first
        | exact ctRotateRight_ne_nil (by simp)
        | simp
    · repeat' split
      all_goals simp [ctCount_rotateRight]

def remove (cmp : RBT.Cmp α) (x : α) (t : CTree α) : CTree α :=
  match t with
  | nil => nil
  | node v l r c =>
    if cmp x v < 0 then
      if !isRed l && !isRed l.left then
        balance (setLeft (moveRedLeft (node v l r c))
          (remove cmp x (moveRedLeft (node v l r c)).left))
      else
        balance (node v (remove cmp x l) r c)
    else
      let t2 := if isRed l then rotateRight (node v l r c) else node v l r c
      if cmp x (valD t2 x) = 0 ∧ isNil t2.right then nil
      else
        let t3 := if !isRed t2.right && !isRed t2.right.left
          then moveRedRight t2 else t2
        if cmp x (valD t3 x) = 0 then
          match minVal t3.right with
          | some m => balance (setValue (setRight t3 (deleteMin t3.right)) m)
          | none => balance (setRight t3 (deleteMin t3.right))
        else
          balance (setRight t3 (remove cmp x t3.right))
termination_by count t
decreasing_by
  · exact lt_of_lt_of_eq (ctCount_left_lt (ctMoveRedLeft_ne_nil (by simp)))
      (ctCount_moveRedLeft _)
  · apply ctCount_left_lt_node
  · refine lt_of_lt_of_eq (ctCount_right_lt ?_) ?_
    · repeat' split
      all_goals first
        | exact ctMoveRedRight_ne_nil (ctRotateRight_ne_nil (by simp))
        | exact ctMoveRedRight_ne_nil (by simp)
        | exact ctRotateRight_ne_nil (by simp)
        | simp
    · repeat' split
      all_goals simp [ctCount_moveRedRight, ctCount_rotateRight]

/-! ### Assertion predicates

Each `...Ok` predicate records, for one call of the corresponding
function, the `ok(...)` assertions of `redBlackBST.ts` executed during
that call, including those of every helper invoked (at the arguments the
helper actually receives).  Claim C6 is that these hold on every call the
facades make. -/

def rotateLeftOk (t : CTree α) : Prop := isRed t.right = true

def rotateRightOk (t : CTree α) : Prop := isRed t.left = true

def flipColorsOk (t : CTree α) : Prop :=
  t.left ≠ nil ∧ t.right ≠ nil ∧ isRed t.left = isRed t.right ∧
    isRed t ≠ isRed t.left

def moveRedLeftOk (t : CTree α) : Prop :=
  isRed t = true ∧ t.left ≠ nil ∧ isRed t.left = false ∧
  isRed t.left.left = false ∧ t.right ≠ nil ∧ flipColorsOk t ∧
  (isRed (flipColors t).right.left = true →
    rotateRightOk (flipColors t).right ∧
    rotateLeftOk (setRight (flipColors t) (rotateRight (flipColors t).right)) ∧
    flipColorsOk (rotateLeft (setRight (flipColors t)
      (rotateRight (flipColors t).right))))

def moveRedRightOk (t : CTree α) : Prop :=
  isRed t = true ∧ t.right ≠ nil ∧ isRed t.right = false ∧
  isRed t.right.left = false ∧ t.left ≠ nil ∧ flipColorsOk t ∧
  (isRed (flipColors t).left.left = true →
    rotateRightOk (flipColors t) ∧ flipColorsOk (rotateRight (flipColors t)))

def balanceOk (t : CTree α) : Prop :=
  ((isRed t.right && !isRed t.left) = true → rotateLeftOk t) ∧
  (let t1 := if isRed t.right && !isRed t.left then rotateLeft t else t
   ((isRed t1.left && isRed t1.left.left) = true → rotateRightOk t1) ∧
   (let t2 := if isRed t1.left && isRed t1.left.left then rotateRight t1 else t1
    (isRed t2.left && isRed t2.right) = true → flipColorsOk t2))

def insertOk (cmp : RBT.Cmp α) (x : α) : CTree α → Prop
  | nil => True
  | node v l r c =>
    if cmp x v < 0 then
      insertOk cmp x l ∧ balanceOk (node v (insert cmp x l) r c)
    else if 0 < cmp x v then
      insertOk cmp x r ∧ balanceOk (node v l (insert cmp x r) c)
    else balanceOk (node v l r c)

def deleteMinOk (t : CTree α) : Prop :=
  match t with
  | nil => True
  | node v l r c =>
    (isRed (node v l r c) = true ∨ isRed l = true) ∧
    (if isNil l then True
     else if !isRed l && !isRed l.left then
       moveRedLeftOk (node v l r c) ∧
       deleteMinOk (moveRedLeft (node v l r c)).left ∧
       balanceOk (setLeft (moveRedLeft (node v l r c))
         (deleteMin (moveRedLeft (node v l r c)).left))
     else
       deleteMinOk l ∧ balanceOk (node v (deleteMin l) r c))
termination_by count t
decreasing_by
  · exact lt_of_lt_of_eq (ctCount_left_lt (ctMoveRedLeft_ne_nil (by simp)))
      (ctCount_moveRedLeft _)
  · apply ctCount_left_lt_node

def deleteMaxOk (t : CTree α) : Prop :=
  match t with
  | nil => True
  | node v l r c =>
    (isRed (node v l r c) = true ∨ isRed r = true ∨ isRed l = true) ∧
    (isRed l = true → rotateRightOk (node v l r c)) ∧
    (let t1 := if isRed l then rotateRight (node v l r c) else node v l r c
     if isNil t1.right then True
     else if !isRed t1.right && !isRed t1.right.left then
       moveRedRightOk t1 ∧ deleteMaxOk (moveRedRight t1).right ∧
       balanceOk (setRight (moveRedRight t1) (deleteMax (moveRedRight t1).right))
     else
       deleteMaxOk t1.right ∧ balanceOk (setRight t1 (deleteMax t1.right)))
termination_by count t
decreasing_by
  · refine lt_of_lt_of_eq (ctCount_right_lt (ctMoveRedRight_ne_nil ?_)) ?_
    · repeat' split
      all_goals first
        | exact ctRotateRight_ne_nil (by simp)
        | simp
    · rw [ctCount_moveRedRight]
      repeat' split
      all_goals simp [ctCount_rotateRight]
  · refine lt_of_lt_of_eq (ctCount_right_lt ?_) ?_
    · repeat' split
      all_goals first
        | exact ctRotateRight_ne_nil (by simp)
        | simp
    · repeat' split
      all_goals simp [ctCount_rotateRight]

def removeOk (cmp : RBT.Cmp α) (x : α) (t : CTree α) : Prop :=
  match t with
  | nil => True
  | node v l r c =>
    if cmp x v < 0 then
      l ≠ nil ∧
      (if !isRed l && !isRed l.left then
        moveRedLeftOk (node v l r c) ∧
        removeOk cmp x (moveRedLeft (node v l r c)).left ∧
        balanceOk (setLeft (moveRedLeft (node v l r c))
          (remove cmp x (moveRedLeft (node v l r c)).left))
      else
        removeOk cmp x l ∧ balanceOk (node v (remove cmp x l) r c))
    else
      (isRed l = true → rotateRightOk (node v l r c)) ∧
      (let t2 := if isRed l then rotateRight (node v l r c) else node v l r c
       if cmp x (valD t2 x) = 0 ∧ isNil t2.right then True
       else
         t2.right ≠ nil ∧
         ((!isRed t2.right && !isRed t2.right.left) = true →
           moveRedRightOk t2) ∧
         (let t3 := if !isRed t2.right && !isRed t2.right.left
            then moveRedRight t2 else t2
          if cmp x (valD t3 x) = 0 then
            t3.right ≠ nil ∧ deleteMinOk t3.right ∧
            (match minVal t3.right with
             | some m => balanceOk (setValue (setRight t3 (deleteMin t3.right)) m)
             | none => balanceOk (setRight t3 (deleteMin t3.right)))
          else
            removeOk cmp x t3.right ∧
            balanceOk (setRight t3 (remove cmp x t3.right))))
termination_by count t
decreasing_by
  · exact lt_of_lt_of_eq (ctCount_left_lt (ctMoveRedLeft_ne_nil (by simp)))
      (ctCount_moveRedLeft _)
  · apply ctCount_left_lt_node
  · refine lt_of_lt_of_eq (ctCount_right_lt ?_) ?_
    · repeat' split
      all_goals first
        | exact ctMoveRedRight_ne_nil (ctRotateRight_ne_nil (by simp))
        | exact ctMoveRedRight_ne_nil (by simp)
        | exact ctRotateRight_ne_nil (by simp)
        | simp
    · repeat' split
      all_goals simp [ctCount_moveRedRight, ctCount_rotateRight]

/-! ### Invariants on size-erased trees -/

/-- Invariants 2 and 3 at every node: no red right child, and no red node
with a red left child. -/
def ok23 : CTree α → Prop
  | nil => True
  | node _ l r c => isRed r = false ∧ (c = RED → isRed l = false) ∧ ok23 l ∧ ok23 r

/-- Invariant 4: `Bal t n` means every path from the root of `t` to an
absent child passes through exactly `n` black nodes. -/
inductive Bal : CTree α → Nat → Prop where
  | nil : Bal .nil 0
  | red {v : α} {l r : CTree α} {n : Nat} :
      Bal l n → Bal r n → Bal (.node v l r RED) n
  | black {v : α} {l r : CTree α} {n : Nat} :
      Bal l n → Bal r n → Bal (.node v l r BLACK) (n + 1)

/-- Intermediate shape produced by `insert` under a red parent: both
subtrees fully satisfy invariants 2-3, no red right child at the root, but
the root may be red with a red left child. -/
def almost : CTree α → Prop
  | nil => True
  | node _ l r _ => ok23 l ∧ ok23 r ∧ isRed r = false

/-- Invariant 1 (BST order) stated through the in-order list. -/
def ordered (cmp : RBT.Cmp α) (t : CTree α) : Prop :=
  (toList t).Pairwise (fun a b => cmp a b < 0)

/-- Membership up to the comparator. -/
def memC (cmp : RBT.Cmp α) (x : α) (t : CTree α) : Prop :=
  ∃ y ∈ toList t, cmp x y = 0

end CTree

/-! ### Comparator contract

Spec section 6: the comparator must be a strict total order; the
container's correctness is conditional on this. -/

/-- Laws of a strict total order comparator (compare-equal keys behave
identically against third keys, but need not be equal objects). -/
structure CmpLaws (cmp : RBT.Cmp α) : Prop where
  asymm : ∀ a b, cmp a b < 0 ↔ 0 < cmp b a
  lt_trans : ∀ a b c, cmp a b < 0 → cmp b c < 0 → cmp a c < 0
  eq_lt : ∀ a b c, cmp a b = 0 → (cmp a c < 0 ↔ cmp b c < 0)
  eq_eq : ∀ a b c, cmp a b = 0 → (cmp a c = 0 ↔ cmp b c = 0)

/-- A comparator that additionally identifies compare-equal keys. -/
structure CmpLawsEq (cmp : RBT.Cmp α) extends CmpLaws cmp : Prop where
  eq_iff : ∀ a b, cmp a b = 0 → a = b

/-- The comparator `(a, b) => a - b` used throughout the repository's
tests. -/
def intCmp : RBT.Cmp Int := fun a b => a - b

/-- Key comparison lifted to (key, value) pairs, as the map's descent
compares only keys. -/
def pairCmp (cmp : RBT.Cmp κ) : RBT.Cmp (κ × ν) := fun p q => cmp p.1 q.1

namespace RBT

variable {α : Type}

/-- Forget the size fields. -/
def strip : RBT α → CTree α
  | nil => CTree.nil
  | node v l r c _ => CTree.node v (strip l) (strip r) c

/-- Invariant 6 as an executable check: every node's stored size field
equals 1 + size(left) + size(right). -/
def sizeOk : RBT α → Bool
  | nil => true
  | node _ l r _ s => (s == size l + size r + 1) && sizeOk l && sizeOk r

/-- The mutating calls of the sorted-set facade. -/
inductive SOp (α : Type) where
  | add (x : α) : SOp α
  | del (x : α) : SOp α
  | delMin : SOp α
  | delMax : SOp α
  | clear : SOp α

/-- One facade call on the sorted set (failed `deleteMin`/`deleteMax` on
an empty set throw and leave the state unchanged). -/
def sstep (cmp : Cmp α) (t : RBT α) : SOp α → RBT α
  | .add x => addS cmp x t
  | .del x => (deleteS cmp x t).2
  | .delMin =>
    match deleteMinS t with
    | .ok u => u
    | .error _ => t
  | .delMax =>
    match deleteMaxS t with
    | .ok u => u
    | .error _ => t
  | .clear => clearS

/-- The sorted-set state after a sequence of facade calls, from a freshly
constructed (empty) set. -/
def srun (cmp : Cmp α) (ops : List (SOp α)) : RBT α :=
  ops.foldl (sstep cmp) nil

/-- The mutating calls of the sorted-map facade. -/
inductive MOp (κ ν : Type) where
  | set (k : κ) (v : ν) : MOp κ ν
  | del (k : κ) : MOp κ ν
  | delMin : MOp κ ν
  | delMax : MOp κ ν
  | clear : MOp κ ν

/-- One facade call on the sorted map. -/
def mstep (cmp : Cmp κ) (t : RBT (κ × ν)) : MOp κ ν → RBT (κ × ν)
  | .set k v => setM cmp k v t
  | .del k => (deleteM cmp k t).2
  | .delMin =>
    match deleteMinM t with
    | .ok u => u
    | .error _ => t
  | .delMax =>
    match deleteMaxM t with
    | .ok u => u
    | .error _ => t
  | .clear => nil

/-- The sorted-map state after a sequence of facade calls, from a freshly
constructed (empty) map. -/
def mrun (cmp : Cmp κ) (ops : List (MOp κ ν)) : RBT (κ × ν) :=
  ops.foldl (mstep cmp) nil

end RBT

/-! ### Reference list model (claim C2) -/

/-- A `set`/`delete`-only call sequence on the map. -/
inductive KVOp (κ ν : Type) where
  | set (k : κ) (v : ν) : KVOp κ ν
  | del (k : κ) : KVOp κ ν

/-- The map call corresponding to a `KVOp`. -/
def KVOp.toM : KVOp κ ν → RBT.MOp κ ν
  | .set k v => .set k v
  | .del k => .del k

/-- The value of the most recent `set(k, ·)` not followed by a
`delete(k)`: the reference meaning of `get`. -/
def kvGet [DecidableEq κ] (k : κ) (ops : List (KVOp κ ν)) : Option ν :=
  ops.foldl
    (fun acc op =>
      match op with
      | .set k2 v => if k2 = k then some v else acc
      | .del k2 => if k2 = k then none else acc)
    none

/-- All keys ever passed to `set`. -/
def kvSetKeys : List (KVOp κ ν) → List κ
  | [] => []
  | .set k _ :: rest => k :: kvSetKeys rest
  | .del _ :: rest => kvSetKeys rest

/-- The number of distinct keys that have been set and not subsequently
deleted: the reference meaning of `size`. -/
def kvPresentCount [DecidableEq κ] (ops : List (KVOp κ ν)) : Nat :=
  ((kvSetKeys ops).dedup.filter (fun k => (kvGet k ops).isSome)).length

/-- Insertion into a key-sorted association list, overwriting the value on
an equal key. -/
def insKV (cmp : RBT.Cmp κ) (k : κ) (v : ν) : List (κ × ν) → List (κ × ν)
  | [] => [(k, v)]
  | p :: rest =>
    if cmp k p.1 < 0 then (k, v) :: p :: rest
    else if 0 < cmp k p.1 then p :: insKV cmp k v rest
    else (p.1, v) :: rest

/-- Insertion into a sorted list, ignored on an equal element (set). -/
def insV (cmp : RBT.Cmp α) (x : α) : List α → List α
  | [] => [x]
  | y :: rest =>
    if cmp x y < 0 then x :: y :: rest
    else if 0 < cmp x y then y :: insV cmp x rest
    else y :: rest

/-- Removal of the first compare-equal element. -/
def eraseC (cmp : RBT.Cmp α) (x : α) : List α → List α
  | [] => []
  | y :: rest => if cmp x y = 0 then rest else y :: eraseC cmp x rest

/-- Removal of the first entry with a compare-equal key. -/
def eraseK (cmp : RBT.Cmp κ) (k : κ) : List (κ × ν) → List (κ × ν)
  | [] => []
  | p :: rest => if cmp k p.1 = 0 then rest else p :: eraseK cmp k rest

/-- The list-level meaning of one map call. -/
def mLStep (cmp : RBT.Cmp κ) (l : List (κ × ν)) : RBT.MOp κ ν → List (κ × ν)
  | .set k v => insKV cmp k v l
  | .del k => eraseK cmp k l
  | .delMin => l.tail
  | .delMax => l.dropLast
  | .clear => []

/-! ### Claims settled by direct evaluation -/

/-- C1: the claim says that after each public call all six invariants
hold, among them invariant 6 (every node's `size` field equals
1 + size(left) + size(right)).  The set's `balance` never recomputes the
root's size (only the rotations touch sizes), so after `add(2); add(1)`
the root's size field is still 1 while the tree has 2 nodes: invariant 6
fails on this reachable state. -/
theorem C1_invariant6_fails_after_two_adds :
    RBT.sizeOk (RBT.addS intCmp 1 (RBT.addS intCmp 2 RBT.nil)) = false ∧
    RBT.count (RBT.addS intCmp 1 (RBT.addS intCmp 2 RBT.nil)) = 2 ∧
    RBT.sizeS (RBT.addS intCmp 1 (RBT.addS intCmp 2 RBT.nil)) = 1 := by
  refine ⟨?_, rfl, rfl⟩
  decide

/-- C3: the claim says `balance` recomputes the root's size field before
returning.  The source `balance` contains no size write: on a node whose
stored size is stale (999) and to which none of steps (a)-(c) applies,
`balance` returns the node unchanged, size still 999, while the
recomputation the spec describes would store 1. -/
theorem C3_balance_does_not_recompute_size :
    RBT.balance (RBT.node (5 : Int) RBT.nil RBT.nil BLACK 999) =
      RBT.node 5 RBT.nil RBT.nil BLACK 999 ∧
    RBT.size (RBT.balance (RBT.node (5 : Int) RBT.nil RBT.nil BLACK 999)) = 999 ∧
    RBT.size (RBT.recomputeSz (RBT.node (5 : Int) RBT.nil RBT.nil BLACK 999)) = 1 :=
  ⟨rfl, rfl, rfl⟩

/-- C4: the claim says `delete` on a present key decreases `size()` by
exactly 1.  On the reachable set state `add(2); add(1)` (where the stored
root size is stale), `delete(1)` returns `true` and removes the value, but
`size()` is 1 both before and after the call: it decreases by 0. -/
theorem C4_delete_size_decrease_fails :
    (RBT.deleteS intCmp 1 (RBT.addS intCmp 1 (RBT.addS intCmp 2 RBT.nil))).1 = true ∧
    RBT.hasS intCmp 1
      (RBT.deleteS intCmp 1 (RBT.addS intCmp 1 (RBT.addS intCmp 2 RBT.nil))).2 = false ∧
    RBT.sizeS (RBT.addS intCmp 1 (RBT.addS intCmp 2 RBT.nil)) = 1 ∧
    RBT.sizeS
      (RBT.deleteS intCmp 1 (RBT.addS intCmp 1 (RBT.addS intCmp 2 RBT.nil))).2 = 1 := by
  refine ⟨by decide, ?_, rfl, ?_⟩ <;>
    simp [RBT.deleteS, RBT.addS, RBT.hasS, RBT.sizeS, RBT.size, RBT.has,
      RBT.insert, RBT.remove, RBT.balance, RBT.setColor, RBT.isRed, RBT.left,
      RBT.right, RBT.rotateLeft, RBT.rotateRight, RBT.flipColors, RBT.isNil,
      RBT.valD, RBT.setValue, RBT.setLeft, RBT.setRight, intCmp, RED, BLACK]

/-- C7: on a freshly constructed (empty) map, `min`, `max`, `deleteMin`,
`deleteMax`, `floor(x)` and `ceiling(x)` all fail with the empty-tree
error for every comparator and argument; the failing calls return no new
root, so the state is unchanged by construction. -/
theorem C7_empty_container_failures :
    ∀ (κ ν : Type) (cmp : RBT.Cmp κ) (x : κ),
      RBT.minM (RBT.nil : RBT (κ × ν)) = .error .emptyTree ∧
      RBT.maxM (RBT.nil : RBT (κ × ν)) = .error .emptyTree ∧
      RBT.deleteMinM (RBT.nil : RBT (κ × ν)) = .error .emptyTree ∧
      RBT.deleteMaxM (RBT.nil : RBT (κ × ν)) = .error .emptyTree ∧
      RBT.floorM cmp x (RBT.nil : RBT (κ × ν)) = .error .emptyTree ∧
      RBT.ceilingM cmp x (RBT.nil : RBT (κ × ν)) = .error .emptyTree :=
  fun _ _ _ _ => ⟨rfl, rfl, rfl, rfl, rfl, rfl⟩

/-- C10: with the value type `Option Int` (whose `none` is the TypeScript
`undefined`), after `set(1, undefined)` the map reports `has(1) = true`
while the JavaScript-observable result of `get(1)` (the stored value and
the catch-produced `undefined` collapse into one type, here via
`Option.join`) is the same `undefined` sentinel as on the empty map, so
`get` returning the sentinel does not imply absence; `has` is decided by
its own comparator search. -/
theorem C10_has_true_get_undefined :
    RBT.hasM intCmp 1 (RBT.setM intCmp 1 (none : Option Int) RBT.nil) = true ∧
    RBT.getM intCmp 1 (RBT.setM intCmp 1 (none : Option Int) RBT.nil) = some none ∧
    (RBT.getM intCmp 1 (RBT.setM intCmp 1 (none : Option Int) RBT.nil)).join = none ∧
    (RBT.getM intCmp 1 (RBT.nil : RBT (Int × Option Int))).join = none := by
  refine ⟨by decide, by decide, by decide, rfl⟩

/-! ### Basic lemmas and strip commutation -/

namespace CTree

variable {α : Type}

@[simp] theorem ct_isRed_nil : isRed (nil : CTree α) = false := rfl

@[simp] theorem ct_isRed_node (v : α) (l r : CTree α) (c : Color) :
    isRed (node v l r c) = c := by
  simp [isRed, RED]

@[simp] theorem ct_left_nil : (nil : CTree α).left = nil := rfl

@[simp] theorem ct_left_node (v : α) (l r : CTree α) (c : Color) :
    (node v l r c).left = l := rfl

@[simp] theorem ct_right_nil : (nil : CTree α).right = nil := rfl

@[simp] theorem ct_right_node (v : α) (l r : CTree α) (c : Color) :
    (node v l r c).right = r := rfl

@[simp] theorem ct_isNil_nil : (nil : CTree α).isNil = true := rfl

@[simp] theorem ct_isNil_node (v : α) (l r : CTree α) (c : Color) :
    (node v l r c).isNil = false := rfl

@[simp] theorem ct_setLeft_node (v : α) (l r x : CTree α) (c : Color) :
    setLeft (node v l r c) x = node v x r c := rfl

@[simp] theorem ct_setRight_node (v : α) (l r x : CTree α) (c : Color) :
    setRight (node v l r c) x = node v l x c := rfl

@[simp] theorem ct_setValue_node (v w : α) (l r : CTree α) (c : Color) :
    setValue (node v l r c) w = node w l r c := rfl

@[simp] theorem ct_toList_nil : toList (nil : CTree α) = [] := rfl

@[simp] theorem ct_toList_node (v : α) (l r : CTree α) (c : Color) :
    toList (node v l r c) = toList l ++ v :: toList r := rfl

@[simp] theorem ct_valD_nil (d : α) : valD (nil : CTree α) d = d := rfl

@[simp] theorem ct_valD_node (v d : α) (l r : CTree α) (c : Color) :
    valD (node v l r c) d = v := rfl

end CTree

namespace RBT

variable {α : Type}

@[simp] theorem isRed_node (v : α) (l r : RBT α) (c : Color) (s : Nat) :
    isRed (node v l r c s) = c := by
  simp [isRed, RED]

@[simp] theorem isRed_nil : isRed (nil : RBT α) = false := rfl

@[simp] theorem left_node (v : α) (l r : RBT α) (c : Color) (s : Nat) :
    (node v l r c s).left = l := rfl

@[simp] theorem left_nil : (nil : RBT α).left = nil := rfl

@[simp] theorem right_node (v : α) (l r : RBT α) (c : Color) (s : Nat) :
    (node v l r c s).right = r := rfl

@[simp] theorem right_nil : (nil : RBT α).right = nil := rfl

@[simp] theorem strip_nil : strip (nil : RBT α) = CTree.nil := rfl

@[simp] theorem strip_node (v : α) (l r : RBT α) (c : Color) (s : Nat) :
    strip (node v l r c s) = CTree.node v (strip l) (strip r) c := rfl

@[simp] theorem strip_isRed (t : RBT α) : CTree.isRed (strip t) = isRed t := by
  cases t <;> simp [strip, CTree.isRed, isRed]

@[simp] theorem strip_left (t : RBT α) : (strip t).left = strip t.left := by
  cases t <;> rfl

@[simp] theorem strip_right (t : RBT α) : (strip t).right = strip t.right := by
  cases t <;> rfl

@[simp] theorem strip_isNil (t : RBT α) : (strip t).isNil = isNil t := by
  cases t <;> rfl

@[simp] theorem strip_eq_nil_iff (t : RBT α) : strip t = CTree.nil ↔ t = nil := by
  cases t <;> simp

@[simp] theorem strip_valD (t : RBT α) (d : α) : CTree.valD (strip t) d = valD t d := by
  cases t <;> rfl

@[simp] theorem strip_toList (t : RBT α) :
    CTree.toList (strip t) = createSnapshot t := by
  induction t with
  | nil => rfl
  | node v l r c s ihl ihr => simp [createSnapshot, ihl, ihr]

@[simp] theorem strip_minVal (t : RBT α) : CTree.minVal (strip t) = minVal t := by
  induction t with
  | nil => rfl
  | node v l r c s ihl ihr =>
    cases l with
    | nil => rfl
    | node lv ll lr lc ls =>
      simp only [strip_node, minVal, CTree.minVal]
      simpa using ihl

@[simp] theorem strip_count (t : RBT α) : CTree.count (strip t) = count t := by
  induction t with
  | nil => rfl
  | node v l r c s ihl ihr => simp [count, CTree.count, ihl, ihr]

@[simp] theorem strip_setLeft (t x : RBT α) :
    strip (setLeft t x) = CTree.setLeft (strip t) (strip x) := by
  cases t <;> rfl

@[simp] theorem strip_setRight (t x : RBT α) :
    strip (setRight t x) = CTree.setRight (strip t) (strip x) := by
  cases t <;> rfl

@[simp] theorem strip_setValue (t : RBT α) (v : α) :
    strip (setValue t v) = CTree.setValue (strip t) v := by
  cases t <;> rfl

@[simp] theorem strip_setColor (t : RBT α) (c : Color) :
    strip (setColor t c) = CTree.setColor (strip t) c := by
  cases t <;> rfl

@[simp] theorem strip_rotateLeft (t : RBT α) :
    strip (rotateLeft t) = CTree.rotateLeft (strip t) := by
  cases t with
  | nil => rfl
  | node v l r c s =>
    cases r with
    | nil => rfl
    | node rv rl rr rc rs => rfl

@[simp] theorem strip_rotateRight (t : RBT α) :
    strip (rotateRight t) = CTree.rotateRight (strip t) := by
  cases t with
  | nil => rfl
  | node v l r c s =>
    cases l with
    | nil => rfl
    | node lv ll lr lc ls => rfl

@[simp] theorem strip_flipColors (t : RBT α) :
    strip (flipColors t) = CTree.flipColors (strip t) := by
  cases t with
  | nil => rfl
  | node v l r c s => cases l <;> cases r <;> rfl

@[simp] theorem strip_moveRedLeft (t : RBT α) :
    strip (moveRedLeft t) = CTree.moveRedLeft (strip t) := by
  rw [moveRedLeft, CTree.moveRedLeft]
  have hc : CTree.isRed (CTree.flipColors (strip t)).right.left
      = isRed (flipColors t).right.left := by
    rw [← strip_flipColors, strip_right, strip_left, strip_isRed]
  rw [hc]
  split
  · simp only [strip_flipColors, strip_rotateLeft, strip_setRight,
      strip_rotateRight, ← strip_right]
  · rw [strip_flipColors]

@[simp] theorem strip_moveRedRight (t : RBT α) :
    strip (moveRedRight t) = CTree.moveRedRight (strip t) := by
  rw [moveRedRight, CTree.moveRedRight]
  have hc : CTree.isRed (CTree.flipColors (strip t)).left.left
      = isRed (flipColors t).left.left := by
    rw [← strip_flipColors, strip_left, strip_left, strip_isRed]
  rw [hc]
  split
  · simp only [strip_flipColors, strip_rotateRight]
  · rw [strip_flipColors]

@[simp] theorem strip_balance (t : RBT α) :
    strip (balance t) = CTree.balance (strip t) := by
  rw [balance, CTree.balance]
  have h1 : (CTree.isRed (strip t).right && !CTree.isRed (strip t).left)
      = (isRed t.right && !isRed t.left) := by
    rw [strip_right, strip_left, strip_isRed, strip_isRed]
  rw [h1]
  split
  · have h2 : (CTree.isRed (CTree.rotateLeft (strip t)).left &&
        CTree.isRed (CTree.rotateLeft (strip t)).left.left)
        = (isRed (rotateLeft t).left && isRed (rotateLeft t).left.left) := by
      rw [← strip_rotateLeft, strip_left, strip_left, strip_isRed, strip_isRed]
    rw [h2]
    split
    · have h3 : (CTree.isRed (CTree.rotateRight (CTree.rotateLeft (strip t))).left &&
          CTree.isRed (CTree.rotateRight (CTree.rotateLeft (strip t))).right)
          = (isRed (rotateRight (rotateLeft t)).left &&
             isRed (rotateRight (rotateLeft t)).right) := by
        rw [← strip_rotateLeft, ← strip_rotateRight, strip_left, strip_right,
          strip_isRed, strip_isRed]
      rw [h3]
      split
      · rw [strip_flipColors, strip_rotateRight, strip_rotateLeft]
      · rw [strip_rotateRight, strip_rotateLeft]
    · have h3 : (CTree.isRed (CTree.rotateLeft (strip t)).left &&
          CTree.isRed (CTree.rotateLeft (strip t)).right)
          = (isRed (rotateLeft t).left && isRed (rotateLeft t).right) := by
        rw [← strip_rotateLeft, strip_left, strip_right, strip_isRed, strip_isRed]
      rw [h3]
      split
      · rw [strip_flipColors, strip_rotateLeft]
      · rw [strip_rotateLeft]
  · have h2 : (CTree.isRed (strip t).left && CTree.isRed (strip t).left.left)
        = (isRed t.left && isRed t.left.left) := by
      rw [strip_left, strip_left, strip_isRed, strip_isRed]
    rw [h2]
    split
    · have h3 : (CTree.isRed (CTree.rotateRight (strip t)).left &&
          CTree.isRed (CTree.rotateRight (strip t)).right)
          = (isRed (rotateRight t).left && isRed (rotateRight t).right) := by
        rw [← strip_rotateRight, strip_left, strip_right, strip_isRed, strip_isRed]
      rw [h3]
      split
      · rw [strip_flipColors, strip_rotateRight]
      · rw [strip_rotateRight]
    · have h3 : (CTree.isRed (strip t).left && CTree.isRed (strip t).right)
          = (isRed t.left && isRed t.right) := by
        rw [strip_left, strip_right, strip_isRed, strip_isRed]
      rw [h3]
      split
      · rw [strip_flipColors]
      · rfl

@[simp] theorem strip_recomputeSz (t : RBT α) : strip (recomputeSz t) = strip t := by
  cases t <;> rfl

@[simp] theorem strip_balanceM (t : RBT α) :
    strip (balanceM t) = CTree.balance (strip t) := by
  rw [balanceM, strip_recomputeSz, strip_balance]

@[simp] theorem strip_insert (cmp : Cmp α) (x : α) (t : RBT α) :
    strip (insert cmp x t) = CTree.insert cmp x (strip t) := by
  induction t with
  | nil => rfl
  | node v l r c s ihl ihr =>
    simp only [strip_node]
    rw [insert, CTree.insert]
    split
    · rw [strip_balance, strip_node, ihl]
    · split
      · rw [strip_balance, strip_node, ihr]
      · rw [strip_balance, strip_node]

@[simp] theorem strip_insertP (cmp : Cmp κ) (k : κ) (w : ν) (t : RBT (κ × ν)) :
    strip (insertP cmp k w t) = CTree.insertP cmp k w (strip t) := by
  induction t with
  | nil => rfl
  | node v l r c s ihl ihr =>
    simp only [strip_node]
    rw [insertP, CTree.insertP]
    split
    · rw [strip_balanceM, strip_node, ihl]
    · split
      · rw [strip_balanceM, strip_node, ihr]
      · rw [strip_balanceM, strip_node]

end RBT

namespace RBT

variable {α : Type}

theorem strip_deleteMin (t : RBT α) :
    strip (deleteMin t) = CTree.deleteMin (strip t) := by
  induction t using deleteMin.induct with
  | case1 => simp [deleteMin, CTree.deleteMin]
  | case2 v l r c s hnil =>
    have hnil2 : l.strip.isNil = true := by simpa using hnil
    rw [deleteMin, strip_node, CTree.deleteMin]
    rw [if_pos hnil, if_pos hnil2]
    rfl
  | case3 v l r c s hnil hcond ih =>
    have hnil2 : ¬l.strip.isNil = true := by simpa using hnil
    have hcond2 : (!l.strip.isRed && !l.strip.left.isRed) = true := by
      simpa using hcond
    rw [deleteMin, strip_node, CTree.deleteMin]
    rw [if_neg hnil, if_pos hcond, if_neg hnil2, if_pos hcond2]
    simp only [strip_balance, strip_setLeft, ih, ← strip_left, strip_moveRedLeft,
      strip_node]
  | case4 v l r c s hnil hcond ih =>
    have hnil2 : ¬l.strip.isNil = true := by simpa using hnil
    have hcond2 : ¬(!l.strip.isRed && !l.strip.left.isRed) = true := by
      simpa using hcond
    rw [deleteMin, strip_node, CTree.deleteMin]
    rw [if_neg hnil, if_neg hcond, if_neg hnil2, if_neg hcond2]
    simp only [strip_balance, strip_node, ih]

theorem strip_deleteMinP (t : RBT α) :
    strip (deleteMinP t) = CTree.deleteMin (strip t) := by
  induction t using deleteMinP.induct with
  | case1 => simp [deleteMinP, CTree.deleteMin]
  | case2 v l r c s hnil =>
    have hnil2 : l.strip.isNil = true := by simpa using hnil
    rw [deleteMinP, strip_node, CTree.deleteMin]
    rw [if_pos hnil, if_pos hnil2]
    rfl
  | case3 v l r c s hnil hcond ih =>
    have hnil2 : ¬l.strip.isNil = true := by simpa using hnil
    have hcond2 : (!l.strip.isRed && !l.strip.left.isRed) = true := by
      simpa using hcond
    rw [deleteMinP, strip_node, CTree.deleteMin]
    rw [if_neg hnil, if_pos hcond, if_neg hnil2, if_pos hcond2]
    simp only [strip_balanceM, strip_setLeft, ih, ← strip_left, strip_moveRedLeft,
      strip_node]
  | case4 v l r c s hnil hcond ih =>
    have hnil2 : ¬l.strip.isNil = true := by simpa using hnil
    have hcond2 : ¬(!l.strip.isRed && !l.strip.left.isRed) = true := by
      simpa using hcond
    rw [deleteMinP, strip_node, CTree.deleteMin]
    rw [if_neg hnil, if_neg hcond, if_neg hnil2, if_neg hcond2]
    simp only [strip_balanceM, strip_node, ih]

theorem strip_deleteMax (t : RBT α) :
    strip (deleteMax t) = CTree.deleteMax (strip t) := by
  induction t using deleteMax.induct with
  | case1 => simp [deleteMax, CTree.deleteMax]
  | case2 v l r c s t1 h1 =>
    unfold_let t1 at h1
    simp only [dite_eq_ite] at h1
    rw [deleteMax, strip_node, CTree.deleteMax]
    have key : strip (if l.isRed = true then rotateRight (node v l r c s)
          else node v l r c s)
        = (if CTree.isRed (strip l) = true
            then CTree.rotateRight (CTree.node v (strip l) (strip r) c)
            else CTree.node v (strip l) (strip r) c) := by
      cases hl : l.isRed <;> simp [hl]
    rw [← key]
    simp only [strip_right, strip_isNil]
    rw [if_pos h1, if_pos h1]
    rfl
  | case3 v l r c s t1 h1 h2 ih =>
    unfold_let t1 at h1 h2 ih
    simp only [dite_eq_ite] at h1 h2 ih
    rw [deleteMax, strip_node, CTree.deleteMax]
    have key : strip (if l.isRed = true then rotateRight (node v l r c s)
          else node v l r c s)
        = (if CTree.isRed (strip l) = true
            then CTree.rotateRight (CTree.node v (strip l) (strip r) c)
            else CTree.node v (strip l) (strip r) c) := by
      cases hl : l.isRed <;> simp [hl]
    rw [← key]
    simp only [strip_right, strip_isNil, strip_isRed, strip_left]
    rw [if_neg h1, if_neg h1, if_pos h2, if_pos h2]
    simp only [strip_balance, strip_setRight, ih, strip_moveRedRight, ← strip_right]
  | case4 v l r c s t1 h1 h2 ih =>
    unfold_let t1 at h1 h2 ih
    simp only [dite_eq_ite] at h1 h2 ih
    rw [deleteMax, strip_node, CTree.deleteMax]
    have key : strip (if l.isRed = true then rotateRight (node v l r c s)
          else node v l r c s)
        = (if CTree.isRed (strip l) = true
            then CTree.rotateRight (CTree.node v (strip l) (strip r) c)
            else CTree.node v (strip l) (strip r) c) := by
      cases hl : l.isRed <;> simp [hl]
    rw [← key]
    simp only [strip_right, strip_isNil, strip_isRed, strip_left]
    rw [if_neg h1, if_neg h1, if_neg h2, if_neg h2]
    simp only [strip_balance, strip_setRight, ih, ← strip_right]

theorem strip_deleteMaxP (t : RBT α) :
    strip (deleteMaxP t) = CTree.deleteMax (strip t) := by
  induction t using deleteMaxP.induct with
  | case1 => simp [deleteMaxP, CTree.deleteMax]
  | case2 v l r c s t1 h1 =>
    unfold_let t1 at h1
    simp only [dite_eq_ite] at h1
    rw [deleteMaxP, strip_node, CTree.deleteMax]
    have key : strip (if l.isRed = true then rotateRight (node v l r c s)
          else node v l r c s)
        = (if CTree.isRed (strip l) = true
            then CTree.rotateRight (CTree.node v (strip l) (strip r) c)
            else CTree.node v (strip l) (strip r) c) := by
      cases hl : l.isRed <;> simp [hl]
    rw [← key]
    simp only [strip_right, strip_isNil]
    rw [if_pos h1, if_pos h1]
    rfl
  | case3 v l r c s t1 h1 h2 ih =>
    unfold_let t1 at h1 h2 ih
    simp only [dite_eq_ite] at h1 h2 ih
    rw [deleteMaxP, strip_node, CTree.deleteMax]
    have key : strip (if l.isRed = true then rotateRight (node v l r c s)
          else node v l r c s)
        = (if CTree.isRed (strip l) = true
            then CTree.rotateRight (CTree.node v (strip l) (strip r) c)
            else CTree.node v (strip l) (strip r) c) := by
      cases hl : l.isRed <;> simp [hl]
    rw [← key]
    simp only [strip_right, strip_isNil, strip_isRed, strip_left]
    rw [if_neg h1, if_neg h1, if_pos h2, if_pos h2]
    simp only [strip_balanceM, strip_setRight, ih, strip_moveRedRight, ← strip_right]
  | case4 v l r c s t1 h1 h2 ih =>
    unfold_let t1 at h1 h2 ih
    simp only [dite_eq_ite] at h1 h2 ih
    rw [deleteMaxP, strip_node, CTree.deleteMax]
    have key : strip (if l.isRed = true then rotateRight (node v l r c s)
          else node v l r c s)
        = (if CTree.isRed (strip l) = true
            then CTree.rotateRight (CTree.node v (strip l) (strip r) c)
            else CTree.node v (strip l) (strip r) c) := by
      cases hl : l.isRed <;> simp [hl]
    rw [← key]
    simp only [strip_right, strip_isNil, strip_isRed, strip_left]
    rw [if_neg h1, if_neg h1, if_neg h2, if_neg h2]
    simp only [strip_balanceM, strip_setRight, ih, ← strip_right]

theorem strip_remove (cmp : Cmp α) (x : α) (t : RBT α) :
    strip (remove cmp x t) = CTree.remove cmp x (strip t) := by
  induction t using remove.induct cmp x with
  | case1 => simp [remove, CTree.remove]
  | case2 v l r c s h1 h2 ih =>
    rw [remove, strip_node, CTree.remove]
    rw [if_pos h1, if_pos h1]
    simp only [strip_left, strip_isRed]
    rw [if_pos h2, if_pos h2]
    simp only [strip_balance, strip_setLeft, ih, ← strip_left, strip_moveRedLeft,
      strip_node]
  | case3 v l r c s h1 h2 ih =>
    rw [remove, strip_node, CTree.remove]
    rw [if_pos h1, if_pos h1]
    simp only [strip_left, strip_isRed]
    rw [if_neg h2, if_neg h2]
    simp only [strip_balance, strip_node, ih]
  | case4 v l r c s h1 t2 h2 =>
    unfold_let t2 at h2
    simp only [dite_eq_ite] at h2
    rw [remove, strip_node, CTree.remove]
    rw [if_neg h1, if_neg h1]
    have key2 : strip (if l.isRed = true then rotateRight (node v l r c s)
          else node v l r c s)
        = (if CTree.isRed (strip l) = true
            then CTree.rotateRight (CTree.node v (strip l) (strip r) c)
            else CTree.node v (strip l) (strip r) c) := by
      cases hl : l.isRed <;> simp [hl]
    rw [← key2]
    generalize hu : (if l.isRed = true then rotateRight (node v l r c s)
      else node v l r c s) = u at h2 ⊢
    simp only [strip_valD, strip_right, strip_isNil]
    rw [if_pos h2, if_pos h2]
    rfl
  | case5 v l r c s h1 t2 h2 t3 h3 m hm =>
    unfold_let t3 at h3 hm
    unfold_let t2 at h2 h3 hm
    simp only [dite_eq_ite] at h2 h3 hm
    rw [remove, strip_node, CTree.remove]
    rw [if_neg h1, if_neg h1]
    have key2 : strip (if l.isRed = true then rotateRight (node v l r c s)
          else node v l r c s)
        = (if CTree.isRed (strip l) = true
            then CTree.rotateRight (CTree.node v (strip l) (strip r) c)
            else CTree.node v (strip l) (strip r) c) := by
      cases hl : l.isRed <;> simp [hl]
    rw [← key2]
    generalize hu : (if l.isRed = true then rotateRight (node v l r c s)
      else node v l r c s) = u at h2 h3 hm ⊢
    simp only [strip_valD, strip_right, strip_isNil, strip_isRed, strip_left]
    rw [if_neg h2, if_neg h2]
    have key3 : strip (if (!u.right.isRed && !u.right.left.isRed) = true
          then moveRedRight u else u)
        = (if (!u.right.isRed && !u.right.left.isRed) = true
            then CTree.moveRedRight (strip u) else strip u) := by
      split <;> simp
    rw [← key3]
    generalize hw : (if (!u.right.isRed && !u.right.left.isRed) = true
      then moveRedRight u else u) = w at h3 hm ⊢
    simp only [strip_valD, strip_right, strip_minVal]
    rw [if_pos h3, if_pos h3, hm]
    simp only [strip_balance, strip_setValue, strip_setRight, strip_deleteMin,
      ← strip_right]
  | case6 v l r c s h1 t2 h2 t3 h3 hm =>
    unfold_let t3 at h3 hm
    unfold_let t2 at h2 h3 hm
    simp only [dite_eq_ite] at h2 h3 hm
    rw [remove, strip_node, CTree.remove]
    rw [if_neg h1, if_neg h1]
    have key2 : strip (if l.isRed = true then rotateRight (node v l r c s)
          else node v l r c s)
        = (if CTree.isRed (strip l) = true
            then CTree.rotateRight (CTree.node v (strip l) (strip r) c)
            else CTree.node v (strip l) (strip r) c) := by
      cases hl : l.isRed <;> simp [hl]
    rw [← key2]
    generalize hu : (if l.isRed = true then rotateRight (node v l r c s)
      else node v l r c s) = u at h2 h3 hm ⊢
    simp only [strip_valD, strip_right, strip_isNil, strip_isRed, strip_left]
    rw [if_neg h2, if_neg h2]
    have key3 : strip (if (!u.right.isRed && !u.right.left.isRed) = true
          then moveRedRight u else u)
        = (if (!u.right.isRed && !u.right.left.isRed) = true
            then CTree.moveRedRight (strip u) else strip u) := by
      split <;> simp
    rw [← key3]
    generalize hw : (if (!u.right.isRed && !u.right.left.isRed) = true
      then moveRedRight u else u) = w at h3 hm ⊢
    simp only [strip_valD, strip_right, strip_minVal]
    rw [if_pos h3, if_pos h3, hm]
    simp only [strip_balance, strip_setRight, strip_deleteMin, ← strip_right]
  | case7 v l r c s h1 t2 h2 t3 h3 ih =>
    unfold_let t3 at h3 ih
    unfold_let t2 at h2 h3 ih
    simp only [dite_eq_ite] at h2 h3 ih
    rw [remove, strip_node, CTree.remove]
    rw [if_neg h1, if_neg h1]
    have key2 : strip (if l.isRed = true then rotateRight (node v l r c s)
          else node v l r c s)
        = (if CTree.isRed (strip l) = true
            then CTree.rotateRight (CTree.node v (strip l) (strip r) c)
            else CTree.node v (strip l) (strip r) c) := by
      cases hl : l.isRed <;> simp [hl]
    rw [← key2]
    generalize hu : (if l.isRed = true then rotateRight (node v l r c s)
      else node v l r c s) = u at h2 h3 ih ⊢
    simp only [strip_valD, strip_right, strip_isNil, strip_isRed, strip_left]
    rw [if_neg h2, if_neg h2]
    have key3 : strip (if (!u.right.isRed && !u.right.left.isRed) = true
          then moveRedRight u else u)
        = (if (!u.right.isRed && !u.right.left.isRed) = true
            then CTree.moveRedRight (strip u) else strip u) := by
      split <;> simp
    rw [← key3]
    generalize hw : (if (!u.right.isRed && !u.right.left.isRed) = true
      then moveRedRight u else u) = w at h3 ih ⊢
    simp only [strip_valD, strip_right]
    rw [if_neg h3, if_neg h3]
    simp only [strip_balance, strip_setRight, ih, ← strip_right]

end RBT

theorem pairCmp_app (cmp : RBT.Cmp κ) (p q : κ × ν) :
    pairCmp cmp p q = cmp p.1 q.1 := rfl

theorem valD_fst_eq_keyD (u : RBT (κ × ν)) (k : κ) (w0 : ν) :
    (RBT.valD u (k, w0)).1 = RBT.keyD u k := by
  cases u <;> rfl

namespace RBT

theorem strip_removeP (cmp : Cmp κ) (k : κ) (w0 : ν) (t : RBT (κ × ν)) :
    strip (removeP cmp k t) = CTree.remove (pairCmp cmp) (k, w0) (strip t) := by
  induction t using removeP.induct cmp k with
  | case1 => simp [removeP, CTree.remove]
  | case2 p l r c s h1 h2 ih =>
    rw [removeP, strip_node, CTree.remove]
    simp only [pairCmp_app]
    rw [if_pos h1, if_pos h1]
    simp only [strip_left, strip_isRed]
    rw [if_pos h2, if_pos h2]
    simp only [strip_balanceM, strip_setLeft, ih, ← strip_left, strip_moveRedLeft,
      strip_node]
  | case3 p l r c s h1 h2 ih =>
    rw [removeP, strip_node, CTree.remove]
    simp only [pairCmp_app]
    rw [if_pos h1, if_pos h1]
    simp only [strip_left, strip_isRed]
    rw [if_neg h2, if_neg h2]
    simp only [strip_balanceM, strip_node, ih]
  | case4 p l r c s h1 t2 h2 =>
    unfold_let t2 at h2
    simp only [dite_eq_ite] at h2
    rw [removeP, strip_node, CTree.remove]
    simp only [pairCmp_app]
    rw [if_neg h1, if_neg h1]
    have key2 : strip (if l.isRed = true then rotateRight (node p l r c s)
          else node p l r c s)
        = (if CTree.isRed (strip l) = true
            then CTree.rotateRight (CTree.node p (strip l) (strip r) c)
            else CTree.node p (strip l) (strip r) c) := by
      cases hl : l.isRed <;> simp [hl]
    rw [← key2]
    generalize hu : (if l.isRed = true then rotateRight (node p l r c s)
      else node p l r c s) = u at h2 ⊢
    simp only [strip_valD, strip_right, strip_isNil, valD_fst_eq_keyD]
    rw [if_pos h2, if_pos h2]
    rfl
  | case5 p l r c s h1 t2 h2 t3 h3 m hm =>
    unfold_let t3 at h3 hm
    unfold_let t2 at h2 h3 hm
    simp only [dite_eq_ite] at h2 h3 hm
    rw [removeP, strip_node, CTree.remove]
    simp only [pairCmp_app]
    rw [if_neg h1, if_neg h1]
    have key2 : strip (if l.isRed = true then rotateRight (node p l r c s)
          else node p l r c s)
        = (if CTree.isRed (strip l) = true
            then CTree.rotateRight (CTree.node p (strip l) (strip r) c)
            else CTree.node p (strip l) (strip r) c) := by
      cases hl : l.isRed <;> simp [hl]
    rw [← key2]
    generalize hu : (if l.isRed = true then rotateRight (node p l r c s)
      else node p l r c s) = u at h2 h3 hm ⊢
    simp only [strip_valD, strip_right, strip_isNil, strip_isRed, strip_left,
      valD_fst_eq_keyD]
    rw [if_neg h2, if_neg h2]
    have key3 : strip (if (!u.right.isRed && !u.right.left.isRed) = true
          then moveRedRight u else u)
        = (if (!u.right.isRed && !u.right.left.isRed) = true
            then CTree.moveRedRight (strip u) else strip u) := by
      split <;> simp
    rw [← key3]
    generalize hw : (if (!u.right.isRed && !u.right.left.isRed) = true
      then moveRedRight u else u) = w at h3 hm ⊢
    simp only [strip_valD, strip_right, strip_minVal, valD_fst_eq_keyD]
    rw [if_pos h3, if_pos h3, hm]
    simp only [strip_balanceM, strip_setValue, strip_setRight, strip_deleteMinP,
      ← strip_right]
  | case6 p l r c s h1 t2 h2 t3 h3 hm =>
    unfold_let t3 at h3 hm
    unfold_let t2 at h2 h3 hm
    simp only [dite_eq_ite] at h2 h3 hm
    rw [removeP, strip_node, CTree.remove]
    simp only [pairCmp_app]
    rw [if_neg h1, if_neg h1]
    have key2 : strip (if l.isRed = true then rotateRight (node p l r c s)
          else node p l r c s)
        = (if CTree.isRed (strip l) = true
            then CTree.rotateRight (CTree.node p (strip l) (strip r) c)
            else CTree.node p (strip l) (strip r) c) := by
      cases hl : l.isRed <;> simp [hl]
    rw [← key2]
    generalize hu : (if l.isRed = true then rotateRight (node p l r c s)
      else node p l r c s) = u at h2 h3 hm ⊢
    simp only [strip_valD, strip_right, strip_isNil, strip_isRed, strip_left,
      valD_fst_eq_keyD]
    rw [if_neg h2, if_neg h2]
    have key3 : strip (if (!u.right.isRed && !u.right.left.isRed) = true
          then moveRedRight u else u)
        = (if (!u.right.isRed && !u.right.left.isRed) = true
            then CTree.moveRedRight (strip u) else strip u) := by
      split <;> simp
    rw [← key3]
    generalize hw : (if (!u.right.isRed && !u.right.left.isRed) = true
      then moveRedRight u else u) = w at h3 hm ⊢
    simp only [strip_valD, strip_right, strip_minVal, valD_fst_eq_keyD]
    rw [if_pos h3, if_pos h3, hm]
    simp only [strip_balanceM, strip_setRight, strip_deleteMinP, ← strip_right]
  | case7 p l r c s h1 t2 h2 t3 h3 ih =>
    unfold_let t3 at h3 ih
    unfold_let t2 at h2 h3 ih
    simp only [dite_eq_ite] at h2 h3 ih
    rw [removeP, strip_node, CTree.remove]
    simp only [pairCmp_app]
    rw [if_neg h1, if_neg h1]
    have key2 : strip (if l.isRed = true then rotateRight (node p l r c s)
          else node p l r c s)
        = (if CTree.isRed (strip l) = true
            then CTree.rotateRight (CTree.node p (strip l) (strip r) c)
            else CTree.node p (strip l) (strip r) c) := by
      cases hl : l.isRed <;> simp [hl]
    rw [← key2]
    generalize hu : (if l.isRed = true then rotateRight (node p l r c s)
      else node p l r c s) = u at h2 h3 ih ⊢
    simp only [strip_valD, strip_right, strip_isNil, strip_isRed, strip_left,
      valD_fst_eq_keyD]
    rw [if_neg h2, if_neg h2]
    have key3 : strip (if (!u.right.isRed && !u.right.left.isRed) = true
          then moveRedRight u else u)
        = (if (!u.right.isRed && !u.right.left.isRed) = true
            then CTree.moveRedRight (strip u) else strip u) := by
      split <;> simp
    rw [← key3]
    generalize hw : (if (!u.right.isRed && !u.right.left.isRed) = true
      then moveRedRight u else u) = w at h3 ih ⊢
    simp only [strip_valD, strip_right, valD_fst_eq_keyD]
    rw [if_neg h3, if_neg h3]
    simp only [strip_balanceM, strip_setRight, ih, ← strip_right]

end RBT

/-! ### Invariant infrastructure on size-erased trees -/

namespace CTree

variable {α : Type}

theorem ok23_nil : ok23 (nil : CTree α) := trivial

theorem ok23_node_iff (v : α) (l r : CTree α) (c : Color) :
    ok23 (node v l r c) ↔
      isRed r = false ∧ (c = RED → isRed l = false) ∧ ok23 l ∧ ok23 r :=
  Iff.rfl

theorem bal_nil_inv {n : Nat} (h : Bal (nil : CTree α) n) : n = 0 := by
  cases h; rfl

theorem bal_red_inv {v : α} {l r : CTree α} {n : Nat}
    (h : Bal (node v l r RED) n) : Bal l n ∧ Bal r n := by
  cases h with
  | red hl hr => exact ⟨hl, hr⟩

theorem bal_black_inv {v : α} {l r : CTree α} {n : Nat}
    (h : Bal (node v l r BLACK) n) : ∃ m, n = m + 1 ∧ Bal l m ∧ Bal r m := by
  cases h with
  | black hl hr => exact ⟨_, rfl, hl, hr⟩

theorem bal_node_inv {v : α} {l r : CTree α} {c : Color} {n : Nat}
    (h : Bal (node v l r c) n) : ∃ m, Bal l m ∧ Bal r m := by
  cases c with
  | true => exact ⟨n, bal_red_inv h⟩
  | false => obtain ⟨m, _, hl, hr⟩ := bal_black_inv h; exact ⟨m, hl, hr⟩

theorem bal_nil_of_black_zero {t : CTree α} (h : Bal t 0) (hb : isRed t = false) :
    t = nil := by
  cases t with
  | nil => rfl
  | node v l r c =>
    cases c with
    | true => simp at hb
    | false => exact absurd h (by intro h2; obtain ⟨m, hm, _, _⟩ := bal_black_inv h2; omega)

theorem bal_ne_nil_of_pos {t : CTree α} {n : Nat} (h : Bal t n) (hn : 0 < n) :
    t ≠ nil := by
  intro he; subst he; have := bal_nil_inv h; omega

/-- A red node's subtrees have the same black height as the node. -/
theorem isRed_ne_nil {t : CTree α} (h : isRed t = true) : t ≠ nil := by
  cases t <;> simp_all

theorem bal_setColor_black {t : CTree α} {n : Nat} (h : Bal t n)
    (hr : isRed t = true) : Bal (setColor t BLACK) (n + 1) := by
  cases t with
  | nil => simp at hr
  | node v l r c =>
    cases c with
    | true =>
      obtain ⟨hl, hr2⟩ := bal_red_inv h
      exact Bal.black hl hr2
    | false => simp [isRed, RED] at hr

theorem bal_setColor_black_of_black {t : CTree α} {n : Nat} (h : Bal t n)
    (hr : isRed t = false) : Bal (setColor t BLACK) n := by
  cases t with
  | nil => exact h
  | node v l r c =>
    cases c with
    | true => simp [isRed, RED] at hr
    | false => exact h

theorem bal_setColor_red {v : α} {l r : CTree α} {n : Nat}
    (h : Bal (node v l r BLACK) n) :
    ∃ m, n = m + 1 ∧ Bal (setColor (node v l r BLACK) RED) m := by
  obtain ⟨m, hm, hl, hr⟩ := bal_black_inv h
  exact ⟨m, hm, Bal.red hl hr⟩

theorem ok23_setColor_black {t : CTree α} (h : ok23 t) :
    ok23 (setColor t BLACK) := by
  cases t with
  | nil => trivial
  | node v l r c =>
    obtain ⟨h1, h2, h3, h4⟩ := h
    exact ⟨h1, by simp [BLACK, RED], h3, h4⟩

theorem ok23_setColor_red {t : CTree α} (h : ok23 t)
    (hl : isRed t.left = false) : ok23 (setColor t RED) := by
  cases t with
  | nil => trivial
  | node v l r c =>
    obtain ⟨h1, h2, h3, h4⟩ := h
    exact ⟨h1, fun _ => by simpa using hl, h3, h4⟩

theorem almost_of_ok23 {t : CTree α} (h : ok23 t) : almost t := by
  cases t with
  | nil => trivial
  | node v l r c => exact ⟨h.2.2.1, h.2.2.2, h.1⟩

theorem ok23_of_almost {t : CTree α} (h : almost t)
    (hrr : isRed t = true → isRed t.left = false) : ok23 t := by
  cases t with
  | nil => trivial
  | node v l r c =>
    refine ⟨h.2.2, ?_, h.1, h.2.1⟩
    intro hc
    subst hc
    simpa using hrr (by simp [isRed, RED])

/-! Balance computation under the four reachable configurations. -/

/-- `balance` is the identity when no fix-up applies. -/
theorem balance_id {v : α} {l r : CTree α} {c : Color}
    (hr : isRed r = false) (hll : ¬(isRed l = true ∧ isRed l.left = true)) :
    balance (node v l r c) = node v l r c := by
  rw [balance]
  simp only [ct_left_node, ct_right_node]
  have c1 : ¬((isRed r && !isRed l) = true) := by simp [hr]
  rw [if_neg c1]
  simp only [ct_left_node, ct_right_node]
  have c2 : ¬((isRed l && isRed l.left) = true) := by simpa using hll
  rw [if_neg c2]
  simp only [ct_left_node, ct_right_node]
  have c3 : ¬((isRed l && isRed r) = true) := by simp [hr]
  rw [if_neg c3]

/-- `balance` with a red right child and a non-red left child: one left
rotation. -/
theorem balance_rightRed {v lv : α} {l ll lr : CTree α} {c : Color}
    (hl : isRed l = false) (hll : isRed ll = false) (hlr : isRed lr = false) :
    balance (node v l (node lv ll lr RED) c) = node lv (node v l ll RED) lr c := by
  rw [balance]
  simp only [ct_left_node, ct_right_node]
  have c1 : (isRed (node lv ll lr RED) && !isRed l) = true := by
    rw [hl]; rfl
  rw [if_pos c1]
  have hrot : rotateLeft (node v l (node lv ll lr RED) c)
      = node lv (node v l ll RED) lr c := rfl
  rw [hrot]
  simp only [ct_left_node, ct_right_node]
  have c2 : ¬((isRed (node v l ll RED) && isRed l) = true) := by simp [hl]
  rw [if_neg c2]
  simp only [ct_left_node, ct_right_node]
  have c3 : ¬((isRed (node v l ll RED) && isRed lr) = true) := by simp [hlr]
  rw [if_neg c3]

/-- `balance` on a black node with two red children: one color flip. -/
theorem balance_bothRed {v lv rv : α} {ll lr rl rr : CTree α}
    (hll : isRed ll = false) :
    balance (node v (node lv ll lr RED) (node rv rl rr RED) BLACK)
      = node v (node lv ll lr BLACK) (node rv rl rr BLACK) RED := by
  rw [balance]
  simp only [ct_left_node, ct_right_node]
  have c1 : ¬((isRed (node rv rl rr RED) &&
      !isRed (node lv ll lr RED)) = true) := by simp [isRed, RED]
  rw [if_neg c1]
  simp only [ct_left_node, ct_right_node]
  have c2 : ¬((isRed (node lv ll lr RED) && isRed ll) = true) := by
    simp [hll]
  rw [if_neg c2]
  simp only [ct_left_node, ct_right_node]
  have c3 : (isRed (node lv ll lr RED) && isRed (node rv rl rr RED)) = true := by
    simp [isRed, RED]
  rw [if_pos c3]
  simp [flipColors, RED, BLACK]

/-- `balance` on a black node whose left child and left grandchild are
red: right rotation then color flip. -/
theorem balance_leftRedRed {v lv llv : α} {lla llb lr r : CTree α}
    (hr : isRed r = false) :
    balance (node v (node lv (node llv lla llb RED) lr RED) r BLACK)
      = node lv (node llv lla llb BLACK) (node v lr r BLACK) RED := by
  rw [balance]
  simp only [ct_left_node, ct_right_node]
  have c1 : ¬((isRed r &&
      !isRed (node lv (node llv lla llb RED) lr RED)) = true) := by simp [hr]
  rw [if_neg c1]
  simp only [ct_left_node, ct_right_node]
  have c2 : (isRed (node lv (node llv lla llb RED) lr RED) &&
      isRed (node llv lla llb RED)) = true := by simp [isRed, RED]
  rw [if_pos c2]
  have hrot : rotateRight (node v (node lv (node llv lla llb RED) lr RED) r BLACK)
      = node lv (node llv lla llb RED) (node v lr r RED) BLACK := rfl
  rw [hrot]
  simp only [ct_left_node, ct_right_node]
  have c3 : (isRed (node llv lla llb RED) &&
      isRed (node v lr r RED)) = true := by simp [isRed, RED]
  rw [if_pos c3]
  simp [flipColors, RED, BLACK]

/-! `moveRedLeft`/`moveRedRight` computation on their two reachable
configurations. -/

theorem moveRedLeft_eq_noRot {v lv rv : α} {ll lr rl rr : CTree α}
    (hrl : isRed rl = false) :
    moveRedLeft (node v (node lv ll lr BLACK) (node rv rl rr BLACK) RED)
      = node v (node lv ll lr RED) (node rv rl rr RED) BLACK := by
  rw [moveRedLeft]
  split
  · next h =>
    exfalso
    rw [show (flipColors (node v (node lv ll lr BLACK) (node rv rl rr BLACK) RED))
        = node v (node lv ll lr RED) (node rv rl rr RED) BLACK from by
      simp [flipColors, RED, BLACK]] at h
    simp only [ct_right_node, ct_left_node] at h
    rw [hrl] at h
    exact Bool.false_ne_true h
  · simp [flipColors, RED, BLACK]

theorem moveRedLeft_eq_rot {v lv rv rlv : α} {ll lr rla rlb rr : CTree α} :
    moveRedLeft (node v (node lv ll lr BLACK)
        (node rv (node rlv rla rlb RED) rr BLACK) RED)
      = node rlv (node v (node lv ll lr RED) rla BLACK)
          (node rv rlb rr BLACK) RED := by
  rfl

theorem moveRedRight_eq_noRot {v lv rv : α} {ll lr rl rr : CTree α}
    (hll : isRed ll = false) :
    moveRedRight (node v (node lv ll lr BLACK) (node rv rl rr BLACK) RED)
      = node v (node lv ll lr RED) (node rv rl rr RED) BLACK := by
  rw [moveRedRight]
  split
  · next h =>
    exfalso
    rw [show (flipColors (node v (node lv ll lr BLACK) (node rv rl rr BLACK) RED))
        = node v (node lv ll lr RED) (node rv rl rr RED) BLACK from by
      simp [flipColors, RED, BLACK]] at h
    simp only [ct_left_node] at h
    rw [hll] at h
    exact Bool.false_ne_true h
  · simp [flipColors, RED, BLACK]

theorem moveRedRight_eq_rot {v lv rv llv : α} {lla llb lr rl rr : CTree α} :
    moveRedRight (node v (node lv (node llv lla llb RED) lr BLACK)
        (node rv rl rr BLACK) RED)
      = node lv (node llv lla llb BLACK)
          (node v lr (node rv rl rr RED) BLACK) RED := by
  rfl

end CTree

/-! ### In-order lists of the rebalancing helpers -/

namespace CTree

variable {α : Type}

theorem toList_setColor (t : CTree α) (c : Color) :
    toList (setColor t c) = toList t := by
  cases t <;> rfl

theorem toList_rotateLeft (t : CTree α) : toList (rotateLeft t) = toList t := by
  cases t with
  | nil => rfl
  | node v l r c =>
    cases r with
    | nil => rfl
    | node rv rl rr rc => simp [rotateLeft, toList]

theorem toList_rotateRight (t : CTree α) : toList (rotateRight t) = toList t := by
  cases t with
  | nil => rfl
  | node v l r c =>
    cases l with
    | nil => rfl
    | node lv ll lr lc => simp [rotateRight, toList]

theorem toList_flipColors (t : CTree α) : toList (flipColors t) = toList t := by
  cases t with
  | nil => rfl
  | node v l r c => cases l <;> cases r <;> rfl

theorem toList_setRight_rotateRight (t : CTree α) :
    toList (setRight t (rotateRight t.right)) = toList t := by
  cases t with
  | nil => rfl
  | node v l r c => simp [setRight, right, toList, toList_rotateRight]

theorem toList_moveRedLeft (t : CTree α) : toList (moveRedLeft t) = toList t := by
  simp only [moveRedLeft]
  split
  · rw [toList_flipColors, toList_rotateLeft, toList_setRight_rotateRight,
      toList_flipColors]
  · rw [toList_flipColors]

theorem toList_moveRedRight (t : CTree α) : toList (moveRedRight t) = toList t := by
  simp only [moveRedRight]
  split
  · rw [toList_flipColors, toList_rotateRight, toList_flipColors]
  · rw [toList_flipColors]

theorem toList_balance (t : CTree α) : toList (balance t) = toList t := by
  simp only [balance]
  repeat' split
  all_goals simp [toList_flipColors, toList_rotateLeft, toList_rotateRight]

theorem toList_ne_nil {t : CTree α} (h : t ≠ nil) : toList t ≠ [] := by
  cases t with
  | nil => exact absurd rfl h
  | node v l r c => simp [toList]

theorem minVal_eq_head (t : CTree α) : minVal t = (toList t).head? := by
  induction t with
  | nil => rfl
  | node v l r c ihl ihr =>
    cases l with
    | nil => simp [minVal, toList]
    | node lv la lb lc =>
      have hne : toList (node lv la lb lc) ≠ [] := toList_ne_nil (by simp)
      rw [minVal, ihl]
      rw [show (node v (node lv la lb lc) r c).toList
          = (node lv la lb lc).toList ++ v :: r.toList from rfl]
      cases hL : toList (node lv la lb lc) with
      | nil => exact absurd hL hne
      | cons a as => rfl

end CTree

/-! ### Comparator consequences -/

theorem CmpLaws.self {cmp : RBT.Cmp α} (h : CmpLaws cmp) (a : α) :
    cmp a a = 0 := by
  rcases lt_trichotomy (cmp a a) 0 with h1 | h1 | h1
  · have h2 := (h.asymm a a).mp h1
    omega
  · exact h1
  · have h2 := (h.asymm a a).mpr h1
    omega

theorem CmpLaws.eq_symm {cmp : RBT.Cmp α} (h : CmpLaws cmp) {a b : α}
    (hab : cmp a b = 0) : cmp b a = 0 :=
  (h.eq_eq a b a hab).mp (h.self a)

theorem CmpLaws.eq_gt {cmp : RBT.Cmp α} (h : CmpLaws cmp) {a b : α} (c : α)
    (hab : cmp a b = 0) : 0 < cmp a c ↔ 0 < cmp b c := by
  have h1 := h.eq_lt a b c hab
  have h2 := h.eq_eq a b c hab
  omega

theorem CmpLaws.snd_eq_lt {cmp : RBT.Cmp α} (h : CmpLaws cmp) {b c : α} (a : α)
    (hbc : cmp b c = 0) : cmp a b < 0 ↔ cmp a c < 0 := by
  rw [h.asymm a b, h.asymm a c]
  exact h.eq_gt a hbc

theorem CmpLaws.snd_eq_gt {cmp : RBT.Cmp α} (h : CmpLaws cmp) {b c : α} (a : α)
    (hbc : cmp b c = 0) : 0 < cmp a b ↔ 0 < cmp a c := by
  rw [← h.asymm b a, ← h.asymm c a]
  exact h.eq_lt b c a hbc

theorem CmpLaws.snd_eq_eq {cmp : RBT.Cmp α} (h : CmpLaws cmp) {b c : α} (a : α)
    (hbc : cmp b c = 0) : cmp a b = 0 ↔ cmp a c = 0 := by
  have h1 := h.snd_eq_lt a hbc
  have h2 := h.snd_eq_gt a hbc
  omega

/-- No element of a block strictly below `v` compares equal to an `x` at or
above `v`. -/
theorem CmpLaws.no_hit_low {cmp : RBT.Cmp α} (h : CmpLaws cmp) {x v : α}
    {L : List α} (hlt : ∀ y ∈ L, cmp y v < 0) (hx : 0 ≤ cmp x v) :
    ∀ y ∈ L, cmp x y ≠ 0 := by
  intro y hy hxy
  have h1 := (h.eq_lt x y v hxy).mpr (hlt y hy)
  omega

/-- No element of a block strictly above `v` compares equal to an `x`
strictly below `v`. -/
theorem CmpLaws.no_hit_high {cmp : RBT.Cmp α} (h : CmpLaws cmp) {x v : α}
    {L : List α} (hgt : ∀ y ∈ L, cmp v y < 0) (hx : cmp x v < 0) :
    ∀ y ∈ L, cmp x y ≠ 0 := by
  intro y hy hxy
  have h1 := (h.eq_lt x y v hxy).mp hx
  have h2 := (h.asymm v y).mp (hgt y hy)
  omega

/-! ### Order and membership decomposition -/

namespace CTree

variable {α : Type}

theorem ordered_node_iff (cmp : RBT.Cmp α) (v : α) (l r : CTree α) (c : Color) :
    ordered cmp (node v l r c) ↔
      ordered cmp l ∧ ordered cmp r ∧
      (∀ y ∈ toList l, cmp y v < 0) ∧ (∀ y ∈ toList r, cmp v y < 0) ∧
      (∀ a ∈ toList l, ∀ b ∈ toList r, cmp a b < 0) := by
  simp only [ordered, ct_toList_node, List.pairwise_append, List.pairwise_cons,
    List.mem_cons]
  constructor
  · rintro ⟨h1, ⟨h2, h3⟩, h4⟩
    exact ⟨h1, h3, fun y hy => (h4 y hy v (Or.inl rfl)),
      h2, fun a ha b hb => h4 a ha b (Or.inr hb)⟩
  · rintro ⟨h1, h2, h3, h4, h5⟩
    refine ⟨h1, ⟨h4, h2⟩, ?_⟩
    rintro a ha b (rfl | hb)
    · exact h3 a ha
    · exact h5 a ha b hb

theorem ordered_node_left {cmp : RBT.Cmp α} {v : α} {l r : CTree α} {c : Color}
    (h : ordered cmp (node v l r c)) : ordered cmp l :=
  ((ordered_node_iff cmp v l r c).mp h).1

theorem ordered_node_right {cmp : RBT.Cmp α} {v : α} {l r : CTree α} {c : Color}
    (h : ordered cmp (node v l r c)) : ordered cmp r :=
  ((ordered_node_iff cmp v l r c).mp h).2.1

/-- Rebuild an ordered node from side conditions, with the cross condition
derived by transitivity. -/
theorem ordered_node_of {cmp : RBT.Cmp α} (hcmp : CmpLaws cmp) {v : α}
    {l r : CTree α} {c : Color} (hl : ordered cmp l) (hr : ordered cmp r)
    (hlt : ∀ y ∈ toList l, cmp y v < 0) (hgt : ∀ y ∈ toList r, cmp v y < 0) :
    ordered cmp (node v l r c) := by
  refine (ordered_node_iff cmp v l r c).mpr ⟨hl, hr, hlt, hgt, ?_⟩
  intro a ha b hb
  exact hcmp.lt_trans a v b (hlt a ha) (hgt b hb)

theorem memC_nil (cmp : RBT.Cmp α) (x : α) : ¬memC cmp x (nil : CTree α) := by
  simp [memC, toList]

theorem memC_node_iff (cmp : RBT.Cmp α) (x v : α) (l r : CTree α) (c : Color) :
    memC cmp x (node v l r c) ↔
      memC cmp x l ∨ cmp x v = 0 ∨ memC cmp x r := by
  simp only [memC, ct_toList_node, List.mem_append, List.mem_cons]
  constructor
  · rintro ⟨y, (hy | rfl | hy), hxy⟩
    · exact Or.inl ⟨y, hy, hxy⟩
    · exact Or.inr (Or.inl hxy)
    · exact Or.inr (Or.inr ⟨y, hy, hxy⟩)
  · rintro (⟨y, hy, hxy⟩ | hx | ⟨y, hy, hxy⟩)
    · exact ⟨y, Or.inl hy, hxy⟩
    · exact ⟨v, Or.inr (Or.inl rfl), hx⟩
    · exact ⟨y, Or.inr (Or.inr hy), hxy⟩

/-- When the query is below the root of an ordered tree, a hit can only be
in the left subtree. -/
theorem memC_left_of_lt {cmp : RBT.Cmp α} (hcmp : CmpLaws cmp) {x v : α}
    {l r : CTree α} {c : Color} (ho : ordered cmp (node v l r c))
    (hm : memC cmp x (node v l r c)) (hx : cmp x v < 0) : memC cmp x l := by
  rcases (memC_node_iff cmp x v l r c).mp hm with h | h | ⟨y, hy, hxy⟩
  · exact h
  · omega
  · have := hcmp.no_hit_high ((ordered_node_iff cmp v l r c).mp ho).2.2.2.1 hx y hy
    exact absurd hxy this

/-- When the query is at or above the root of an ordered tree, a hit can
only be at the root or in the right subtree. -/
theorem memC_right_of_ge {cmp : RBT.Cmp α} (hcmp : CmpLaws cmp) {x v : α}
    {l r : CTree α} {c : Color} (ho : ordered cmp (node v l r c))
    (hm : memC cmp x (node v l r c)) (hx : 0 ≤ cmp x v) :
    cmp x v = 0 ∨ memC cmp x r := by
  rcases (memC_node_iff cmp x v l r c).mp hm with ⟨y, hy, hxy⟩ | h | h
  · have := hcmp.no_hit_low ((ordered_node_iff cmp v l r c).mp ho).2.2.1 hx y hy
    exact absurd hxy this
  · exact Or.inl h
  · exact Or.inr h

end CTree

/-! ### List-level erase and insert lemmas -/

theorem eraseC_cons_hit {cmp : RBT.Cmp α} {x y : α} (ys : List α)
    (h : cmp x y = 0) : eraseC cmp x (y :: ys) = ys := by
  simp [eraseC, h]

theorem eraseC_cons_miss {cmp : RBT.Cmp α} {x y : α} (ys : List α)
    (h : cmp x y ≠ 0) : eraseC cmp x (y :: ys) = y :: eraseC cmp x ys := by
  simp [eraseC, h]

theorem eraseC_append_no_hit {cmp : RBT.Cmp α} {x : α} {xs : List α}
    (ys : List α) (h : ∀ y ∈ xs, cmp x y ≠ 0) :
    eraseC cmp x (xs ++ ys) = xs ++ eraseC cmp x ys := by
  induction xs with
  | nil => rfl
  | cons a as ih =>
    rw [List.cons_append, eraseC_cons_miss _ (h a (by simp)),
      ih (fun y hy => h y (by simp [hy])), List.cons_append]

theorem eraseC_append_hit {cmp : RBT.Cmp α} {x : α} {xs : List α}
    (ys : List α) (h : ∃ y ∈ xs, cmp x y = 0) :
    eraseC cmp x (xs ++ ys) = eraseC cmp x xs ++ ys := by
  induction xs with
  | nil => simp at h
  | cons a as ih =>
    by_cases ha : cmp x a = 0
    · rw [List.cons_append, eraseC_cons_hit _ ha, eraseC_cons_hit _ ha]
    · obtain ⟨y, hy, hxy⟩ := h
      rcases List.mem_cons.mp hy with rfl | hy2
      · exact absurd hxy ha
      · rw [List.cons_append, eraseC_cons_miss _ ha, eraseC_cons_miss _ ha,
          ih ⟨y, hy2, hxy⟩, List.cons_append]

theorem insV_append_lt {cmp : RBT.Cmp α} {x v : α} (xs ys : List α)
    (h : cmp x v < 0) :
    insV cmp x (xs ++ v :: ys) = insV cmp x xs ++ v :: ys := by
  induction xs with
  | nil => simp [insV, h]
  | cons a as ih =>
    rw [List.cons_append, insV, insV]
    split
    · rfl
    · split
      · rw [ih, List.cons_append]
      · rfl

theorem insV_append_gt {cmp : RBT.Cmp α} {x v : α} {xs : List α} (ys : List α)
    (hxs : ∀ y ∈ xs, 0 < cmp x y) (h : 0 < cmp x v) :
    insV cmp x (xs ++ v :: ys) = xs ++ v :: insV cmp x ys := by
  induction xs with
  | nil =>
    have h1 : ¬cmp x v < 0 := by omega
    simp [insV, h1, h]
  | cons a as ih =>
    have h1 : 0 < cmp x a := hxs a (by simp)
    have h2 : ¬cmp x a < 0 := by omega
    rw [List.cons_append, insV, if_neg h2, if_pos h1,
      ih (fun y hy => hxs y (by simp [hy])), List.cons_append]

theorem insV_append_eq {cmp : RBT.Cmp α} {x v : α} {xs : List α} (ys : List α)
    (hxs : ∀ y ∈ xs, 0 < cmp x y) (h : cmp x v = 0) :
    insV cmp x (xs ++ v :: ys) = xs ++ v :: ys := by
  induction xs with
  | nil =>
    have h1 : ¬cmp x v < 0 := by omega
    have h2 : ¬0 < cmp x v := by omega
    simp [insV, h1, h2]
  | cons a as ih =>
    have h1 : 0 < cmp x a := hxs a (by simp)
    have h2 : ¬cmp x a < 0 := by omega
    rw [List.cons_append, insV, if_neg h2, if_pos h1,
      ih (fun y hy => hxs y (by simp [hy]))]

theorem insKV_append_lt {cmp : RBT.Cmp κ} {k : κ} {w : ν} {p : κ × ν}
    (xs ys : List (κ × ν)) (h : cmp k p.1 < 0) :
    insKV cmp k w (xs ++ p :: ys) = insKV cmp k w xs ++ p :: ys := by
  induction xs with
  | nil => simp [insKV, h]
  | cons a as ih =>
    rw [List.cons_append, insKV, insKV]
    split
    · rfl
    · split
      · rw [ih, List.cons_append]
      · rfl

theorem insKV_append_gt {cmp : RBT.Cmp κ} {k : κ} {w : ν} {p : κ × ν}
    {xs : List (κ × ν)} (ys : List (κ × ν))
    (hxs : ∀ q ∈ xs, 0 < cmp k q.1) (h : 0 < cmp k p.1) :
    insKV cmp k w (xs ++ p :: ys) = xs ++ p :: insKV cmp k w ys := by
  induction xs with
  | nil =>
    have h1 : ¬cmp k p.1 < 0 := by omega
    simp [insKV, h1, h]
  | cons a as ih =>
    have h1 : 0 < cmp k a.1 := hxs a (by simp)
    have h2 : ¬cmp k a.1 < 0 := by omega
    rw [List.cons_append, insKV, if_neg h2, if_pos h1,
      ih (fun q hq => hxs q (by simp [hq])), List.cons_append]

theorem insKV_append_eq {cmp : RBT.Cmp κ} {k : κ} {w : ν} {p : κ × ν}
    {xs : List (κ × ν)} (ys : List (κ × ν))
    (hxs : ∀ q ∈ xs, 0 < cmp k q.1) (h : cmp k p.1 = 0) :
    insKV cmp k w (xs ++ p :: ys) = xs ++ (p.1, w) :: ys := by
  induction xs with
  | nil =>
    have h1 : ¬cmp k p.1 < 0 := by omega
    have h2 : ¬0 < cmp k p.1 := by omega
    simp [insKV, h1, h2]
  | cons a as ih =>
    have h1 : 0 < cmp k a.1 := hxs a (by simp)
    have h2 : ¬cmp k a.1 < 0 := by omega
    rw [List.cons_append, insKV, if_neg h2, if_pos h1,
      ih (fun q hq => hxs q (by simp [hq]))]
    rfl

/-! ### Assertion predicates under the reachable configurations -/

namespace CTree

variable {α : Type}

theorem balanceOk_id {t : CTree α} (hr : isRed t.right = false)
    (hll : ¬(isRed t.left = true ∧ isRed t.left.left = true)) : balanceOk t := by
  have hllb : (isRed t.left && isRed t.left.left) = false := by
    cases h1 : isRed t.left <;> cases h2 : isRed t.left.left <;> simp_all
  simp [balanceOk, hr, hllb]

theorem balanceOk_rightRed {v rv : α} {l rl rr : CTree α} {c : Color}
    (hl : isRed l = false) (hrr : isRed rr = false) :
    balanceOk (node v l (node rv rl rr RED) c) := by
  simp [balanceOk, rotateLeftOk, rotateRightOk, flipColorsOk, rotateLeft,
    hl, hrr, RED]

theorem balanceOk_bothRed {v lv rv : α} {ll lr rl rr : CTree α}
    (hll : isRed ll = false) :
    balanceOk (node v (node lv ll lr RED) (node rv rl rr RED) BLACK) := by
  simp [balanceOk, rotateLeftOk, rotateRightOk, flipColorsOk, hll, RED, BLACK]

theorem balanceOk_leftRedRed {v lv llv : α} {lla llb lr r : CTree α}
    (hr : isRed r = false) :
    balanceOk (node v (node lv (node llv lla llb RED) lr RED) r BLACK) := by
  simp [balanceOk, rotateLeftOk, rotateRightOk, flipColorsOk, rotateRight,
    hr, RED, BLACK]

theorem moveRedLeftOk_shape {v lv rv : α} {ll lr rl rr : CTree α}
    (hll : isRed ll = false) :
    moveRedLeftOk (node v (node lv ll lr BLACK) (node rv rl rr BLACK) RED) := by
  refine ⟨rfl, by simp, rfl, hll, by simp,
    ⟨by simp, by simp, rfl, by simp [RED, BLACK]⟩, ?_⟩
  intro h
  cases rl with
  | nil => exact absurd h (by simp [flipColors, RED, BLACK])
  | node rlv rla rlb rlc =>
    simp only [flipColors, ct_right_node, ct_left_node, ct_isRed_node] at h
    simp [flipColors, rotateRight, rotateLeft, setRight, rotateRightOk,
      rotateLeftOk, flipColorsOk, RED, BLACK, h]

theorem moveRedRightOk_shape {v lv rv : α} {ll lr rl rr : CTree α}
    (hrl : isRed rl = false) :
    moveRedRightOk (node v (node lv ll lr BLACK) (node rv rl rr BLACK) RED) := by
  refine ⟨rfl, by simp, rfl, hrl, by simp,
    ⟨by simp, by simp, rfl, by simp [RED, BLACK]⟩, ?_⟩
  intro h
  cases ll with
  | nil => exact absurd h (by simp [flipColors, RED, BLACK])
  | node llv lla llb llc =>
    simp only [flipColors, ct_right_node, ct_left_node, ct_isRed_node] at h
    simp [flipColors, rotateRight, rotateRightOk, flipColorsOk, RED, BLACK, h]

end CTree

/-! ### The insertion invariant -/

namespace CTree

variable {α : Type}

/-- Root-level red-red exclusion packaged from `ok23`. -/
theorem ok23_no_redred {u : CTree α} (h : ok23 u) :
    ¬(isRed u = true ∧ isRed u.left = true) := by
  rintro ⟨h1, h2⟩
  cases u with
  | nil => simp at h1
  | node a ua ub uc =>
    obtain ⟨_, q2, _, _⟩ := h
    rw [ct_isRed_node] at h1
    rw [ct_left_node] at h2
    rw [q2 h1] at h2
    exact absurd h2 (by simp)

/-- The shape produced by `insert`: a fully 2-3-sound tree, or — only under
a red parent — a red root with a red left child whose subtrees are sound. -/
def insRes (t u : CTree α) : Prop :=
  ok23 u ∨
  (isRed t = true ∧ isRed u = true ∧ isRed u.left = true ∧
    isRed u.right = false ∧ ok23 u.left ∧ ok23 u.right)

theorem insert_spec (cmp : RBT.Cmp α) (x : α) :
    ∀ {t : CTree α} {n : Nat}, ok23 t → Bal t n →
      insert cmp x t ≠ nil ∧ Bal (insert cmp x t) n ∧
      insRes t (insert cmp x t) ∧ insertOk cmp x t := by
  intro t
  induction t with
  | nil =>
    intro n _ hb
    have h0 := bal_nil_inv hb
    subst h0
    exact ⟨by simp [insert], Bal.red Bal.nil Bal.nil,
      Or.inl ⟨rfl, fun _ => rfl, trivial, trivial⟩, trivial⟩
  | node v l r c ihl ihr =>
    intro n h23 hb
    obtain ⟨hr23, hlred, h23l, h23r⟩ := h23
    rcases lt_trichotomy (cmp x v) 0 with hlt | heq | hgt
    · -- descend into the left subtree
      have hmain : insert cmp x (node v l r c)
          = balance (node v (insert cmp x l) r c) := by
        rw [insert, if_pos hlt]
      have hokeq : insertOk cmp x (node v l r c)
          = (insertOk cmp x l ∧ balanceOk (node v (insert cmp x l) r c)) := by
        rw [insertOk, if_pos hlt]
      rw [hmain, hokeq]
      rcases Or.symm (Bool.eq_false_or_eq_true c) with hc | hc
      · -- BLACK root
        have hc2 : c = BLACK := hc
        subst hc2
        obtain ⟨m, hm, hbl, hbr⟩ := bal_black_inv hb
        subst hm
        obtain ⟨hne, hbu, hres, hoku⟩ := ihl h23l hbl
        rcases hres with hoku23 | ⟨hlr, hured, hulred, hurb, hokul, hokur⟩
        · rw [balance_id hr23 (ok23_no_redred hoku23)]
          exact ⟨by simp, Bal.black hbu hbr,
            Or.inl ⟨hr23, fun h => absurd h (by decide), hoku23, h23r⟩,
            hoku, balanceOk_id hr23 (ok23_no_redred hoku23)⟩
        · -- red-red left child under a black parent
          cases hu : insert cmp x l with
          | nil => exact absurd hu hne
          | node a ua ub uc =>
            rw [hu] at hbu hured hulred hurb hokul hokur
            rw [ct_isRed_node] at hured
            have huc : uc = RED := hured
            subst huc
            rw [ct_left_node] at hulred hokul
            rw [ct_right_node] at hurb hokur
            cases ua with
            | nil => simp at hulred
            | node b a1 a2 ac =>
              rw [ct_isRed_node] at hulred
              have hac : ac = RED := hulred
              subst hac
              obtain ⟨ha2, hba, hoka1, hoka2⟩ := hokul
              obtain ⟨hbua, hbub⟩ := bal_red_inv hbu
              obtain ⟨hba1, hba2⟩ := bal_red_inv hbua
              rw [balance_leftRedRed hr23]
              exact ⟨by simp, Bal.red (Bal.black hba1 hba2) (Bal.black hbub hbr),
                Or.inl ⟨rfl, fun _ => rfl,
                  ⟨ha2, fun h => absurd h (by decide), hoka1, hoka2⟩,
                  ⟨hr23, fun h => absurd h (by decide), hokur, h23r⟩⟩,
                hoku, balanceOk_leftRedRed hr23⟩
      · -- RED root: the left child is black, the result may be red-red
        have hc2 : c = RED := hc
        subst hc2
        have hlb : isRed l = false := hlred rfl
        obtain ⟨hbl, hbr⟩ := bal_red_inv hb
        obtain ⟨hne, hbu, hres, hoku⟩ := ihl h23l hbl
        have hoku23 : ok23 (insert cmp x l) := by
          rcases hres with h | ⟨hlr, _⟩
          · exact h
          · simp [hlb] at hlr
        rw [balance_id hr23 (ok23_no_redred hoku23)]
        refine ⟨by simp, Bal.red hbu hbr, ?_,
          hoku, balanceOk_id hr23 (ok23_no_redred hoku23)⟩
        cases hured : isRed (insert cmp x l) with
        | false =>
          exact Or.inl ⟨hr23, fun _ => hured, hoku23, h23r⟩
        | true =>
          exact Or.inr ⟨rfl, rfl, hured, hr23, hoku23, h23r⟩
    · -- equal: the tree is rebuilt unchanged
      have hmain : insert cmp x (node v l r c) = balance (node v l r c) := by
        rw [insert, if_neg (by omega), if_neg (by omega)]
      have hokeq : insertOk cmp x (node v l r c) = balanceOk (node v l r c) := by
        rw [insertOk, if_neg (by omega), if_neg (by omega)]
      rw [hmain, hokeq, balance_id hr23 (ok23_no_redred h23l)]
      exact ⟨by simp, hb, Or.inl ⟨hr23, hlred, h23l, h23r⟩,
        balanceOk_id hr23 (ok23_no_redred h23l)⟩
    · -- descend into the (always black) right subtree
      have hmain : insert cmp x (node v l r c)
          = balance (node v l (insert cmp x r) c) := by
        rw [insert, if_neg (by omega), if_pos hgt]
      have hokeq : insertOk cmp x (node v l r c)
          = (insertOk cmp x r ∧ balanceOk (node v l (insert cmp x r) c)) := by
        rw [insertOk, if_neg (by omega), if_pos hgt]
      rw [hmain, hokeq]
      rcases Or.symm (Bool.eq_false_or_eq_true c) with hc | hc
      · -- BLACK root
        have hc2 : c = BLACK := hc
        subst hc2
        obtain ⟨m, hm, hbl, hbr⟩ := bal_black_inv hb
        subst hm
        obtain ⟨hne, hbu, hres, hoku⟩ := ihr h23r hbr
        have hoku23 : ok23 (insert cmp x r) := by
          rcases hres with h | ⟨hrr, _⟩
          · exact h
          · simp [hr23] at hrr
        cases hured : isRed (insert cmp x r) with
        | false =>
          rw [balance_id hured (ok23_no_redred h23l)]
          exact ⟨by simp, Bal.black hbl hbu,
            Or.inl ⟨hured, fun h => absurd h (by decide), h23l, hoku23⟩,
            hoku, balanceOk_id hured (ok23_no_redred h23l)⟩
        | true =>
          cases hu : insert cmp x r with
          | nil => exact absurd hu hne
          | node a ua ub uc =>
            rw [hu] at hbu hoku23 hured
            rw [ct_isRed_node] at hured
            have huc : uc = RED := hured
            subst huc
            obtain ⟨hub, hua_red, hoka, hokb⟩ := hoku23
            obtain ⟨hbua, hbub⟩ := bal_red_inv hbu
            cases hlc : isRed l with
            | false =>
              rw [balance_rightRed hlc (hua_red rfl) hub]
              exact ⟨by simp, Bal.black (Bal.red hbl hbua) hbub,
                Or.inl ⟨hub, fun h => absurd h (by decide),
                  ⟨hua_red rfl, fun _ => hlc, h23l, hoka⟩, hokb⟩,
                hoku, balanceOk_rightRed hlc hub⟩
            | true =>
              cases l with
              | nil => simp at hlc
              | node b la lb lc =>
                rw [ct_isRed_node] at hlc
                have hlc2 : lc = RED := hlc
                subst hlc2
                obtain ⟨hlb2, hla_red, hokla, hoklb⟩ := h23l
                obtain ⟨hbla, hblb⟩ := bal_red_inv hbl
                rw [balance_bothRed (hla_red rfl)]
                exact ⟨by simp,
                  Bal.red (Bal.black hbla hblb) (Bal.black hbua hbub),
                  Or.inl ⟨rfl, fun _ => rfl,
                    ⟨hlb2, fun h => absurd h (by decide), hokla, hoklb⟩,
                    ⟨hub, fun h => absurd h (by decide), hoka, hokb⟩⟩,
                  hoku, balanceOk_bothRed (hla_red rfl)⟩
      · -- RED root: the left child is black
        have hc2 : c = RED := hc
        subst hc2
        have hlb : isRed l = false := hlred rfl
        obtain ⟨hbl, hbr⟩ := bal_red_inv hb
        obtain ⟨hne, hbu, hres, hoku⟩ := ihr h23r hbr
        have hoku23 : ok23 (insert cmp x r) := by
          rcases hres with h | ⟨hrr, _⟩
          · exact h
          · simp [hr23] at hrr
        cases hured : isRed (insert cmp x r) with
        | false =>
          rw [balance_id hured (by simp [hlb])]
          exact ⟨by simp, Bal.red hbl hbu,
            Or.inl ⟨hured, fun _ => hlb, h23l, hoku23⟩,
            hoku, balanceOk_id hured (by simp [hlb])⟩
        | true =>
          cases hu : insert cmp x r with
          | nil => exact absurd hu hne
          | node a ua ub uc =>
            rw [hu] at hbu hoku23 hured
            rw [ct_isRed_node] at hured
            have huc : uc = RED := hured
            subst huc
            obtain ⟨hub, hua_red, hoka, hokb⟩ := hoku23
            obtain ⟨hbua, hbub⟩ := bal_red_inv hbu
            rw [balance_rightRed hlb (hua_red rfl) hub]
            exact ⟨by simp, Bal.red (Bal.red hbl hbua) hbub,
              Or.inr ⟨rfl, rfl, rfl, hub,
                ⟨hua_red rfl, fun _ => hlb, h23l, hoka⟩, hokb⟩,
              hoku, balanceOk_rightRed hlb hub⟩

end CTree

/-! ### Inserting a stored value is the identity (claim C9) -/

namespace RBT

variable {α : Type}

/-- The set's `balance` is the identity when no fix-up applies (sizes
included, because `balance` never writes them). -/
theorem balance_id_rbt {v : α} {l r : RBT α} {c : Color} {s : Nat}
    (hr : isRed r = false) (hll : ¬(isRed l = true ∧ isRed l.left = true)) :
    balance (node v l r c s) = node v l r c s := by
  rw [balance]
  simp only [left_node, right_node]
  have c1 : ¬((isRed r && !isRed l) = true) := by simp [hr]
  rw [if_neg c1]
  simp only [left_node, right_node]
  have c2 : ¬((isRed l && isRed l.left) = true) := by simpa using hll
  rw [if_neg c2]
  simp only [left_node, right_node]
  have c3 : ¬((isRed l && isRed r) = true) := by simp [hr]
  rw [if_neg c3]

/-- Inserting a value that already has a compare-equal element in the tree
returns the input tree unchanged, node for node (sizes included). -/
theorem insert_mem_eq (cmp : Cmp α) (x : α) (hcmp : CmpLaws cmp) :
    ∀ {t : RBT α}, CTree.ok23 (strip t) → CTree.ordered cmp (strip t) →
      CTree.memC cmp x (strip t) → insert cmp x t = t := by
  intro t
  induction t with
  | nil =>
    intro _ _ hm
    exact absurd hm (CTree.memC_nil cmp x)
  | node v l r c s ihl ihr =>
    intro hok hord hmem
    rw [strip_node] at hok hord hmem
    obtain ⟨hr23, hlred, h23l, h23r⟩ := hok
    have hrb : isRed r = false := by rw [← strip_isRed]; exact hr23
    have hll : ¬(isRed l = true ∧ isRed l.left = true) := by
      have h1 := CTree.ok23_no_redred h23l
      rw [strip_isRed, strip_left, strip_isRed] at h1
      exact h1
    rcases lt_trichotomy (cmp x v) 0 with hlt | heq | hgt
    · have hml : CTree.memC cmp x (strip l) :=
        CTree.memC_left_of_lt hcmp hord hmem hlt
      rw [insert, if_pos hlt,
        ihl h23l (CTree.ordered_node_left hord) hml, balance_id_rbt hrb hll]
    · rw [insert, if_neg (by omega), if_neg (by omega), balance_id_rbt hrb hll]
    · have hmr : CTree.memC cmp x (strip r) := by
        rcases CTree.memC_right_of_ge hcmp hord hmem (by omega) with h | h
        · omega
        · exact h
      rw [insert, if_neg (by omega), if_pos hgt,
        ihr h23r (CTree.ordered_node_right hord) hmr, balance_id_rbt hrb hll]

theorem setColor_black_of_black {t : RBT α} (h : isRed t = false) :
    setColor t BLACK = t := by
  cases t with
  | nil => rfl
  | node v l r c s =>
    cases c with
    | true => simp [isRed, RED] at h
    | false => rfl

end RBT

/-- The comparator `(a, b) => a - b` on `Int` satisfies the strict-order
contract and identifies compare-equal keys. -/
theorem intCmp_laws : CmpLawsEq intCmp where
  asymm := fun a b => by unfold intCmp; omega
  lt_trans := fun a b c h1 h2 => by unfold intCmp at *; omega
  eq_lt := fun a b c h => by unfold intCmp at *; omega
  eq_eq := fun a b c h => by unfold intCmp at *; omega
  eq_iff := fun a b h => by unfold intCmp at h; omega

/-- C9: on a structurally sound, ordered, black-rooted set state, `add(v)`
for a value `v` already in the set (comparator hit) returns the identical
tree, so `size()`, membership of every element, and the in-order sequence
are unchanged, and `add` is idempotent. -/
theorem C9_add_of_present_is_noop {α : Type} (cmp : RBT.Cmp α)
    (hcmp : CmpLaws cmp) (x : α) (t : RBT α)
    (hok : CTree.ok23 (RBT.strip t)) (hord : CTree.ordered cmp (RBT.strip t))
    (hblack : RBT.isRed t = false) (hmem : CTree.memC cmp x (RBT.strip t)) :
    RBT.addS cmp x t = t ∧
    RBT.sizeS (RBT.addS cmp x t) = RBT.sizeS t ∧
    (∀ y, RBT.hasS cmp y (RBT.addS cmp x t) = RBT.hasS cmp y t) ∧
    RBT.iterS (RBT.addS cmp x t) = RBT.iterS t ∧
    RBT.addS cmp x (RBT.addS cmp x t) = RBT.addS cmp x t := by
  have h1 : RBT.addS cmp x t = t := by
    rw [RBT.addS, RBT.insert_mem_eq cmp x hcmp hok hord hmem,
      RBT.setColor_black_of_black hblack]
  exact ⟨h1, by rw [h1], fun y => by rw [h1], by rw [h1], by simp only [h1]⟩

theorem C9_add_of_present_is_noop_witness :
    RBT.addS intCmp 1 (RBT.addS intCmp 1 RBT.nil) = RBT.addS intCmp 1 RBT.nil :=
  (C9_add_of_present_is_noop intCmp intCmp_laws.toCmpLaws 1
    (RBT.addS intCmp 1 RBT.nil)
    ⟨rfl, fun h => absurd h (by decide), trivial, trivial⟩
    (by simp [CTree.ordered,
      show CTree.toList (RBT.strip (RBT.addS intCmp 1 RBT.nil)) = [1] from rfl])
    rfl
    ⟨1, by decide, by decide⟩).2.2.2.2

/-! ### In-order list of an insertion -/

namespace CTree

variable {α : Type}

theorem toList_insert (cmp : RBT.Cmp α) (x : α) (hcmp : CmpLaws cmp) :
    ∀ {t : CTree α}, ordered cmp t →
      toList (insert cmp x t) = insV cmp x (toList t) := by
  intro t
  induction t with
  | nil => intro _; rfl
  | node v l r c ihl ihr =>
    intro hord
    obtain ⟨hol, hor, hlt, hgt, _⟩ := (ordered_node_iff cmp v l r c).mp hord
    rcases lt_trichotomy (cmp x v) 0 with h | h | h
    · rw [insert, if_pos h, toList_balance, ct_toList_node, ihl hol,
        ct_toList_node, insV_append_lt _ _ h]
    · have hxs : ∀ y ∈ toList l, 0 < cmp x y := by
        intro y hy
        have h1 : cmp y x < 0 := (hcmp.snd_eq_lt y (hcmp.eq_symm h)).mp (hlt y hy)
        exact (hcmp.asymm y x).mp h1
      rw [insert, if_neg (by omega), if_neg (by omega), toList_balance,
        ct_toList_node, insV_append_eq _ hxs h]
    · have hxs : ∀ y ∈ toList l, 0 < cmp x y := by
        intro y hy
        have h1 : cmp v x < 0 := (hcmp.asymm v x).mpr h
        have h2 : cmp y x < 0 := hcmp.lt_trans y v x (hlt y hy) h1
        exact (hcmp.asymm y x).mp h2
      rw [insert, if_neg (by omega), if_pos h, toList_balance,
        ct_toList_node, ihr hor, ct_toList_node, insV_append_gt _ hxs h]

theorem toList_insertP {κ ν : Type} (cmp : RBT.Cmp κ) (k : κ) (w : ν)
    (hcmp : CmpLaws cmp) :
    ∀ {t : CTree (κ × ν)}, ordered (pairCmp cmp) t →
      toList (insertP cmp k w t) = insKV cmp k w (toList t) := by
  intro t
  induction t with
  | nil => intro _; rfl
  | node p l r c ihl ihr =>
    intro hord
    obtain ⟨hol, hor, hlt, hgt, _⟩ :=
      (ordered_node_iff (pairCmp cmp) p l r c).mp hord
    rcases lt_trichotomy (cmp k p.1) 0 with h | h | h
    · rw [insertP, if_pos h, toList_balance, ct_toList_node, ihl hol,
        ct_toList_node, insKV_append_lt _ _ h]
    · have hxs : ∀ q ∈ toList l, 0 < cmp k q.1 := by
        intro q hq
        have h1 : cmp q.1 k < 0 :=
          (hcmp.snd_eq_lt q.1 (hcmp.eq_symm h)).mp (hlt q hq)
        exact (hcmp.asymm q.1 k).mp h1
      rw [insertP, if_neg (by omega), if_neg (by omega), toList_balance,
        ct_toList_node, ct_toList_node, insKV_append_eq _ hxs h]
    · have hxs : ∀ q ∈ toList l, 0 < cmp k q.1 := by
        intro q hq
        have h1 : cmp p.1 k < 0 := (hcmp.asymm p.1 k).mpr h
        have h2 : cmp q.1 k < 0 := hcmp.lt_trans q.1 p.1 k (hlt q hq) h1
        exact (hcmp.asymm q.1 k).mp h2
      rw [insertP, if_neg (by omega), if_pos h, toList_balance,
        ct_toList_node, ihr hor, ct_toList_node, insKV_append_gt _ hxs h]

end CTree

/-! ### Sortedness of the list-level operations -/

theorem insV_mem {cmp : RBT.Cmp α} {x z : α} :
    ∀ {xs : List α}, z ∈ insV cmp x xs → z ∈ xs ∨ z = x := by
  intro xs
  induction xs with
  | nil => intro h; simp [insV] at h; exact Or.inr h
  | cons y ys ih =>
    intro h
    rw [insV] at h
    split at h
    · rcases List.mem_cons.mp h with rfl | h2
      · exact Or.inr rfl
      · exact Or.inl h2
    · split at h
      · rcases List.mem_cons.mp h with rfl | h2
        · exact Or.inl (by simp)
        · rcases ih h2 with h3 | h3
          · exact Or.inl (by simp [h3])
          · exact Or.inr h3
      · exact Or.inl h

theorem insV_pairwise {cmp : RBT.Cmp α} (hcmp : CmpLaws cmp) (x : α) :
    ∀ {xs : List α}, xs.Pairwise (fun a b => cmp a b < 0) →
      (insV cmp x xs).Pairwise (fun a b => cmp a b < 0) := by
  intro xs
  induction xs with
  | nil => intro _; simp [insV]
  | cons y ys ih =>
    intro h
    obtain ⟨hy, hys⟩ := List.pairwise_cons.mp h
    rw [insV]
    split
    · next hxy =>
      refine List.pairwise_cons.mpr ⟨?_, h⟩
      intro b hb
      rcases List.mem_cons.mp hb with rfl | hb2
      · exact hxy
      · exact hcmp.lt_trans x y b hxy (hy b hb2)
    · split
      · next hyx =>
        refine List.pairwise_cons.mpr ⟨?_, ih hys⟩
        intro b hb
        rcases insV_mem hb with hb2 | rfl
        · exact hy b hb2
        · exact (hcmp.asymm y b).mpr hyx
      · exact h

theorem insKV_mem {cmp : RBT.Cmp κ} {k : κ} {w : ν} {z : κ × ν} :
    ∀ {xs : List (κ × ν)}, z ∈ insKV cmp k w xs →
      z ∈ xs ∨ z.1 = k ∨ ∃ q ∈ xs, z = (q.1, w) := by
  intro xs
  induction xs with
  | nil =>
    intro h
    simp [insKV] at h
    exact Or.inr (Or.inl (by simp [h]))
  | cons y ys ih =>
    intro h
    rw [insKV] at h
    split at h
    · rcases List.mem_cons.mp h with rfl | h2
      · exact Or.inr (Or.inl rfl)
      · exact Or.inl h2
    · split at h
      · rcases List.mem_cons.mp h with rfl | h2
        · exact Or.inl (by simp)
        · rcases ih h2 with h3 | h3 | ⟨q, hq, h3⟩
          · exact Or.inl (by simp [h3])
          · exact Or.inr (Or.inl h3)
          · exact Or.inr (Or.inr ⟨q, by simp [hq], h3⟩)
      · rcases List.mem_cons.mp h with rfl | h2
        · exact Or.inr (Or.inr ⟨y, by simp, rfl⟩)
        · exact Or.inl (by simp [h2])

theorem insKV_pairwise {cmp : RBT.Cmp κ} (hcmp : CmpLaws cmp) (k : κ) (w : ν) :
    ∀ {xs : List (κ × ν)}, xs.Pairwise (fun a b => pairCmp cmp a b < 0) →
      (insKV cmp k w xs).Pairwise (fun a b => pairCmp cmp a b < 0) := by
  intro xs
  induction xs with
  | nil => intro _; simp [insKV]
  | cons y ys ih =>
    intro h
    obtain ⟨hy, hys⟩ := List.pairwise_cons.mp h
    rw [insKV]
    split
    · next hxy =>
      refine List.pairwise_cons.mpr ⟨?_, h⟩
      intro b hb
      rcases List.mem_cons.mp hb with rfl | hb2
      · exact hxy
      · exact hcmp.lt_trans k y.1 b.1 hxy (hy b hb2)
    · split
      · next hyx =>
        refine List.pairwise_cons.mpr ⟨?_, ih hys⟩
        intro b hb
        rcases insKV_mem hb with hb2 | hb2 | ⟨q, hq, rfl⟩
        · exact hy b hb2
        · show cmp y.1 b.1 < 0
          rw [hb2]
          exact (hcmp.asymm y.1 k).mpr hyx
        · exact hy q hq
      · refine List.pairwise_cons.mpr ⟨?_, hys⟩
        intro b hb
        exact hy b hb

theorem eraseC_sublist (cmp : RBT.Cmp α) (x : α) :
    ∀ (xs : List α), (eraseC cmp x xs).Sublist xs := by
  intro xs
  induction xs with
  | nil => exact List.Sublist.refl []
  | cons y ys ih =>
    rw [eraseC]
    split
    · exact List.sublist_cons_self y ys
    · exact List.Sublist.cons₂ y ih

theorem eraseK_sublist (cmp : RBT.Cmp κ) (k : κ) :
    ∀ (xs : List (κ × ν)), (eraseK cmp k xs).Sublist xs := by
  intro xs
  induction xs with
  | nil => exact List.Sublist.refl []
  | cons y ys ih =>
    rw [eraseK]
    split
    · exact List.sublist_cons_self y ys
    · exact List.Sublist.cons₂ y ih

/-! ### The `deleteMin` invariant -/

namespace CTree

variable {α : Type}

theorem deleteMin_spec :
    ∀ {t : CTree α} {n : Nat}, ok23 t → Bal t n →
      (isRed t = true ∨ isRed t.left = true) → t ≠ nil →
      ok23 (deleteMin t) ∧ Bal (deleteMin t) n ∧
      (isRed (deleteMin t) = true → isRed t = true) ∧
      toList (deleteMin t) = (toList t).tail ∧ deleteMinOk t := by
  intro t
  induction t using deleteMin.induct with
  | case1 =>
    intro n _ _ _ hne
    exact absurd rfl hne
  | case2 v l r c hnil =>
    intro n hok hb hpre _
    cases l with
    | node lv ll lr lc => simp [isNil] at hnil
    | nil =>
      obtain ⟨hr23, _, _, _⟩ := hok
      have hc : c = RED := by
        rcases hpre with h | h
        · rw [ct_isRed_node] at h
          exact h
        · simp at h
      subst hc
      obtain ⟨hbl, hbr⟩ := bal_red_inv hb
      have hn0 : n = 0 := bal_nil_inv hbl
      subst hn0
      have hrnil : r = nil := bal_nil_of_black_zero hbr hr23
      subst hrnil
      have hdm : deleteMin (node v nil nil RED) = nil := by
        rw [deleteMin]
        rw [if_pos (show isNil (nil : CTree α) = true from rfl)]
      rw [hdm]
      refine ⟨trivial, Bal.nil, by simp, rfl, ?_⟩
      rw [deleteMinOk]
      exact ⟨Or.inl rfl,
        by rw [if_pos (show isNil (nil : CTree α) = true from rfl)]; trivial⟩
  | case3 v l r c hnil hcond ih =>
    intro n hok hb hpre hne
    obtain ⟨hlb, hllb⟩ : isRed l = false ∧ isRed l.left = false := by
      simpa using hcond
    have hc : c = RED := by
      rcases hpre with h | h
      · rw [ct_isRed_node] at h
        exact h
      · rw [ct_left_node] at h
        rw [hlb] at h
        exact absurd h (by simp)
    subst hc
    obtain ⟨hr23, _, hokl, hokr⟩ := hok
    obtain ⟨hbl, hbr⟩ := bal_red_inv hb
    cases l with
    | nil => exact absurd rfl hnil
    | node lv ll lr lc =>
      have hlcb : lc = BLACK := by simpa using hlb
      subst hlcb
      rw [ct_left_node] at hllb
      obtain ⟨m, hm, hbll, hblr⟩ := bal_black_inv hbl
      subst hm
      obtain ⟨hlrb, _, hokll, hoklr⟩ := hokl
      cases r with
      | nil => exact absurd (bal_nil_inv hbr) (by omega)
      | node rv rl rr rc =>
        have hrcb : rc = BLACK := by simpa using hr23
        subst hrcb
        obtain ⟨m2, hm2, hbrl, hbrr⟩ := bal_black_inv hbr
        have hm2e : m = m2 := by omega
        subst hm2e
        obtain ⟨hrr, _, hokrl, hokrr⟩ := hokr
        cases hrl : isRed rl with
        | true =>
          cases rl with
          | nil => simp at hrl
          | node rlv rla rlb rlc =>
            have hrlc : rlc = RED := by simpa using hrl
            subst hrlc
            obtain ⟨hrlb2, hrlared, hokrla, hokrlb⟩ := hokrl
            obtain ⟨hbrla, hbrlb⟩ := bal_red_inv hbrl
            simp only [moveRedLeft_eq_rot, ct_left_node] at ih
            have hokX : ok23 (node v (node lv ll lr RED) rla BLACK) :=
              ⟨hrlared rfl, fun h => absurd h (by decide),
                ⟨hlrb, fun _ => hllb, hokll, hoklr⟩, hokrla⟩
            have hbX : Bal (node v (node lv ll lr RED) rla BLACK) (m + 1) :=
              Bal.black (Bal.red hbll hblr) hbrla
            obtain ⟨q1, q2, q3, q4, q5⟩ := ih hokX hbX (Or.inr rfl) (by simp)
            have hwb : isRed
                (deleteMin (node v (node lv ll lr RED) rla BLACK)) = false := by
              cases hq : isRed (deleteMin (node v (node lv ll lr RED) rla BLACK)) with
              | false => rfl
              | true => exact absurd (q3 hq) (by simp [BLACK])
            have hdm : deleteMin (node v (node lv ll lr BLACK)
                  (node rv (node rlv rla rlb RED) rr BLACK) RED)
                = node rlv (deleteMin (node v (node lv ll lr RED) rla BLACK))
                    (node rv rlb rr BLACK) RED := by
              rw [deleteMin]
              rw [if_neg hnil, if_pos hcond, moveRedLeft_eq_rot]
              simp only [ct_left_node, ct_setLeft_node]
              rw [@balance_id α rlv
                (deleteMin (node v (node lv ll lr RED) rla BLACK))
                (node rv rlb rr BLACK) RED rfl (by simp [hwb])]
            have hOk : deleteMinOk (node v (node lv ll lr BLACK)
                (node rv (node rlv rla rlb RED) rr BLACK) RED) := by
              rw [deleteMinOk]
              rw [if_neg hnil, if_pos hcond]
              refine ⟨Or.inl rfl, moveRedLeftOk_shape hllb, ?_, ?_⟩
              · rw [moveRedLeft_eq_rot]
                simp only [ct_left_node]
                exact q5
              · rw [moveRedLeft_eq_rot]
                simp only [ct_left_node, ct_setLeft_node]
                exact balanceOk_id (t := node rlv
                  (deleteMin (node v (node lv ll lr RED) rla BLACK))
                  (node rv rlb rr BLACK) RED) rfl (by simp [hwb])
            rw [hdm]
            refine ⟨⟨rfl, fun _ => hwb, q1,
                ⟨hrr, fun h => absurd h (by decide), hokrlb, hokrr⟩⟩,
              Bal.red q2 (Bal.black hbrlb hbrr), fun _ => rfl, ?_, hOk⟩
            simp only [ct_toList_node] at q4 ⊢
            rw [q4]
            cases hLL : toList ll <;> simp [List.append_assoc]
        | false =>
          simp only [moveRedLeft_eq_noRot hrl, ct_left_node] at ih
          have hokX : ok23 (node lv ll lr RED) :=
            ⟨hlrb, fun _ => hllb, hokll, hoklr⟩
          have hbX : Bal (node lv ll lr RED) m := Bal.red hbll hblr
          obtain ⟨q1, q2, q3, q4, q5⟩ := ih hokX hbX (Or.inl rfl) (by simp)
          cases hw : isRed (deleteMin (node lv ll lr RED)) with
          | false =>
            have hdm : deleteMin (node v (node lv ll lr BLACK)
                  (node rv rl rr BLACK) RED)
                = node rv (node v (deleteMin (node lv ll lr RED)) rl RED)
                    rr BLACK := by
              rw [deleteMin]
              rw [if_neg hnil, if_pos hcond, moveRedLeft_eq_noRot hrl]
              simp only [ct_left_node, ct_setLeft_node]
              rw [balance_rightRed hw hrl hrr]
            have hOk : deleteMinOk (node v (node lv ll lr BLACK)
                (node rv rl rr BLACK) RED) := by
              rw [deleteMinOk]
              rw [if_neg hnil, if_pos hcond]
              refine ⟨Or.inl rfl, moveRedLeftOk_shape hllb, ?_, ?_⟩
              · rw [moveRedLeft_eq_noRot hrl]
                simp only [ct_left_node]
                exact q5
              · rw [moveRedLeft_eq_noRot hrl]
                simp only [ct_left_node, ct_setLeft_node]
                exact balanceOk_rightRed hw hrr
            rw [hdm]
            refine ⟨⟨hrr, fun h => absurd h (by decide),
                ⟨hrl, fun _ => hw, q1, hokrl⟩, hokrr⟩,
              Bal.black (Bal.red q2 hbrl) hbrr, by simp [BLACK], ?_, hOk⟩
            simp only [ct_toList_node] at q4 ⊢
            rw [q4]
            cases hLL : toList ll <;> simp [List.append_assoc]
          | true =>
            cases hdmx : deleteMin (node lv ll lr RED) with
            | nil =>
              rw [hdmx] at hw
              simp at hw
            | node wv wa wb wc =>
              rw [hdmx] at q1 q2 q4 hw
              have hwc : wc = RED := by simpa using hw
              subst hwc
              obtain ⟨hwb2, hwared, hokwa, hokwb⟩ := q1
              obtain ⟨hbwa, hbwb⟩ := bal_red_inv q2
              have hdm : deleteMin (node v (node lv ll lr BLACK)
                    (node rv rl rr BLACK) RED)
                  = node v (node wv wa wb BLACK) (node rv rl rr BLACK) RED := by
                rw [deleteMin]
                rw [if_neg hnil, if_pos hcond, moveRedLeft_eq_noRot hrl]
                simp only [ct_left_node, ct_setLeft_node]
                rw [hdmx]
                rw [balance_bothRed (hwared rfl)]
              have hOk : deleteMinOk (node v (node lv ll lr BLACK)
                  (node rv rl rr BLACK) RED) := by
                rw [deleteMinOk]
                rw [if_neg hnil, if_pos hcond]
                refine ⟨Or.inl rfl, moveRedLeftOk_shape hllb, ?_, ?_⟩
                · rw [moveRedLeft_eq_noRot hrl]
                  simp only [ct_left_node]
                  exact q5
                · rw [moveRedLeft_eq_noRot hrl]
                  simp only [ct_left_node, ct_setLeft_node]
                  rw [hdmx]
                  exact balanceOk_bothRed (hwared rfl)
              rw [hdm]
              refine ⟨⟨rfl, fun _ => rfl,
                  ⟨hwb2, fun h => absurd h (by decide), hokwa, hokwb⟩,
                  ⟨hrr, fun h => absurd h (by decide), hokrl, hokrr⟩⟩,
                Bal.red (Bal.black hbwa hbwb) (Bal.black hbrl hbrr),
                fun _ => rfl, ?_, hOk⟩
              simp only [ct_toList_node] at q4 ⊢
              rw [q4]
              cases hLL : toList ll <;> simp [List.append_assoc]
  | case4 v l r c hnil hcond ih =>
    intro n hok hb hpre hne
    obtain ⟨hr23, hcred, hokl, hokr⟩ := hok
    have hcond2 : isRed l = true ∨ isRed l.left = true := by
      rcases Or.symm (Bool.eq_false_or_eq_true (isRed l)) with h1 | h1
      · rcases Or.symm (Bool.eq_false_or_eq_true (isRed l.left)) with h2 | h2
        · exact absurd (by simp [h1, h2]) hcond
        · exact Or.inr h2
      · exact Or.inl h1
    cases l with
    | nil => exact absurd rfl hnil
    | node lv ll lr lc =>
      cases hlred : isRed (node lv ll lr lc) with
      | true =>
        have hlc : lc = RED := by simpa using hlred
        subst hlc
        have hcb : c = BLACK := by
          rcases Or.symm (Bool.eq_false_or_eq_true c) with h1 | h1
          · exact h1
          · have hcr : c = RED := h1
            exact absurd (hcred hcr) (by simp [RED])
        subst hcb
        obtain ⟨m, hm, hbl, hbr⟩ := bal_black_inv hb
        subst hm
        obtain ⟨q1, q2, q3, q4, q5⟩ := ih hokl hbl (Or.inl rfl) (by simp)
        have hdm : deleteMin (node v (node lv ll lr RED) r BLACK)
            = node v (deleteMin (node lv ll lr RED)) r BLACK := by
          rw [deleteMin]
          rw [if_neg hnil, if_neg hcond]
          rw [balance_id hr23 (ok23_no_redred q1)]
        have hOk : deleteMinOk (node v (node lv ll lr RED) r BLACK) := by
          rw [deleteMinOk]
          rw [if_neg hnil, if_neg hcond]
          exact ⟨Or.inr rfl, q5, balanceOk_id hr23 (ok23_no_redred q1)⟩
        rw [hdm]
        refine ⟨⟨hr23, fun h => absurd h (by decide), q1, hokr⟩,
          Bal.black q2 hbr, by simp [BLACK], ?_, hOk⟩
        simp only [ct_toList_node] at q4 ⊢
        rw [q4]
        cases hLL : toList ll <;> simp [List.append_assoc]
      | false =>
        have hllred : isRed (node lv ll lr lc).left = true := by
          rcases hcond2 with h | h
          · exact absurd h (by simp [hlred])
          · exact h
        have hc : c = RED := by
          rcases hpre with h | h
          · rw [ct_isRed_node] at h
            exact h
          · rw [ct_left_node] at h
            exact absurd h (by simp [hlred])
        subst hc
        obtain ⟨hbl, hbr⟩ := bal_red_inv hb
        obtain ⟨q1, q2, q3, q4, q5⟩ := ih hokl hbl (Or.inr hllred) (by simp)
        have hwb : isRed (deleteMin (node lv ll lr lc)) = false := by
          cases hq : isRed (deleteMin (node lv ll lr lc)) with
          | false => rfl
          | true => exact absurd (q3 hq) (by simp [hlred])
        have hllx : ¬(isRed (deleteMin (node lv ll lr lc)) = true ∧
            isRed (deleteMin (node lv ll lr lc)).left = true) := by
          simp [hwb]
        have hdm : deleteMin (node v (node lv ll lr lc) r RED)
            = node v (deleteMin (node lv ll lr lc)) r RED := by
          rw [deleteMin]
          rw [if_neg hnil, if_neg hcond]
          rw [balance_id hr23 hllx]
        have hOk : deleteMinOk (node v (node lv ll lr lc) r RED) := by
          rw [deleteMinOk]
          rw [if_neg hnil, if_neg hcond]
          exact ⟨Or.inl rfl, q5, balanceOk_id hr23 hllx⟩
        rw [hdm]
        refine ⟨⟨hr23, fun _ => hwb, q1, hokr⟩,
          Bal.red q2 hbr, fun _ => rfl, ?_, hOk⟩
        simp only [ct_toList_node] at q4 ⊢
        rw [q4]
        cases hLL : toList ll <;> simp [List.append_assoc]

end CTree

theorem dropLast_cons_ne {β : Type _} (a : β) {l : List β} (h : l ≠ []) :
    (a :: l).dropLast = a :: l.dropLast := by
  cases l with
  | nil => exact absurd rfl h
  | cons b bs => rfl

/-! ### The `deleteMax` invariant -/

namespace CTree

variable {α : Type}

theorem deleteMax_spec :
    ∀ {t : CTree α} {n : Nat}, Bal t n → t ≠ nil →
      ((ok23 t ∧ (isRed t = true ∨ isRed t.left = true)) ∨
        (isRed t = false ∧ isRed t.left = false ∧ isRed t.right = true ∧
          ok23 t.left ∧ ok23 t.right)) →
      ok23 (deleteMax t) ∧ Bal (deleteMax t) n ∧
      (isRed (deleteMax t) = true → isRed t = true) ∧
      toList (deleteMax t) = (toList t).dropLast ∧ deleteMaxOk t := by
  intro t
  induction t using deleteMax.induct with
  | case1 =>
    intro n _ hne _
    exact absurd rfl hne
  | case2 v l r c t1 =>
    rename_i h1
    unfold_let t1 at h1
    simp only [dite_eq_ite] at h1
    intro n hb hne hshape
    cases hlred : isRed l with
    | true =>
      rw [if_pos hlred] at h1
      cases l with
      | nil => simp at hlred
      | node lv la lb lc =>
        rw [show rotateRight (node v (node lv la lb lc) r c)
            = node lv la (node v lb r RED) c from rfl] at h1
        simp at h1
    | false =>
      rw [if_neg (show ¬(isRed l = true) by simp [hlred])] at h1
      rw [ct_right_node] at h1
      cases r with
      | node rv rl rr rc => simp [isNil] at h1
      | nil =>
        rcases hshape with ⟨hok, hpre⟩ | ⟨_, _, hrr2, _, _⟩
        · obtain ⟨hr23, hcred, hokl, hokr⟩ := hok
          have hc : c = RED := by
            rcases hpre with h | h
            · rw [ct_isRed_node] at h
              exact h
            · rw [ct_left_node] at h
              exact absurd h (by simp [hlred])
          subst hc
          obtain ⟨hbl, hbnil⟩ := bal_red_inv hb
          have hn0 : n = 0 := bal_nil_inv hbnil
          subst hn0
          have hlnil : l = nil := bal_nil_of_black_zero hbl hlred
          subst hlnil
          have hdm : deleteMax (node v nil nil RED) = nil := by
            simp [deleteMax]
          rw [hdm]
          refine ⟨trivial, Bal.nil, by simp, rfl, ?_⟩
          simp [deleteMaxOk, RED]
        · rw [ct_right_node] at hrr2
          simp at hrr2
  | case3 v l r c t1 h1 h2 =>
    rename_i ih
    unfold_let t1 at h1 h2 ih
    simp only [dite_eq_ite] at h1 h2 ih
    intro n hb hne hshape
    cases hlred : isRed l with
    | true =>
      rw [if_pos hlred] at h2
      cases l with
      | nil => simp at hlred
      | node lv la lb lc =>
        rw [show rotateRight (node v (node lv la lb lc) r c)
            = node lv la (node v lb r RED) c from rfl] at h2
        simp [RED] at h2
    | false =>
      have hlneg : ¬(isRed l = true) := by simp [hlred]
      rw [if_neg hlneg] at h1 h2 ih
      rw [ct_right_node] at h1 h2
      obtain ⟨hrb, hrlb⟩ : isRed r = false ∧ isRed r.left = false := by
        simpa using h2
      rcases hshape with ⟨hok, hpre⟩ | ⟨_, _, hrr2, _, _⟩
      · obtain ⟨hr23, hcred, hokl, hokr⟩ := hok
        have hc : c = RED := by
          rcases hpre with h | h
          · rw [ct_isRed_node] at h
            exact h
          · rw [ct_left_node] at h
            exact absurd h (by simp [hlred])
        subst hc
        obtain ⟨hbl, hbr⟩ := bal_red_inv hb
        cases r with
        | nil => exact absurd rfl h1
        | node rv rl rr rc =>
          have hrc : rc = BLACK := by simpa using hrb
          subst hrc
          rw [ct_left_node] at hrlb
          obtain ⟨m, hm, hbrl, hbrr⟩ := bal_black_inv hbr
          subst hm
          obtain ⟨hrrb, _, hokrl, hokrr⟩ := hokr
          cases l with
          | nil => exact absurd (bal_nil_inv hbl) (by omega)
          | node lv la lb lc =>
            have hlc : lc = BLACK := by simpa using hlred
            subst hlc
            obtain ⟨hlbb, _, hokla, hoklb⟩ := hokl
            obtain ⟨m2, hm2, hbla, hblb⟩ := bal_black_inv hbl
            have hm2e : m = m2 := by omega
            subst hm2e
            cases hla : isRed la with
            | true =>
              cases la with
              | nil => simp at hla
              | node lav laa lab lac =>
                have hlac : lac = RED := by simpa using hla
                subst hlac
                obtain ⟨hlabb, hlaared, hoklaa, hoklab⟩ := hokla
                obtain ⟨hblaa, hblab⟩ := bal_red_inv hbla
                simp only [moveRedRight_eq_rot, ct_right_node] at ih
                have hbArg : Bal (node v lb (node rv rl rr RED) BLACK) (m + 1) :=
                  Bal.black hblb (Bal.red hbrl hbrr)
                obtain ⟨q1, q2, q3, q4, q5⟩ := ih hbArg (by simp)
                  (Or.inr ⟨rfl, hlbb, rfl, hoklb,
                    ⟨hrrb, fun _ => hrlb, hokrl, hokrr⟩⟩)
                have hwb : isRed
                    (deleteMax (node v lb (node rv rl rr RED) BLACK)) = false := by
                  cases hq : isRed (deleteMax (node v lb (node rv rl rr RED) BLACK)) with
                  | false => rfl
                  | true => exact absurd (q3 hq) (by simp [BLACK])
                have hlneg2 : ¬(isRed (node lv (node lav laa lab RED) lb BLACK)
                    = true) := by simp [BLACK]
                have hdm : deleteMax (node v (node lv (node lav laa lab RED) lb BLACK)
                      (node rv rl rr BLACK) RED)
                    = node lv (node lav laa lab BLACK)
                        (deleteMax (node v lb (node rv rl rr RED) BLACK)) RED := by
                  rw [deleteMax]
                  rw [if_neg hlneg2]
                  simp only [ct_right_node]
                  rw [if_neg h1, if_pos h2]
                  rw [moveRedRight_eq_rot]
                  simp only [ct_right_node, ct_setRight_node]
                  rw [balance_id hwb (show
                    ¬(isRed (node lav laa lab BLACK) = true ∧
                      isRed (node lav laa lab BLACK).left = true) from by
                        simp [BLACK])]
                have hOk : deleteMaxOk (node v (node lv (node lav laa lab RED) lb BLACK)
                    (node rv rl rr BLACK) RED) := by
                  rw [deleteMaxOk]
                  refine ⟨Or.inl rfl, fun h => absurd h hlneg2, ?_⟩
                  rw [if_neg hlneg2]
                  simp only [ct_right_node]
                  rw [if_neg h1, if_pos h2]
                  refine ⟨moveRedRightOk_shape hrlb, ?_, ?_⟩
                  · rw [moveRedRight_eq_rot]
                    simp only [ct_right_node]
                    exact q5
                  · rw [moveRedRight_eq_rot]
                    simp only [ct_right_node, ct_setRight_node]
                    exact balanceOk_id hwb (by simp [BLACK])
                rw [hdm]
                refine ⟨⟨hwb, fun _ => rfl,
                    ⟨hlabb, fun h => absurd h (by decide), hoklaa, hoklab⟩, q1⟩,
                  Bal.red (Bal.black hblaa hblab) q2, fun _ => rfl, ?_, hOk⟩
                simp only [ct_toList_node] at q4 ⊢
                rw [q4]
                simp [List.dropLast_append_cons, dropLast_cons_ne, List.append_assoc]
            | false =>
              simp only [moveRedRight_eq_noRot hla, ct_right_node] at ih
              have hbArg : Bal (node rv rl rr RED) m := Bal.red hbrl hbrr
              obtain ⟨q1, q2, q3, q4, q5⟩ := ih hbArg (by simp)
                (Or.inl ⟨⟨hrrb, fun _ => hrlb, hokrl, hokrr⟩, Or.inl rfl⟩)
              have hlneg2 : ¬(isRed (node lv la lb BLACK) = true) := by
                simp [BLACK]
              cases hw : isRed (deleteMax (node rv rl rr RED)) with
              | false =>
                have hdm : deleteMax (node v (node lv la lb BLACK)
                      (node rv rl rr BLACK) RED)
                    = node v (node lv la lb RED)
                        (deleteMax (node rv rl rr RED)) BLACK := by
                  rw [deleteMax]
                  rw [if_neg hlneg2]
                  simp only [ct_right_node]
                  rw [if_neg h1, if_pos h2]
                  rw [moveRedRight_eq_noRot hla]
                  simp only [ct_right_node, ct_setRight_node]
                  rw [balance_id hw (show
                    ¬(isRed (node lv la lb RED) = true ∧
                      isRed (node lv la lb RED).left = true) from by
                        simp [hla])]
                have hOk : deleteMaxOk (node v (node lv la lb BLACK)
                    (node rv rl rr BLACK) RED) := by
                  rw [deleteMaxOk]
                  refine ⟨Or.inl rfl, fun h => absurd h hlneg2, ?_⟩
                  rw [if_neg hlneg2]
                  simp only [ct_right_node]
                  rw [if_neg h1, if_pos h2]
                  refine ⟨moveRedRightOk_shape hrlb, ?_, ?_⟩
                  · rw [moveRedRight_eq_noRot hla]
                    simp only [ct_right_node]
                    exact q5
                  · rw [moveRedRight_eq_noRot hla]
                    simp only [ct_right_node, ct_setRight_node]
                    exact balanceOk_id hw (by simp [hla])
                rw [hdm]
                refine ⟨⟨hw, fun h => absurd h (by decide),
                    ⟨hlbb, fun _ => hla, hokla, hoklb⟩, q1⟩,
                  Bal.black (Bal.red hbla hblb) q2, by simp [BLACK], ?_, hOk⟩
                simp only [ct_toList_node] at q4 ⊢
                rw [q4]
                simp [List.dropLast_append_cons, dropLast_cons_ne, List.append_assoc]
              | true =>
                cases hdx : deleteMax (node rv rl rr RED) with
                | nil =>
                  rw [hdx] at hw
                  simp at hw
                | node wv wa wb wc =>
                  rw [hdx] at q1 q2 q4 hw
                  have hwc : wc = RED := by simpa using hw
                  subst hwc
                  obtain ⟨hwbb, hwared, hokwa, hokwb⟩ := q1
                  obtain ⟨hbwa, hbwb⟩ := bal_red_inv q2
                  have hdm : deleteMax (node v (node lv la lb BLACK)
                        (node rv rl rr BLACK) RED)
                      = node v (node lv la lb BLACK) (node wv wa wb BLACK) RED := by
                    rw [deleteMax]
                    rw [if_neg hlneg2]
                    simp only [ct_right_node]
                    rw [if_neg h1, if_pos h2]
                    rw [moveRedRight_eq_noRot hla]
                    simp only [ct_right_node, ct_setRight_node]
                    rw [hdx]
                    rw [balance_bothRed hla]
                  have hOk : deleteMaxOk (node v (node lv la lb BLACK)
                      (node rv rl rr BLACK) RED) := by
                    rw [deleteMaxOk]
                    refine ⟨Or.inl rfl, fun h => absurd h hlneg2, ?_⟩
                    rw [if_neg hlneg2]
                    simp only [ct_right_node]
                    rw [if_neg h1, if_pos h2]
                    refine ⟨moveRedRightOk_shape hrlb, ?_, ?_⟩
                    · rw [moveRedRight_eq_noRot hla]
                      simp only [ct_right_node]
                      exact q5
                    · rw [moveRedRight_eq_noRot hla]
                      simp only [ct_right_node, ct_setRight_node]
                      rw [hdx]
                      exact balanceOk_bothRed hla
                  rw [hdm]
                  refine ⟨⟨rfl, fun _ => rfl,
                      ⟨hlbb, fun h => absurd h (by decide), hokla, hoklb⟩,
                      ⟨hwbb, fun h => absurd h (by decide), hokwa, hokwb⟩⟩,
                    Bal.red (Bal.black hbla hblb) (Bal.black hbwa hbwb),
                    fun _ => rfl, ?_, hOk⟩
                  simp only [ct_toList_node] at q4 ⊢
                  rw [q4]
                  simp [List.dropLast_append_cons, dropLast_cons_ne, List.append_assoc]
      · rw [ct_right_node] at hrr2
        exact absurd hrr2 (by simp [hrb])
  | case4 v l r c t1 h1 h2 =>
    rename_i ih
    unfold_let t1 at h1 h2 ih
    simp only [dite_eq_ite] at h1 h2 ih
    intro n hb hne hshape
    cases hlred : isRed l with
    | true =>
      rcases hshape with ⟨hok, hpre⟩ | ⟨_, hl2, _, _, _⟩
      · obtain ⟨hr23, hcred, hokl, hokr⟩ := hok
        have hcb : c = BLACK := by
          rcases Or.symm (Bool.eq_false_or_eq_true c) with hc1 | hc1
          · exact hc1
          · have hcr : c = RED := hc1
            exact absurd (hcred hcr) (by simp [hlred])
        subst hcb
        cases l with
        | nil => simp at hlred
        | node lv la lb lc =>
          have hlc : lc = RED := by simpa using hlred
          subst hlc
          rw [if_pos hlred] at h1 h2 ih
          rw [show rotateRight (node v (node lv la lb RED) r BLACK)
              = node lv la (node v lb r RED) BLACK from rfl] at h1 h2 ih
          rw [ct_right_node] at h1 h2 ih
          obtain ⟨hlbb, hlared, hokla, hoklb⟩ := hokl
          have hlab : isRed la = false := hlared rfl
          obtain ⟨m, hm, hbl, hbr⟩ := bal_black_inv hb
          subst hm
          obtain ⟨hbla, hblb⟩ := bal_red_inv hbl
          have hbArg : Bal (node v lb r RED) m := Bal.red hblb hbr
          obtain ⟨q1, q2, q3, q4, q5⟩ := ih hbArg (by simp)
            (Or.inl ⟨⟨hr23, fun _ => hlbb, hoklb, hokr⟩, Or.inl rfl⟩)
          have hrot : deleteMax (node v (node lv la lb RED) r BLACK)
              = balance (setRight (node lv la (node v lb r RED) BLACK)
                  (deleteMax (node v lb r RED))) := by
            rw [deleteMax]
            rw [if_pos hlred]
            rw [show rotateRight (node v (node lv la lb RED) r BLACK)
                = node lv la (node v lb r RED) BLACK from rfl]
            simp only [ct_right_node]
            rw [if_neg h1, if_neg h2]
          cases hw : isRed (deleteMax (node v lb r RED)) with
          | false =>
            have hdm : deleteMax (node v (node lv la lb RED) r BLACK)
                = node lv la (deleteMax (node v lb r RED)) BLACK := by
              rw [hrot]
              simp only [ct_setRight_node]
              rw [balance_id hw (show ¬(isRed la = true ∧ isRed la.left = true)
                from by simp [hlab])]
            have hOk : deleteMaxOk (node v (node lv la lb RED) r BLACK) := by
              rw [deleteMaxOk]
              refine ⟨Or.inr (Or.inr rfl), fun _ => rfl, ?_⟩
              rw [if_pos hlred]
              rw [show rotateRight (node v (node lv la lb RED) r BLACK)
                  = node lv la (node v lb r RED) BLACK from rfl]
              simp only [ct_right_node]
              rw [if_neg h1, if_neg h2]
              refine ⟨q5, ?_⟩
              simp only [ct_setRight_node]
              exact balanceOk_id hw (by simp [hlab])
            rw [hdm]
            refine ⟨⟨hw, fun h => absurd h (by decide), hokla, q1⟩,
              Bal.black hbla q2, by simp [BLACK], ?_, hOk⟩
            simp only [ct_toList_node] at q4 ⊢
            rw [q4]
            simp [List.dropLast_append_cons, dropLast_cons_ne, List.append_assoc]
          | true =>
            cases hdx : deleteMax (node v lb r RED) with
            | nil =>
              rw [hdx] at hw
              simp at hw
            | node wv wa wb wc =>
              rw [hdx] at q1 q2 q4 hw
              have hwc : wc = RED := by simpa using hw
              subst hwc
              obtain ⟨hwbb, hwared, hokwa, hokwb⟩ := q1
              obtain ⟨hbwa, hbwb⟩ := bal_red_inv q2
              have hdm : deleteMax (node v (node lv la lb RED) r BLACK)
                  = node wv (node lv la wa RED) wb BLACK := by
                rw [hrot]
                simp only [ct_setRight_node]
                rw [hdx]
                rw [balance_rightRed hlab (hwared rfl) hwbb]
              have hOk : deleteMaxOk (node v (node lv la lb RED) r BLACK) := by
                rw [deleteMaxOk]
                refine ⟨Or.inr (Or.inr rfl), fun _ => rfl, ?_⟩
                rw [if_pos hlred]
                rw [show rotateRight (node v (node lv la lb RED) r BLACK)
                    = node lv la (node v lb r RED) BLACK from rfl]
                simp only [ct_right_node]
                rw [if_neg h1, if_neg h2]
                refine ⟨q5, ?_⟩
                simp only [ct_setRight_node]
                rw [hdx]
                exact balanceOk_rightRed hlab hwbb
              rw [hdm]
              refine ⟨⟨hwbb, fun h => absurd h (by decide),
                  ⟨hwared rfl, fun _ => hlab, hokla, hokwa⟩, hokwb⟩,
                Bal.black (Bal.red hbla hbwa) hbwb, by simp [BLACK], ?_, hOk⟩
              simp only [ct_toList_node, List.dropLast_append_cons,
                List.cons_append, List.append_assoc] at q4
              simp [List.dropLast_append_cons, dropLast_cons_ne,
                List.cons_append, List.append_assoc, q4]
      · rw [ct_left_node] at hl2
        exact absurd hlred (by simp [hl2])
    | false =>
      have hlneg : ¬(isRed l = true) := by simp [hlred]
      rw [if_neg hlneg] at h1 h2 ih
      rw [ct_right_node] at h1 h2 ih
      have hcond2 : isRed r = true ∨ isRed r.left = true := by
        rcases Or.symm (Bool.eq_false_or_eq_true (isRed r)) with hq | hq
        · rcases Or.symm (Bool.eq_false_or_eq_true (isRed r.left)) with hq2 | hq2
          · exact absurd (by simp [hq, hq2]) h2
          · exact Or.inr hq2
        · exact Or.inl hq
      rcases hshape with ⟨hok, hpre⟩ | ⟨hcb2, hlb2, hrr2, hokl2, hokr2⟩
      · -- sound tree: the root must be red, and r.left red drives the descent
        obtain ⟨hr23, hcred, hokl, hokr⟩ := hok
        have hc : c = RED := by
          rcases hpre with h | h
          · rw [ct_isRed_node] at h
            exact h
          · rw [ct_left_node] at h
            exact absurd h (by simp [hlred])
        subst hc
        have hrlred : isRed r.left = true := by
          rcases hcond2 with h | h
          · exact absurd h (by simp [hr23])
          · exact h
        obtain ⟨hbl, hbr⟩ := bal_red_inv hb
        cases r with
        | nil => simp at hrlred
        | node rv rl rr rc =>
          have hrc : rc = BLACK := by simpa using hr23
          subst hrc
          rw [ct_left_node] at hrlred
          obtain ⟨hrrb, _, hokrl, hokrr⟩ := hokr
          obtain ⟨q1, q2, q3, q4, q5⟩ := ih hbr (by simp)
            (Or.inl ⟨⟨hrrb, fun h => absurd h (by decide), hokrl, hokrr⟩,
              Or.inr hrlred⟩)
          have hwb : isRed (deleteMax (node rv rl rr BLACK)) = false := by
            cases hq : isRed (deleteMax (node rv rl rr BLACK)) with
            | false => rfl
            | true => exact absurd (q3 hq) (by simp [BLACK])
          have hdm : deleteMax (node v l (node rv rl rr BLACK) RED)
              = node v l (deleteMax (node rv rl rr BLACK)) RED := by
            rw [deleteMax]
            rw [if_neg hlneg]
            simp only [ct_right_node]
            rw [if_neg h1, if_neg h2]
            simp only [ct_setRight_node]
            rw [balance_id hwb (show ¬(isRed l = true ∧ isRed l.left = true)
              from by simp [hlred])]
          have hOk : deleteMaxOk (node v l (node rv rl rr BLACK) RED) := by
            rw [deleteMaxOk]
            refine ⟨Or.inl rfl, fun h => absurd h hlneg, ?_⟩
            rw [if_neg hlneg]
            simp only [ct_right_node]
            rw [if_neg h1, if_neg h2]
            refine ⟨q5, ?_⟩
            simp only [ct_setRight_node]
            exact balanceOk_id hwb (by simp [hlred])
          rw [hdm]
          refine ⟨⟨hwb, fun _ => hlred, hokl, q1⟩,
            Bal.red hbl q2, fun _ => rfl, ?_, hOk⟩
          simp only [ct_toList_node] at q4 ⊢
          rw [q4]
          simp [List.dropLast_append_cons, dropLast_cons_ne, List.append_assoc]
      · -- the special black root with a red right child
        cases r with
        | nil =>
          rw [ct_right_node] at hrr2
          simp at hrr2
        | node rv rl rr rc =>
          rw [ct_right_node] at hrr2 hokr2
          rw [ct_left_node] at hlb2
          rw [ct_isRed_node] at hcb2
          have hrc : rc = RED := by simpa using hrr2
          subst hrc
          have hcb : c = BLACK := hcb2
          subst hcb
          rw [ct_left_node] at hokl2
          obtain ⟨hrrb, hrlred, hokrl, hokrr⟩ := hokr2
          obtain ⟨m, hm, hbl, hbr⟩ := bal_black_inv hb
          subst hm
          obtain ⟨hbrl, hbrr⟩ := bal_red_inv hbr
          obtain ⟨q1, q2, q3, q4, q5⟩ := ih hbr (by simp)
            (Or.inl ⟨⟨hrrb, hrlred, hokrl, hokrr⟩, Or.inl rfl⟩)
          cases hw : isRed (deleteMax (node rv rl rr RED)) with
          | false =>
            have hdm : deleteMax (node v l (node rv rl rr RED) BLACK)
                = node v l (deleteMax (node rv rl rr RED)) BLACK := by
              rw [deleteMax]
              rw [if_neg hlneg]
              simp only [ct_right_node]
              rw [if_neg h1, if_neg h2]
              simp only [ct_setRight_node]
              rw [balance_id hw (show ¬(isRed l = true ∧ isRed l.left = true)
                from by simp [hlb2])]
            have hOk : deleteMaxOk (node v l (node rv rl rr RED) BLACK) := by
              rw [deleteMaxOk]
              refine ⟨Or.inr (Or.inl rfl), fun h => absurd h hlneg, ?_⟩
              rw [if_neg hlneg]
              simp only [ct_right_node]
              rw [if_neg h1, if_neg h2]
              refine ⟨q5, ?_⟩
              simp only [ct_setRight_node]
              exact balanceOk_id hw (by simp [hlb2])
            rw [hdm]
            refine ⟨⟨hw, fun h => absurd h (by decide), hokl2, q1⟩,
              Bal.black hbl q2, by simp [BLACK], ?_, hOk⟩
            simp only [ct_toList_node] at q4 ⊢
            rw [q4]
            simp [List.dropLast_append_cons, dropLast_cons_ne, List.append_assoc]
          | true =>
            cases hdx : deleteMax (node rv rl rr RED) with
            | nil =>
              rw [hdx] at hw
              simp at hw
            | node wv wa wb wc =>
              rw [hdx] at q1 q2 q4 hw
              have hwc : wc = RED := by simpa using hw
              subst hwc
              obtain ⟨hwbb, hwared, hokwa, hokwb⟩ := q1
              obtain ⟨hbwa, hbwb⟩ := bal_red_inv q2
              have hdm : deleteMax (node v l (node rv rl rr RED) BLACK)
                  = node wv (node v l wa RED) wb BLACK := by
                rw [deleteMax]
                rw [if_neg hlneg]
                simp only [ct_right_node]
                rw [if_neg h1, if_neg h2]
                simp only [ct_setRight_node]
                rw [hdx]
                rw [balance_rightRed hlb2 (hwared rfl) hwbb]
              have hOk : deleteMaxOk (node v l (node rv rl rr RED) BLACK) := by
                rw [deleteMaxOk]
                refine ⟨Or.inr (Or.inl rfl), fun h => absurd h hlneg, ?_⟩
                rw [if_neg hlneg]
                simp only [ct_right_node]
                rw [if_neg h1, if_neg h2]
                refine ⟨q5, ?_⟩
                simp only [ct_setRight_node]
                rw [hdx]
                exact balanceOk_rightRed hlb2 hwbb
              rw [hdm]
              refine ⟨⟨hwbb, fun h => absurd h (by decide),
                  ⟨hwared rfl, fun _ => hlb2, hokl2, hokwa⟩, hokwb⟩,
                Bal.black (Bal.red hbl hbwa) hbwb, by simp [BLACK], ?_, hOk⟩
              simp only [ct_toList_node, List.dropLast_append_cons,
                List.cons_append, List.append_assoc] at q4
              simp [List.dropLast_append_cons, dropLast_cons_ne,
                List.cons_append, List.append_assoc, q4]

end CTree


/-! ### The `remove` invariant -/

theorem eraseC_skip {cmp : RBT.Cmp α} {x : α} {TA : List α} {lv : α}
    (REST : List α) (h1 : ∀ y ∈ TA, cmp x y ≠ 0) (h2 : cmp x lv ≠ 0) :
    eraseC cmp x (TA ++ lv :: REST) = TA ++ lv :: eraseC cmp x REST := by
  rw [eraseC_append_no_hit _ h1, eraseC_cons_miss _ h2]

namespace CTree

variable {α : Type}

/-- `minVal` of a non-nil tree is the head of its in-order list. -/
theorem minVal_some_cons {t : CTree α} {m : α} (h : minVal t = some m) :
    m :: (toList t).tail = toList t := by
  apply List.cons_head?_tail
  rw [← minVal_eq_head]
  exact h

theorem minVal_isSome {t : CTree α} (h : t ≠ nil) : minVal t ≠ none := by
  intro hn
  rw [minVal_eq_head] at hn
  have h2 : toList t = [] := by
    cases hL : toList t with
    | nil => rfl
    | cons a as => rw [hL] at hn; simp at hn
  exact toList_ne_nil h h2

theorem remove_spec (cmp : RBT.Cmp α) (x : α) (hcmp : CmpLaws cmp) :
    ∀ {t : CTree α} {n : Nat}, Bal t n → ordered cmp t → memC cmp x t →
      ((ok23 t ∧ (isRed t = true ∨ isRed t.left = true)) ∨
        (isRed t = false ∧ isRed t.left = false ∧ isRed t.right = true ∧
          ok23 t.left ∧ ok23 t.right ∧ 0 ≤ cmp x (valD t x))) →
      ok23 (remove cmp x t) ∧ Bal (remove cmp x t) n ∧
      (isRed (remove cmp x t) = true → isRed t = true) ∧
      toList (remove cmp x t) = eraseC cmp x (toList t) ∧ removeOk cmp x t := by
  intro t
  induction t using remove.induct cmp x with
  | case1 =>
    intro n _ _ hm _
    exact absurd hm (memC_nil cmp x)
  | case2 v l r c hlt hcond ih =>
    intro n hb hord hmem hshape
    obtain ⟨hlb, hllb⟩ : isRed l = false ∧ isRed l.left = false := by
      simpa using hcond
    have hshape2 : ok23 (node v l r c) ∧
        (isRed (node v l r c) = true ∨ isRed (node v l r c).left = true) := by
      rcases hshape with h | ⟨_, _, _, _, _, hge⟩
      · exact h
      · rw [ct_valD_node] at hge
        omega
    obtain ⟨hok, hpre⟩ := hshape2
    obtain ⟨hr23, _, hokl, hokr⟩ := hok
    have hc : c = RED := by
      rcases hpre with h | h
      · rw [ct_isRed_node] at h
        exact h
      · rw [ct_left_node] at h
        rw [hlb] at h
        exact absurd h (by simp)
    subst hc
    obtain ⟨hol, hor, hltl, hgtr, _⟩ := (ordered_node_iff cmp v l r RED).mp hord
    have hmeml : memC cmp x l := memC_left_of_lt hcmp hord hmem hlt
    obtain ⟨hbl, hbr⟩ := bal_red_inv hb
    cases l with
    | nil => exact absurd hmeml (memC_nil cmp x)
    | node lv ll lr lc =>
      have hlcb : lc = BLACK := by simpa using hlb
      subst hlcb
      rw [ct_left_node] at hllb
      obtain ⟨m, hm, hbll, hblr⟩ := bal_black_inv hbl
      subst hm
      obtain ⟨hlrb, _, hokll, hoklr⟩ := hokl
      cases r with
      | nil => exact absurd (bal_nil_inv hbr) (by omega)
      | node rv rl rr rc =>
        have hrcb : rc = BLACK := by simpa using hr23
        subst hrcb
        obtain ⟨m2, hm2, hbrl, hbrr⟩ := bal_black_inv hbr
        have hm2e : m = m2 := by omega
        subst hm2e
        obtain ⟨hrr, _, hokrl, hokrr⟩ := hokr
        cases hrl : isRed rl with
        | true =>
          cases rl with
          | nil => simp at hrl
          | node rlv rla rlb rlc =>
            have hrlc : rlc = RED := by simpa using hrl
            subst hrlc
            obtain ⟨hrlb2, hrlared, hokrla, hokrlb⟩ := hokrl
            obtain ⟨hbrla, hbrlb⟩ := bal_red_inv hbrl
            obtain ⟨horl, horr, hrlt, hrgt, _⟩ :=
              (ordered_node_iff cmp rv (node rlv rla rlb RED) rr BLACK).mp hor
            obtain ⟨horla, horlb, hrlalt, hrlagt, _⟩ :=
              (ordered_node_iff cmp rlv rla rlb RED).mp horl
            simp only [moveRedLeft_eq_rot, ct_left_node] at ih
            have hbX : Bal (node v (node lv ll lr RED) rla BLACK) (m + 1) :=
              Bal.black (Bal.red hbll hblr) hbrla
            have hordX : ordered cmp (node v (node lv ll lr RED) rla BLACK) := by
              refine ordered_node_of hcmp hol ?_ hltl ?_
              · exact horla
              · intro y hy
                refine hgtr y ?_
                simp only [ct_toList_node, List.mem_append, List.mem_cons]
                exact Or.inl (Or.inl hy)
            have hmemX : memC cmp x (node v (node lv ll lr RED) rla BLACK) := by
              refine (memC_node_iff cmp x v (node lv ll lr RED) rla BLACK).mpr ?_
              exact Or.inl hmeml
            obtain ⟨q1, q2, q3, q4, q5⟩ := ih hbX hordX hmemX
              (Or.inl ⟨⟨hrlared rfl, fun h => absurd h (by decide),
                ⟨hlrb, fun _ => hllb, hokll, hoklr⟩, hokrla⟩, Or.inr rfl⟩)
            have hwb : isRed
                (remove cmp x (node v (node lv ll lr RED) rla BLACK)) = false := by
              cases hq : isRed (remove cmp x (node v (node lv ll lr RED) rla BLACK)) with
              | false => rfl
              | true => exact absurd (q3 hq) (by simp [BLACK])
            have hdm : remove cmp x (node v (node lv ll lr BLACK)
                  (node rv (node rlv rla rlb RED) rr BLACK) RED)
                = node rlv (remove cmp x (node v (node lv ll lr RED) rla BLACK))
                    (node rv rlb rr BLACK) RED := by
              rw [remove]
              rw [if_pos hlt, if_pos hcond, moveRedLeft_eq_rot]
              simp only [ct_left_node, ct_setLeft_node]
              rw [@balance_id α rlv
                (remove cmp x (node v (node lv ll lr RED) rla BLACK))
                (node rv rlb rr BLACK) RED rfl (by simp [hwb])]
            have hOk : removeOk cmp x (node v (node lv ll lr BLACK)
                (node rv (node rlv rla rlb RED) rr BLACK) RED) := by
              rw [removeOk]
              rw [if_pos hlt]
              refine ⟨by simp, ?_⟩
              rw [if_pos hcond]
              refine ⟨moveRedLeftOk_shape hllb, ?_, ?_⟩
              · rw [moveRedLeft_eq_rot]
                simp only [ct_left_node]
                exact q5
              · rw [moveRedLeft_eq_rot]
                simp only [ct_left_node, ct_setLeft_node]
                exact balanceOk_id (t := node rlv
                  (remove cmp x (node v (node lv ll lr RED) rla BLACK))
                  (node rv rlb rr BLACK) RED) rfl (by simp [hwb])
            rw [hdm]
            refine ⟨⟨rfl, fun _ => hwb, q1,
                ⟨hrr, fun h => absurd h (by decide), hokrlb, hokrr⟩⟩,
              Bal.red q2 (Bal.black hbrlb hbrr), fun _ => rfl, ?_, hOk⟩
            have hmemL : ∃ y ∈ toList ll ++ lv :: toList lr, cmp x y = 0 := by
              simpa [memC, ct_toList_node] using hmeml
            simp only [ct_toList_node] at q4 ⊢
            rw [q4]
            rw [eraseC_append_hit _ hmemL, eraseC_append_hit _ hmemL]
            simp [List.append_assoc]
        | false =>
          simp only [moveRedLeft_eq_noRot hrl, ct_left_node] at ih
          have hbX : Bal (node lv ll lr RED) m := Bal.red hbll hblr
          have hordX : ordered cmp (node lv ll lr RED) := hol
          have hmemX : memC cmp x (node lv ll lr RED) := hmeml
          obtain ⟨q1, q2, q3, q4, q5⟩ := ih hbX hordX hmemX
            (Or.inl ⟨⟨hlrb, fun _ => hllb, hokll, hoklr⟩, Or.inl rfl⟩)
          have hmemL : ∃ y ∈ toList ll ++ lv :: toList lr, cmp x y = 0 := by
            simpa [memC, ct_toList_node] using hmeml
          cases hw : isRed (remove cmp x (node lv ll lr RED)) with
          | false =>
            have hdm : remove cmp x (node v (node lv ll lr BLACK)
                  (node rv rl rr BLACK) RED)
                = node rv (node v (remove cmp x (node lv ll lr RED)) rl RED)
                    rr BLACK := by
              rw [remove]
              rw [if_pos hlt, if_pos hcond, moveRedLeft_eq_noRot hrl]
              simp only [ct_left_node, ct_setLeft_node]
              rw [balance_rightRed hw hrl hrr]
            have hOk : removeOk cmp x (node v (node lv ll lr BLACK)
                (node rv rl rr BLACK) RED) := by
              rw [removeOk]
              rw [if_pos hlt]
              refine ⟨by simp, ?_⟩
              rw [if_pos hcond]
              refine ⟨moveRedLeftOk_shape hllb, ?_, ?_⟩
              · rw [moveRedLeft_eq_noRot hrl]
                simp only [ct_left_node]
                exact q5
              · rw [moveRedLeft_eq_noRot hrl]
                simp only [ct_left_node, ct_setLeft_node]
                exact balanceOk_rightRed hw hrr
            rw [hdm]
            refine ⟨⟨hrr, fun h => absurd h (by decide),
                ⟨hrl, fun _ => hw, q1, hokrl⟩, hokrr⟩,
              Bal.black (Bal.red q2 hbrl) hbrr, by simp [BLACK], ?_, hOk⟩
            simp only [ct_toList_node] at q4 ⊢
            rw [q4]
            rw [eraseC_append_hit _ hmemL]
            simp [List.append_assoc]
          | true =>
            cases hdx : remove cmp x (node lv ll lr RED) with
            | nil =>
              rw [hdx] at hw
              simp at hw
            | node wv wa wb wc =>
              rw [hdx] at q1 q2 q4 hw
              have hwc : wc = RED := by simpa using hw
              subst hwc
              obtain ⟨hwbb, hwared, hokwa, hokwb⟩ := q1
              obtain ⟨hbwa, hbwb⟩ := bal_red_inv q2
              have hdm : remove cmp x (node v (node lv ll lr BLACK)
                    (node rv rl rr BLACK) RED)
                  = node v (node wv wa wb BLACK) (node rv rl rr BLACK) RED := by
                rw [remove]
                rw [if_pos hlt, if_pos hcond, moveRedLeft_eq_noRot hrl]
                simp only [ct_left_node, ct_setLeft_node]
                rw [hdx]
                rw [balance_bothRed (hwared rfl)]
              have hOk : removeOk cmp x (node v (node lv ll lr BLACK)
                  (node rv rl rr BLACK) RED) := by
                rw [removeOk]
                rw [if_pos hlt]
                refine ⟨by simp, ?_⟩
                rw [if_pos hcond]
                refine ⟨moveRedLeftOk_shape hllb, ?_, ?_⟩
                · rw [moveRedLeft_eq_noRot hrl]
                  simp only [ct_left_node]
                  exact q5
                · rw [moveRedLeft_eq_noRot hrl]
                  simp only [ct_left_node, ct_setLeft_node]
                  rw [hdx]
                  exact balanceOk_bothRed (hwared rfl)
              rw [hdm]
              refine ⟨⟨rfl, fun _ => rfl,
                  ⟨hwbb, fun h => absurd h (by decide), hokwa, hokwb⟩,
                  ⟨hrr, fun h => absurd h (by decide), hokrl, hokrr⟩⟩,
                Bal.red (Bal.black hbwa hbwb) (Bal.black hbrl hbrr),
                fun _ => rfl, ?_, hOk⟩
              simp only [ct_toList_node] at q4 ⊢
              rw [q4]
              rw [eraseC_append_hit _ hmemL]
  | case3 v l r c hlt hcond ih =>
    intro n hb hord hmem hshape
    have hshape2 : ok23 (node v l r c) ∧
        (isRed (node v l r c) = true ∨ isRed (node v l r c).left = true) := by
      rcases hshape with h | ⟨_, _, _, _, _, hge⟩
      · exact h
      · rw [ct_valD_node] at hge
        omega
    obtain ⟨hok, hpre⟩ := hshape2
    obtain ⟨hr23, hcred, hokl, hokr⟩ := hok
    have hcond2 : isRed l = true ∨ isRed l.left = true := by
      rcases Or.symm (Bool.eq_false_or_eq_true (isRed l)) with h1 | h1
      · rcases Or.symm (Bool.eq_false_or_eq_true (isRed l.left)) with h2 | h2
        · exact absurd (by simp [h1, h2]) hcond
        · exact Or.inr h2
      · exact Or.inl h1
    obtain ⟨hol, hor, hltl, hgtr, _⟩ := (ordered_node_iff cmp v l r c).mp hord
    have hmeml : memC cmp x l := memC_left_of_lt hcmp hord hmem hlt
    cases l with
    | nil => exact absurd hmeml (memC_nil cmp x)
    | node lv ll lr lc =>
      have hmemL : ∃ y ∈ toList ll ++ lv :: toList lr, cmp x y = 0 := by
        simpa [memC, ct_toList_node] using hmeml
      cases hlred : isRed (node lv ll lr lc) with
      | true =>
        have hlc : lc = RED := by simpa using hlred
        subst hlc
        have hcb : c = BLACK := by
          rcases Or.symm (Bool.eq_false_or_eq_true c) with h1 | h1
          · exact h1
          · have hcr : c = RED := h1
            exact absurd (hcred hcr) (by simp [RED])
        subst hcb
        obtain ⟨m, hm, hbl, hbr⟩ := bal_black_inv hb
        subst hm
        obtain ⟨q1, q2, q3, q4, q5⟩ := ih hbl hol hmeml
          (Or.inl ⟨hokl, Or.inl rfl⟩)
        have hdm : remove cmp x (node v (node lv ll lr RED) r BLACK)
            = node v (remove cmp x (node lv ll lr RED)) r BLACK := by
          rw [remove]
          rw [if_pos hlt, if_neg hcond]
          rw [balance_id hr23 (ok23_no_redred q1)]
        have hOk : removeOk cmp x (node v (node lv ll lr RED) r BLACK) := by
          rw [removeOk]
          rw [if_pos hlt]
          refine ⟨by simp, ?_⟩
          rw [if_neg hcond]
          exact ⟨q5, balanceOk_id hr23 (ok23_no_redred q1)⟩
        rw [hdm]
        refine ⟨⟨hr23, fun h => absurd h (by decide), q1, hokr⟩,
          Bal.black q2 hbr, by simp [BLACK], ?_, hOk⟩
        simp only [ct_toList_node] at q4 ⊢
        rw [q4]
        rw [eraseC_append_hit _ hmemL]
      | false =>
        have hllred : isRed (node lv ll lr lc).left = true := by
          rcases hcond2 with h | h
          · exact absurd h (by simp [hlred])
          · exact h
        have hc : c = RED := by
          rcases hpre with h | h
          · rw [ct_isRed_node] at h
            exact h
          · rw [ct_left_node] at h
            exact absurd h (by simp [hlred])
        subst hc
        obtain ⟨hbl, hbr⟩ := bal_red_inv hb
        obtain ⟨q1, q2, q3, q4, q5⟩ := ih hbl hol hmeml
          (Or.inl ⟨hokl, Or.inr hllred⟩)
        have hwb : isRed (remove cmp x (node lv ll lr lc)) = false := by
          cases hq : isRed (remove cmp x (node lv ll lr lc)) with
          | false => rfl
          | true => exact absurd (q3 hq) (by simp [hlred])
        have hllx : ¬(isRed (remove cmp x (node lv ll lr lc)) = true ∧
            isRed (remove cmp x (node lv ll lr lc)).left = true) := by
          simp [hwb]
        have hdm : remove cmp x (node v (node lv ll lr lc) r RED)
            = node v (remove cmp x (node lv ll lr lc)) r RED := by
          rw [remove]
          rw [if_pos hlt, if_neg hcond]
          rw [balance_id hr23 hllx]
        have hOk : removeOk cmp x (node v (node lv ll lr lc) r RED) := by
          rw [removeOk]
          rw [if_pos hlt]
          refine ⟨by simp, ?_⟩
          rw [if_neg hcond]
          exact ⟨q5, balanceOk_id hr23 hllx⟩
        rw [hdm]
        refine ⟨⟨hr23, fun _ => hwb, q1, hokr⟩,
          Bal.red q2 hbr, fun _ => rfl, ?_, hOk⟩
        simp only [ct_toList_node] at q4 ⊢
        rw [q4]
        rw [eraseC_append_hit _ hmemL]
  | case4 v l r c hlt t2 =>
    rename_i hguard
    unfold_let t2 at hguard
    simp only [dite_eq_ite] at hguard
    intro n hb hord hmem hshape
    cases hlred : isRed l with
    | true =>
      rw [if_pos hlred] at hguard
      cases l with
      | nil => simp at hlred
      | node lv la lb lc =>
        rw [show rotateRight (node v (node lv la lb lc) r c)
            = node lv la (node v lb r RED) c from rfl] at hguard
        rw [ct_right_node] at hguard
        simp [isNil] at hguard
    | false =>
      rw [if_neg (show ¬(isRed l = true) by simp [hlred])] at hguard
      rw [ct_valD_node, ct_right_node] at hguard
      obtain ⟨hx0, hrnil⟩ := hguard
      cases r with
      | node rv rl rr rc => simp [isNil] at hrnil
      | nil =>
        have hshape2 : ok23 (node v l nil c) ∧
            (isRed (node v l nil c) = true ∨
              isRed (node v l nil c).left = true) := by
          rcases hshape with h | ⟨_, _, hrr2, _, _, _⟩
          · exact h
          · rw [ct_right_node] at hrr2
            simp at hrr2
        obtain ⟨hok, hpre⟩ := hshape2
        obtain ⟨_, hcred, hokl, _⟩ := hok
        have hc : c = RED := by
          rcases hpre with h | h
          · rw [ct_isRed_node] at h
            exact h
          · rw [ct_left_node] at h
            exact absurd h (by simp [hlred])
        subst hc
        obtain ⟨hbl, hbr⟩ := bal_red_inv hb
        have hn0 : n = 0 := bal_nil_inv hbr
        subst hn0
        have hlnil : l = nil := bal_nil_of_black_zero hbl hlred
        subst hlnil
        have hdm : remove cmp x (node v nil nil RED) = nil := by
          rw [remove]
          rw [if_neg hlt]
          rw [if_neg (show ¬(isRed (nil : CTree α) = true) from by simp)]
          rw [if_pos (show cmp x (valD (node v nil nil RED) x) = 0 ∧
            isNil (node v nil nil RED).right = true from ⟨hx0, rfl⟩)]
        rw [hdm]
        refine ⟨trivial, Bal.nil, by simp, ?_, ?_⟩
        · simp [eraseC, hx0]
        · rw [removeOk]
          rw [if_neg hlt]
          refine ⟨fun h => by simp at h, ?_⟩
          rw [if_neg (show ¬(isRed (nil : CTree α) = true) from by simp)]
          rw [if_pos (show cmp x (valD (node v nil nil RED) x) = 0 ∧
            isNil (node v nil nil RED).right = true from ⟨hx0, rfl⟩)]
          trivial
  | case5 v l r c hlt t2 hg t3 heq mv =>
    rename_i hm
    unfold_let t3 at heq hm
    unfold_let t2 at hg heq hm
    simp only [dite_eq_ite] at hg heq hm
    intro n hb hord hmem hshape
    obtain ⟨hol, hor, hltl, hgtr, _⟩ := (ordered_node_iff cmp v l r c).mp hord
    have hge : 0 ≤ cmp x v := by omega
    have hnohit : ∀ y ∈ toList l, cmp x y ≠ 0 := hcmp.no_hit_low hltl hge
    cases hlred : isRed l with
    | true =>
      rw [if_pos hlred] at heq
      cases l with
      | nil => simp at hlred
      | node lv la lb lc =>
        rw [show rotateRight (node v (node lv la lb lc) r c)
            = node lv la (node v lb r RED) c from rfl] at heq
        rw [ct_right_node] at heq
        rw [if_neg (show ¬((!isRed (node v lb r RED) &&
            !isRed (node v lb r RED).left) = true) from by simp [RED])] at heq
        rw [ct_valD_node] at heq
        exact absurd heq (hnohit lv (by simp [ct_toList_node]))
    | false =>
      rw [if_neg (show ¬(isRed l = true) by simp [hlred])] at hg heq hm
      rw [ct_valD_node, ct_right_node] at hg
      have hrne : r ≠ nil := by
        intro hre
        subst hre
        have hshape2 : ok23 (node v l nil c) ∧
            (isRed (node v l nil c) = true ∨
              isRed (node v l nil c).left = true) := by
          rcases hshape with h | ⟨_, _, hrr2, _, _, _⟩
          · exact h
          · rw [ct_right_node] at hrr2
            simp at hrr2
        obtain ⟨hok, hpre⟩ := hshape2
        obtain ⟨_, hcred, hokl, _⟩ := hok
        have hc : c = RED := by
          rcases hpre with h | h
          · rw [ct_isRed_node] at h
            exact h
          · rw [ct_left_node] at h
            exact absurd h (by simp [hlred])
        subst hc
        obtain ⟨hbl, hbr⟩ := bal_red_inv hb
        have hlnil : l = nil := bal_nil_of_black_zero
          (bal_nil_inv hbr ▸ hbl) hlred
        subst hlnil
        have hx0 : cmp x v = 0 := by
          rcases (memC_node_iff cmp x v nil nil RED).mp hmem with h | h | h
          · exact absurd h (memC_nil cmp x)
          · exact h
          · exact absurd h (memC_nil cmp x)
        exact hg ⟨hx0, rfl⟩
      cases r with
      | nil => exact absurd rfl hrne
      | node rv rl rr rc =>
        rw [ct_right_node] at heq hm
        have hgneg : ¬(cmp x ((node v l (node rv rl rr rc) c).valD x) = 0 ∧
            isNil (node v l (node rv rl rr rc) c).right = true) := by
          intro hq
          rw [ct_right_node] at hq
          exact absurd hq.2 (by simp)
        rcases Or.symm (Bool.eq_false_or_eq_true
            ((!isRed (node rv rl rr rc) && !isRed (node rv rl rr rc).left))) with
          hcnd | hcnd
        · -- t3 is the tree itself; the red sibling or its left child is red
          have hcndneg : ¬((!isRed (node rv rl rr rc) &&
              !isRed (node rv rl rr rc).left) = true) := by
            rw [hcnd]; simp
          rw [if_neg hcndneg] at heq hm
          rw [ct_valD_node] at heq
          rw [ct_right_node] at hm
          -- the two shapes
          rcases hshape with ⟨hok, hpre⟩ | ⟨hcb2, hlb2, hrr2, hokl2, hokr2, _⟩
          · -- red root, black right child with a red left grandchild
            obtain ⟨hr23, hcred, hokl, hokr⟩ := hok
            have hc : c = RED := by
              rcases hpre with h | h
              · rw [ct_isRed_node] at h
                exact h
              · rw [ct_left_node] at h
                exact absurd h (by simp [hlred])
            subst hc
            have hrc : rc = BLACK := by simpa using hr23
            subst hrc
            have hrlred : isRed rl = true := by
              rcases Or.symm (Bool.eq_false_or_eq_true (isRed rl)) with h | h
              · exfalso
                apply hcndneg
                simp [h, RED, BLACK]
              · exact h
            obtain ⟨hbl, hbr⟩ := bal_red_inv hb
            obtain ⟨dq1, dq2, dq3, dq4, dq5⟩ := deleteMin_spec hokr hbr
              (Or.inr (by rw [ct_left_node]; exact hrlred)) (by simp)
            have hw : isRed (deleteMin (node rv rl rr BLACK)) = false := by
              cases hq : isRed (deleteMin (node rv rl rr BLACK)) with
              | false => rfl
              | true => exact absurd (dq3 hq) (by simp [BLACK])
            have hdm : remove cmp x (node v l (node rv rl rr BLACK) RED)
                = node mv l (deleteMin (node rv rl rr BLACK)) RED := by
              rw [remove]
              rw [if_neg hlt]
              rw [if_neg (show ¬(isRed l = true) by simp [hlred])]
              rw [if_neg hgneg]
              rw [ct_right_node]
              rw [if_neg hcndneg]
              simp only [ct_valD_node]
              rw [if_pos heq]
              rw [ct_right_node]
              simp only [hm]
              simp only [ct_setRight_node, ct_setValue_node]
              rw [balance_id hw (show ¬(isRed l = true ∧ isRed l.left = true)
                from by simp [hlred])]
            have hOk : removeOk cmp x (node v l (node rv rl rr BLACK) RED) := by
              rw [removeOk]
              rw [if_neg hlt]
              refine ⟨fun h => absurd h (by simp [hlred]), ?_⟩
              rw [if_neg (show ¬(isRed l = true) by simp [hlred])]
              rw [if_neg hgneg]
              rw [ct_right_node]
              refine ⟨by simp, fun h => absurd h hcndneg, ?_⟩
              rw [if_neg hcndneg]
              simp only [ct_valD_node]
              rw [if_pos heq]
              rw [ct_right_node]
              refine ⟨by simp, dq5, ?_⟩
              simp only [hm]
              simp only [ct_setRight_node, ct_setValue_node]
              exact balanceOk_id hw (by simp [hlred])
            rw [hdm]
            refine ⟨⟨hw, fun _ => hlred, hokl, dq1⟩,
              Bal.red hbl dq2, fun _ => rfl, ?_, hOk⟩
            have hcons := minVal_some_cons hm
            simp only [ct_toList_node] at dq4 hcons ⊢
            rw [dq4]
            rw [eraseC_append_no_hit _ hnohit, eraseC_cons_hit _ heq]
            rw [hcons]
          · -- black root with a red right child
            rw [ct_isRed_node] at hcb2
            rw [ct_left_node] at hlb2
            rw [ct_right_node] at hrr2 hokr2
            rw [ct_left_node] at hokl2
            have hcb : c = BLACK := hcb2
            subst hcb
            have hrc : rc = RED := by simpa using hrr2
            subst hrc
            obtain ⟨m, hmn, hbl, hbr⟩ := bal_black_inv hb
            subst hmn
            obtain ⟨hbrl, hbrr⟩ := bal_red_inv hbr
            obtain ⟨dq1, dq2, dq3, dq4, dq5⟩ := deleteMin_spec hokr2 hbr
              (Or.inl rfl) (by simp)
            have hcons := minVal_some_cons hm
            cases hw : isRed (deleteMin (node rv rl rr RED)) with
            | false =>
              have hdm : remove cmp x (node v l (node rv rl rr RED) BLACK)
                  = node mv l (deleteMin (node rv rl rr RED)) BLACK := by
                rw [remove]
                rw [if_neg hlt]
                rw [if_neg (show ¬(isRed l = true) by simp [hlred])]
                rw [if_neg hgneg]
                rw [ct_right_node]
                rw [if_neg hcndneg]
                simp only [ct_valD_node]
                rw [if_pos heq]
                rw [ct_right_node]
                simp only [hm]
                simp only [ct_setRight_node, ct_setValue_node]
                rw [balance_id hw (show ¬(isRed l = true ∧ isRed l.left = true)
                  from by simp [hlb2])]
              have hOk : removeOk cmp x (node v l (node rv rl rr RED) BLACK) := by
                rw [removeOk]
                rw [if_neg hlt]
                refine ⟨fun h => absurd h (by simp [hlb2]), ?_⟩
                rw [if_neg (show ¬(isRed l = true) by simp [hlb2])]
                rw [if_neg hgneg]
                rw [ct_right_node]
                refine ⟨by simp, fun h => absurd h hcndneg, ?_⟩
                rw [if_neg hcndneg]
                simp only [ct_valD_node]
                rw [if_pos heq]
                rw [ct_right_node]
                refine ⟨by simp, dq5, ?_⟩
                simp only [hm]
                simp only [ct_setRight_node, ct_setValue_node]
                exact balanceOk_id hw (by simp [hlb2])
              rw [hdm]
              refine ⟨⟨hw, fun h => absurd h (by decide), hokl2, dq1⟩,
                Bal.black hbl dq2, by simp [BLACK], ?_, hOk⟩
              simp only [ct_toList_node] at dq4 hcons ⊢
              rw [dq4]
              rw [eraseC_append_no_hit _ hnohit, eraseC_cons_hit _ heq]
              rw [hcons]
            | true =>
              cases hdx : deleteMin (node rv rl rr RED) with
              | nil =>
                rw [hdx] at hw
                simp at hw
              | node wv wa wb wc =>
                rw [hdx] at dq1 dq2 dq4 hw
                have hwc : wc = RED := by simpa using hw
                subst hwc
                obtain ⟨hwbb, hwared, hokwa, hokwb⟩ := dq1
                obtain ⟨hbwa, hbwb⟩ := bal_red_inv dq2
                have hdm : remove cmp x (node v l (node rv rl rr RED) BLACK)
                    = node wv (node mv l wa RED) wb BLACK := by
                  rw [remove]
                  rw [if_neg hlt]
                  rw [if_neg (show ¬(isRed l = true) by simp [hlb2])]
                  rw [if_neg hgneg]
                  rw [ct_right_node]
                  rw [if_neg hcndneg]
                  simp only [ct_valD_node]
                  rw [if_pos heq]
                  rw [ct_right_node]
                  simp only [hm]
                  simp only [ct_setRight_node, ct_setValue_node]
                  rw [hdx]
                  rw [balance_rightRed hlb2 (hwared rfl) hwbb]
                have hOk : removeOk cmp x (node v l (node rv rl rr RED) BLACK) := by
                  rw [removeOk]
                  rw [if_neg hlt]
                  refine ⟨fun h => absurd h (by simp [hlb2]), ?_⟩
                  rw [if_neg (show ¬(isRed l = true) by simp [hlb2])]
                  rw [if_neg hgneg]
                  rw [ct_right_node]
                  refine ⟨by simp, fun h => absurd h hcndneg, ?_⟩
                  rw [if_neg hcndneg]
                  simp only [ct_valD_node]
                  rw [if_pos heq]
                  rw [ct_right_node]
                  refine ⟨by simp, dq5, ?_⟩
                  simp only [hm]
                  simp only [ct_setRight_node, ct_setValue_node]
                  rw [hdx]
                  exact balanceOk_rightRed hlb2 hwbb
                rw [hdm]
                refine ⟨⟨hwbb, fun h => absurd h (by decide),
                    ⟨hwared rfl, fun _ => hlb2, hokl2, hokwa⟩, hokwb⟩,
                  Bal.black (Bal.red hbl hbwa) hbwb, by simp [BLACK], ?_, hOk⟩
                simp only [ct_toList_node, List.cons_append,
                  List.append_assoc] at dq4 hcons ⊢
                rw [dq4]
                rw [eraseC_append_no_hit _ hnohit, eraseC_cons_hit _ heq]
                rw [hcons]
        · -- both the right child and its left child are black: moveRedRight
          obtain ⟨hrb, hrlb⟩ : isRed (node rv rl rr rc) = false ∧
              isRed (node rv rl rr rc).left = false := by simpa using hcnd
          have hrc : rc = BLACK := by simpa using hrb
          subst hrc
          rw [ct_left_node] at hrlb
          have hshape2 : ok23 (node v l (node rv rl rr BLACK) c) ∧
              (isRed (node v l (node rv rl rr BLACK) c) = true ∨
                isRed (node v l (node rv rl rr BLACK) c).left = true) := by
            rcases hshape with h | ⟨_, _, hrr2, _, _, _⟩
            · exact h
            · rw [ct_right_node] at hrr2
              exact absurd hrr2 (by simp [hrb])
          obtain ⟨hok, hpre⟩ := hshape2
          obtain ⟨hr23, hcred, hokl, hokr⟩ := hok
          have hc : c = RED := by
            rcases hpre with h | h
            · rw [ct_isRed_node] at h
              exact h
            · rw [ct_left_node] at h
              exact absurd h (by simp [hlred])
          subst hc
          obtain ⟨hbl, hbr⟩ := bal_red_inv hb
          obtain ⟨m, hmn, hbrl, hbrr⟩ := bal_black_inv hbr
          subst hmn
          obtain ⟨hrrb, _, hokrl, hokrr⟩ := hokr
          cases l with
          | nil => exact absurd (bal_nil_inv hbl) (by omega)
          | node lv la lb lc =>
            have hlc : lc = BLACK := by simpa using hlred
            subst hlc
            obtain ⟨hlbb, _, hokla, hoklb⟩ := hokl
            obtain ⟨m2, hm2, hbla, hblb⟩ := bal_black_inv hbl
            have hm2e : m = m2 := by omega
            subst hm2e
            rw [if_pos hcnd] at heq hm
            cases hla : isRed la with
            | true =>
              cases la with
              | nil => simp at hla
              | node lav laa lab lac =>
                have hlac : lac = RED := by simpa using hla
                subst hlac
                rw [moveRedRight_eq_rot] at heq
                rw [ct_valD_node] at heq
                exact absurd heq (hnohit lv (by simp [ct_toList_node]))
            | false =>
              rw [moveRedRight_eq_noRot hla] at heq hm
              rw [ct_valD_node] at heq
              rw [ct_right_node] at hm
              obtain ⟨dq1, dq2, dq3, dq4, dq5⟩ := deleteMin_spec
                (show ok23 (node rv rl rr RED) from
                  ⟨hrrb, fun _ => hrlb, hokrl, hokrr⟩)
                (show Bal (node rv rl rr RED) m from Bal.red hbrl hbrr)
                (Or.inl rfl) (by simp)
              have hcons := minVal_some_cons hm
              have hnohitL : ∀ y ∈ toList la ++ lv :: toList lb,
                  cmp x y ≠ 0 := by
                intro y hy
                refine hnohit y ?_
                simpa [ct_toList_node] using hy
              cases hw : isRed (deleteMin (node rv rl rr RED)) with
              | false =>
                have hdm : remove cmp x (node v (node lv la lb BLACK)
                      (node rv rl rr BLACK) RED)
                    = node mv (node lv la lb RED)
                        (deleteMin (node rv rl rr RED)) BLACK := by
                  rw [remove]
                  rw [if_neg hlt]
                  rw [if_neg (show ¬(isRed (node lv la lb BLACK) = true)
                    by simp [BLACK])]
                  rw [if_neg hgneg]
                  rw [ct_right_node]
                  rw [if_pos hcnd]
                  rw [moveRedRight_eq_noRot hla]
                  simp only [ct_valD_node]
                  rw [if_pos heq]
                  rw [ct_right_node]
                  simp only [hm]
                  simp only [ct_setRight_node, ct_setValue_node]
                  rw [balance_id hw (show
                    ¬(isRed (node lv la lb RED) = true ∧
                      isRed (node lv la lb RED).left = true) from by
                        simp [hla])]
                have hOk : removeOk cmp x (node v (node lv la lb BLACK)
                    (node rv rl rr BLACK) RED) := by
                  rw [removeOk]
                  rw [if_neg hlt]
                  refine ⟨fun h => absurd h (by simp [BLACK]), ?_⟩
                  rw [if_neg (show ¬(isRed (node lv la lb BLACK) = true)
                    by simp [BLACK])]
                  rw [if_neg hgneg]
                  rw [ct_right_node]
                  refine ⟨by simp, fun _ => moveRedRightOk_shape hrlb, ?_⟩
                  rw [if_pos hcnd]
                  rw [moveRedRight_eq_noRot hla]
                  simp only [ct_valD_node]
                  rw [if_pos heq]
                  rw [ct_right_node]
                  refine ⟨by simp, dq5, ?_⟩
                  simp only [hm]
                  simp only [ct_setRight_node, ct_setValue_node]
                  exact balanceOk_id hw (by simp [hla])
                rw [hdm]
                refine ⟨⟨hw, fun h => absurd h (by decide),
                    ⟨hlbb, fun _ => hla, hokla, hoklb⟩, dq1⟩,
                  Bal.black (Bal.red hbla hblb) dq2, by simp [BLACK], ?_, hOk⟩
                simp only [ct_toList_node] at dq4 hcons ⊢
                rw [dq4]
                rw [eraseC_append_no_hit _ hnohitL, eraseC_cons_hit _ heq]
                rw [hcons]
              | true =>
                cases hdx : deleteMin (node rv rl rr RED) with
                | nil =>
                  rw [hdx] at hw
                  simp at hw
                | node wv wa wb wc =>
                  rw [hdx] at dq1 dq2 dq4 hw
                  have hwc : wc = RED := by simpa using hw
                  subst hwc
                  obtain ⟨hwbb, hwared, hokwa, hokwb⟩ := dq1
                  obtain ⟨hbwa, hbwb⟩ := bal_red_inv dq2
                  have hdm : remove cmp x (node v (node lv la lb BLACK)
                        (node rv rl rr BLACK) RED)
                      = node mv (node lv la lb BLACK)
                          (node wv wa wb BLACK) RED := by
                    rw [remove]
                    rw [if_neg hlt]
                    rw [if_neg (show ¬(isRed (node lv la lb BLACK) = true)
                      by simp [BLACK])]
                    rw [if_neg hgneg]
                    rw [ct_right_node]
                    rw [if_pos hcnd]
                    rw [moveRedRight_eq_noRot hla]
                    simp only [ct_valD_node]
                    rw [if_pos heq]
                    rw [ct_right_node]
                    simp only [hm]
                    simp only [ct_setRight_node, ct_setValue_node]
                    rw [hdx]
                    rw [balance_bothRed hla]
                  have hOk : removeOk cmp x (node v (node lv la lb BLACK)
                      (node rv rl rr BLACK) RED) := by
                    rw [removeOk]
                    rw [if_neg hlt]
                    refine ⟨fun h => absurd h (by simp [BLACK]), ?_⟩
                    rw [if_neg (show ¬(isRed (node lv la lb BLACK) = true)
                      by simp [BLACK])]
                    rw [if_neg hgneg]
                    rw [ct_right_node]
                    refine ⟨by simp, fun _ => moveRedRightOk_shape hrlb, ?_⟩
                    rw [if_pos hcnd]
                    rw [moveRedRight_eq_noRot hla]
                    simp only [ct_valD_node]
                    rw [if_pos heq]
                    rw [ct_right_node]
                    refine ⟨by simp, dq5, ?_⟩
                    simp only [hm]
                    simp only [ct_setRight_node, ct_setValue_node]
                    rw [hdx]
                    exact balanceOk_bothRed hla
                  rw [hdm]
                  refine ⟨⟨rfl, fun _ => rfl,
                      ⟨hlbb, fun h => absurd h (by decide), hokla, hoklb⟩,
                      ⟨hwbb, fun h => absurd h (by decide), hokwa, hokwb⟩⟩,
                    Bal.red (Bal.black hbla hblb) (Bal.black hbwa hbwb),
                    fun _ => rfl, ?_, hOk⟩
                  simp only [ct_toList_node] at dq4 hcons ⊢
                  rw [dq4]
                  rw [eraseC_append_no_hit _ hnohitL, eraseC_cons_hit _ heq]
                  rw [hcons]
  | case6 v l r c hlt t2 hg t3 heq =>
    rename_i hmnone
    unfold_let t3 at heq hmnone
    unfold_let t2 at hg heq hmnone
    simp only [dite_eq_ite] at hg heq hmnone
    intro n hb hord hmem hshape
    cases hlred : isRed l with
    | true =>
      rw [if_pos hlred] at hmnone
      cases l with
      | nil => simp at hlred
      | node lv la lb lc =>
        rw [show rotateRight (node v (node lv la lb lc) r c)
            = node lv la (node v lb r RED) c from rfl] at hmnone
        rw [ct_right_node] at hmnone
        rw [if_neg (show ¬((!isRed (node v lb r RED) &&
            !isRed (node v lb r RED).left) = true) from by simp [RED])] at hmnone
        rw [ct_right_node] at hmnone
        exact absurd hmnone (minVal_isSome (by simp))
    | false =>
      rw [if_neg (show ¬(isRed l = true) by simp [hlred])] at hg hmnone
      rw [ct_valD_node, ct_right_node] at hg
      have hrne : r ≠ nil := by
        intro hre
        subst hre
        have hshape2 : ok23 (node v l nil c) ∧
            (isRed (node v l nil c) = true ∨
              isRed (node v l nil c).left = true) := by
          rcases hshape with h | ⟨_, _, hrr2, _, _, _⟩
          · exact h
          · rw [ct_right_node] at hrr2
            simp at hrr2
        obtain ⟨hok, hpre⟩ := hshape2
        obtain ⟨_, hcred, hokl, _⟩ := hok
        have hc : c = RED := by
          rcases hpre with h | h
          · rw [ct_isRed_node] at h
            exact h
          · rw [ct_left_node] at h
            exact absurd h (by simp [hlred])
        subst hc
        obtain ⟨hbl, hbr⟩ := bal_red_inv hb
        have hlnil : l = nil := bal_nil_of_black_zero
          (bal_nil_inv hbr ▸ hbl) hlred
        subst hlnil
        have hx0 : cmp x v = 0 := by
          rcases (memC_node_iff cmp x v nil nil RED).mp hmem with h | h | h
          · exact absurd h (memC_nil cmp x)
          · exact h
          · exact absurd h (memC_nil cmp x)
        exact hg ⟨hx0, rfl⟩
      cases r with
      | nil => exact absurd rfl hrne
      | node rv rl rr rc =>
        rw [ct_right_node] at hmnone
        rcases Or.symm (Bool.eq_false_or_eq_true
            ((!isRed (node rv rl rr rc) && !isRed (node rv rl rr rc).left))) with
          hcnd | hcnd
        · rw [if_neg (show ¬((!isRed (node rv rl rr rc) &&
              !isRed (node rv rl rr rc).left) = true) from by
                rw [hcnd]; simp)] at hmnone
          rw [ct_right_node] at hmnone
          exact absurd hmnone (minVal_isSome (by simp))
        · obtain ⟨hrb, hrlb⟩ : isRed (node rv rl rr rc) = false ∧
              isRed (node rv rl rr rc).left = false := by simpa using hcnd
          have hrc : rc = BLACK := by simpa using hrb
          subst hrc
          rw [if_pos hcnd] at hmnone
          have hshape2 : ok23 (node v l (node rv rl rr BLACK) c) ∧
              (isRed (node v l (node rv rl rr BLACK) c) = true ∨
                isRed (node v l (node rv rl rr BLACK) c).left = true) := by
            rcases hshape with h | ⟨_, _, hrr2, _, _, _⟩
            · exact h
            · rw [ct_right_node] at hrr2
              exact absurd hrr2 (by simp [hrb])
          obtain ⟨hok, hpre⟩ := hshape2
          obtain ⟨hr23, hcred, hokl, hokr⟩ := hok
          have hc : c = RED := by
            rcases hpre with h | h
            · rw [ct_isRed_node] at h
              exact h
            · rw [ct_left_node] at h
              exact absurd h (by simp [hlred])
          subst hc
          obtain ⟨hbl, hbr⟩ := bal_red_inv hb
          obtain ⟨m, hm, _, _⟩ := bal_black_inv hbr
          subst hm
          cases l with
          | nil => exact absurd (bal_nil_inv hbl) (by omega)
          | node lv la lb lc =>
            have hlc : lc = BLACK := by simpa using hlred
            subst hlc
            cases hla : isRed la with
            | true =>
              cases la with
              | nil => simp at hla
              | node lav laa lab lac =>
                have hlac : lac = RED := by simpa using hla
                subst hlac
                rw [moveRedRight_eq_rot] at hmnone
                rw [ct_right_node] at hmnone
                exact absurd hmnone (minVal_isSome (by simp))
            | false =>
              rw [moveRedRight_eq_noRot hla] at hmnone
              rw [ct_right_node] at hmnone
              exact absurd hmnone (minVal_isSome (by simp))
  | case7 v l r c hlt t2 hg t3 hne2 =>
    rename_i ih
    unfold_let t3 at hne2 ih
    unfold_let t2 at hg hne2 ih
    simp only [dite_eq_ite] at hg hne2 ih
    intro n hb hord hmem hshape
    obtain ⟨hol, hor, hltl, hgtr, _⟩ := (ordered_node_iff cmp v l r c).mp hord
    have hge : 0 ≤ cmp x v := by omega
    have hnohit : ∀ y ∈ toList l, cmp x y ≠ 0 := hcmp.no_hit_low hltl hge
    have hvr := memC_right_of_ge hcmp hord hmem hge
    cases hlred : isRed l with
    | true =>
      have hok : ok23 (node v l r c) := by
        rcases hshape with h | ⟨_, hlb2, _⟩
        · exact h.1
        · rw [ct_left_node] at hlb2
          rw [hlred] at hlb2
          exact absurd hlb2 (by simp)
      obtain ⟨hr23, hcimp, hokl, hokr⟩ := hok
      have hc : c = BLACK := by
        rcases Or.symm (Bool.eq_false_or_eq_true c) with h | h
        · exact h
        · exact absurd (hcimp h) (by simp [hlred])
      subst hc
      obtain ⟨m, hmn, hbl, hbr⟩ := bal_black_inv hb
      subst hmn
      cases l with
      | nil => simp at hlred
      | node lv la lb lc =>
        have hlc : lc = RED := by simpa using hlred
        subst hlc
        obtain ⟨hlbb, hlab, hokla, hoklb⟩ := hokl
        have hla : isRed la = false := hlab rfl
        obtain ⟨hbla, hblb⟩ := bal_red_inv hbl
        obtain ⟨hola, holb, hlalt, hlbgt, _⟩ :=
          (ordered_node_iff cmp lv la lb RED).mp hol
        rw [if_pos hlred] at hne2 ih
        rw [show rotateRight (node v (node lv la lb RED) r BLACK)
            = node lv la (node v lb r RED) BLACK from rfl] at hne2 ih
        rw [ct_right_node] at hne2 ih
        have hcnd7 : ¬((!isRed (node v lb r RED) &&
            !isRed (node v lb r RED).left) = true) := by simp [RED]
        rw [if_neg hcnd7] at hne2 ih
        rw [ct_valD_node] at hne2
        rw [ct_right_node] at ih
        have hordX : ordered cmp (node v lb r RED) := by
          refine ordered_node_of hcmp holb hor ?_ hgtr
          intro y hy
          refine hltl y ?_
          simp only [ct_toList_node, List.mem_append, List.mem_cons]
          exact Or.inr (Or.inr hy)
        have hmemX : memC cmp x (node v lb r RED) := by
          rcases hvr with h | h
          · exact (memC_node_iff cmp x v lb r RED).mpr (Or.inr (Or.inl h))
          · exact (memC_node_iff cmp x v lb r RED).mpr (Or.inr (Or.inr h))
        obtain ⟨q1, q2, q3, q4, q5⟩ := ih (Bal.red hblb hbr) hordX hmemX
          (Or.inl ⟨⟨hr23, fun _ => hlbb, hoklb, hokr⟩, Or.inl rfl⟩)
        have hnx : ∀ y ∈ toList la ++ lv :: toList lb, cmp x y ≠ 0 := by
          intro y hy
          refine hnohit y ?_
          simpa [ct_toList_node] using hy
        have hnB : ∀ y ∈ toList lb, cmp x y ≠ 0 := by
          intro y hy
          exact hnx y (by simp [hy])
        cases hres : isRed (remove cmp x (node v lb r RED)) with
        | false =>
          have hdm : remove cmp x (node v (node lv la lb RED) r BLACK)
              = node lv la (remove cmp x (node v lb r RED)) BLACK := by
            rw [remove]
            rw [if_neg hlt]
            rw [if_pos hlred]
            rw [show rotateRight (node v (node lv la lb RED) r BLACK)
                = node lv la (node v lb r RED) BLACK from rfl]
            rw [if_neg (show ¬(cmp x ((node lv la (node v lb r RED) BLACK).valD x)
                = 0 ∧ isNil (node lv la (node v lb r RED) BLACK).right = true) from
              fun hq => hne2 hq.1)]
            rw [ct_right_node]
            rw [if_neg hcnd7]
            simp only [ct_valD_node]
            rw [if_neg hne2]
            rw [ct_right_node]
            simp only [ct_setRight_node]
            rw [balance_id hres (show ¬(isRed la = true ∧ isRed la.left = true)
              from by simp [hla])]
          have hOk : removeOk cmp x (node v (node lv la lb RED) r BLACK) := by
            rw [removeOk]
            rw [if_neg hlt]
            refine ⟨fun _ => hlred, ?_⟩
            rw [if_pos hlred]
            rw [show rotateRight (node v (node lv la lb RED) r BLACK)
                = node lv la (node v lb r RED) BLACK from rfl]
            rw [if_neg (show ¬(cmp x ((node lv la (node v lb r RED) BLACK).valD x)
                = 0 ∧ isNil (node lv la (node v lb r RED) BLACK).right = true) from
              fun hq => hne2 hq.1)]
            rw [ct_right_node]
            refine ⟨by simp, fun h => absurd h hcnd7, ?_⟩
            rw [if_neg hcnd7]
            simp only [ct_valD_node]
            rw [if_neg hne2]
            rw [ct_right_node]
            refine ⟨q5, ?_⟩
            simp only [ct_setRight_node]
            exact balanceOk_id hres (by simp [hla])
          rw [hdm]
          refine ⟨⟨hres, fun h => absurd h (by decide), hokla, q1⟩,
            Bal.black hbla q2, by simp [BLACK], ?_, hOk⟩
          simp only [ct_toList_node] at q4 ⊢
          rw [eraseC_append_no_hit _ hnB] at q4
          rw [eraseC_append_no_hit _ hnx]
          rw [q4]
          simp only [List.append_assoc, List.cons_append]
        | true =>
          cases hdx : remove cmp x (node v lb r RED) with
          | nil =>
            rw [hdx] at hres
            simp at hres
          | node qv qa qb qc =>
            rw [hdx] at q1 q2 q4 hres
            have hqc : qc = RED := by simpa using hres
            subst hqc
            obtain ⟨hqbb, hqared, hokqa, hokqb⟩ := q1
            obtain ⟨hbqa, hbqb⟩ := bal_red_inv q2
            have hdm : remove cmp x (node v (node lv la lb RED) r BLACK)
                = node qv (node lv la qa RED) qb BLACK := by
              rw [remove]
              rw [if_neg hlt]
              rw [if_pos hlred]
              rw [show rotateRight (node v (node lv la lb RED) r BLACK)
                  = node lv la (node v lb r RED) BLACK from rfl]
              rw [if_neg (show ¬(cmp x ((node lv la (node v lb r RED) BLACK).valD x)
                  = 0 ∧ isNil (node lv la (node v lb r RED) BLACK).right = true) from
                fun hq => hne2 hq.1)]
              rw [ct_right_node]
              rw [if_neg hcnd7]
              simp only [ct_valD_node]
              rw [if_neg hne2]
              rw [ct_right_node]
              simp only [ct_setRight_node]
              rw [hdx]
              rw [balance_rightRed hla (hqared rfl) hqbb]
            have hOk : removeOk cmp x (node v (node lv la lb RED) r BLACK) := by
              rw [removeOk]
              rw [if_neg hlt]
              refine ⟨fun _ => hlred, ?_⟩
              rw [if_pos hlred]
              rw [show rotateRight (node v (node lv la lb RED) r BLACK)
                  = node lv la (node v lb r RED) BLACK from rfl]
              rw [if_neg (show ¬(cmp x ((node lv la (node v lb r RED) BLACK).valD x)
                  = 0 ∧ isNil (node lv la (node v lb r RED) BLACK).right = true) from
                fun hq => hne2 hq.1)]
              rw [ct_right_node]
              refine ⟨by simp, fun h => absurd h hcnd7, ?_⟩
              rw [if_neg hcnd7]
              simp only [ct_valD_node]
              rw [if_neg hne2]
              rw [ct_right_node]
              refine ⟨q5, ?_⟩
              simp only [ct_setRight_node]
              rw [hdx]
              exact balanceOk_rightRed hla hqbb
            rw [hdm]
            refine ⟨⟨hqbb, fun h => absurd h (by decide),
                ⟨hqared rfl, fun _ => hla, hokla, hokqa⟩, hokqb⟩,
              Bal.black (Bal.red hbla hbqa) hbqb, by simp [BLACK], ?_, hOk⟩
            simp only [ct_toList_node] at q4 ⊢
            rw [eraseC_append_no_hit _ hnB] at q4
            rw [eraseC_append_no_hit _ hnx]
            simp only [List.append_assoc, List.cons_append]
            rw [q4]
    | false =>
      rw [if_neg (show ¬(isRed l = true) by simp [hlred])] at hg hne2 ih
      rw [ct_valD_node, ct_right_node] at hg
      have hrne : r ≠ nil := by
        intro hre
        subst hre
        rcases hvr with h | h
        · exact hg ⟨h, rfl⟩
        · exact absurd h (memC_nil cmp x)
      cases r with
      | nil => exact absurd rfl hrne
      | node rv rl rr rc =>
        rw [ct_right_node] at hne2 ih
        have hgneg : ¬(cmp x ((node v l (node rv rl rr rc) c).valD x) = 0 ∧
            isNil (node v l (node rv rl rr rc) c).right = true) := by
          intro hq
          rw [ct_right_node] at hq
          exact absurd hq.2 (by simp)
        rcases Or.symm (Bool.eq_false_or_eq_true
            ((!isRed (node rv rl rr rc) && !isRed (node rv rl rr rc).left))) with
          hcnd | hcnd
        · -- the sibling keeps a red node: recurse directly
          have hcndneg : ¬((!isRed (node rv rl rr rc) &&
              !isRed (node rv rl rr rc).left) = true) := by
            rw [hcnd]; simp
          rw [if_neg hcndneg] at hne2 ih
          rw [ct_valD_node] at hne2
          rw [ct_right_node] at ih
          have hmemr : memC cmp x (node rv rl rr rc) := by
            rcases hvr with h | h
            · exact absurd h hne2
            · exact h
          rcases hshape with ⟨hok, hpre⟩ | ⟨hcb2, hlb2, hrr2, hokl2, hokr2, _⟩
          · -- red root, black right child with a red left grandchild
            obtain ⟨hr23, hcred, hokl, hokr⟩ := hok
            have hc : c = RED := by
              rcases hpre with h | h
              · rw [ct_isRed_node] at h
                exact h
              · rw [ct_left_node] at h
                exact absurd h (by simp [hlred])
            subst hc
            have hrc : rc = BLACK := by simpa using hr23
            subst hrc
            have hrlred : isRed rl = true := by
              rcases Or.symm (Bool.eq_false_or_eq_true (isRed rl)) with h | h
              · exfalso
                apply hcndneg
                simp [h, RED, BLACK]
              · exact h
            obtain ⟨hbl, hbr⟩ := bal_red_inv hb
            obtain ⟨q1, q2, q3, q4, q5⟩ := ih hbr hor hmemr
              (Or.inl ⟨hokr, Or.inr (by rw [ct_left_node]; exact hrlred)⟩)
            have hres : isRed (remove cmp x (node rv rl rr BLACK)) = false := by
              cases hq : isRed (remove cmp x (node rv rl rr BLACK)) with
              | false => rfl
              | true => exact absurd (q3 hq) (by simp [BLACK])
            have hdm : remove cmp x (node v l (node rv rl rr BLACK) RED)
                = node v l (remove cmp x (node rv rl rr BLACK)) RED := by
              rw [remove]
              rw [if_neg hlt]
              rw [if_neg (show ¬(isRed l = true) by simp [hlred])]
              rw [if_neg hgneg]
              rw [ct_right_node]
              rw [if_neg hcndneg]
              simp only [ct_valD_node]
              rw [if_neg hne2]
              rw [ct_right_node]
              simp only [ct_setRight_node]
              rw [balance_id hres (show ¬(isRed l = true ∧ isRed l.left = true)
                from by simp [hlred])]
            have hOk : removeOk cmp x (node v l (node rv rl rr BLACK) RED) := by
              rw [removeOk]
              rw [if_neg hlt]
              refine ⟨fun h => absurd h (by simp [hlred]), ?_⟩
              rw [if_neg (show ¬(isRed l = true) by simp [hlred])]
              rw [if_neg hgneg]
              rw [ct_right_node]
              refine ⟨by simp, fun h => absurd h hcndneg, ?_⟩
              rw [if_neg hcndneg]
              simp only [ct_valD_node]
              rw [if_neg hne2]
              rw [ct_right_node]
              refine ⟨q5, ?_⟩
              simp only [ct_setRight_node]
              exact balanceOk_id hres (by simp [hlred])
            rw [hdm]
            refine ⟨⟨hres, fun _ => hlred, hokl, q1⟩,
              Bal.red hbl q2, fun _ => rfl, ?_, hOk⟩
            simp only [ct_toList_node] at q4 ⊢
            rw [eraseC_skip _ hnohit hne2]
            rw [q4]
          · -- black root with a red right child
            rw [ct_isRed_node] at hcb2
            rw [ct_left_node] at hlb2
            rw [ct_right_node] at hrr2 hokr2
            rw [ct_left_node] at hokl2
            have hcb : c = BLACK := hcb2
            subst hcb
            have hrc : rc = RED := by simpa using hrr2
            subst hrc
            obtain ⟨m, hmn, hbl, hbr⟩ := bal_black_inv hb
            subst hmn
            obtain ⟨q1, q2, q3, q4, q5⟩ := ih hbr hor hmemr
              (Or.inl ⟨hokr2, Or.inl rfl⟩)
            cases hres : isRed (remove cmp x (node rv rl rr RED)) with
            | false =>
              have hdm : remove cmp x (node v l (node rv rl rr RED) BLACK)
                  = node v l (remove cmp x (node rv rl rr RED)) BLACK := by
                rw [remove]
                rw [if_neg hlt]
                rw [if_neg (show ¬(isRed l = true) by simp [hlb2])]
                rw [if_neg hgneg]
                rw [ct_right_node]
                rw [if_neg hcndneg]
                simp only [ct_valD_node]
                rw [if_neg hne2]
                rw [ct_right_node]
                simp only [ct_setRight_node]
                rw [balance_id hres (show ¬(isRed l = true ∧ isRed l.left = true)
                  from by simp [hlb2])]
              have hOk : removeOk cmp x (node v l (node rv rl rr RED) BLACK) := by
                rw [removeOk]
                rw [if_neg hlt]
                refine ⟨fun h => absurd h (by simp [hlb2]), ?_⟩
                rw [if_neg (show ¬(isRed l = true) by simp [hlb2])]
                rw [if_neg hgneg]
                rw [ct_right_node]
                refine ⟨by simp, fun h => absurd h hcndneg, ?_⟩
                rw [if_neg hcndneg]
                simp only [ct_valD_node]
                rw [if_neg hne2]
                rw [ct_right_node]
                refine ⟨q5, ?_⟩
                simp only [ct_setRight_node]
                exact balanceOk_id hres (by simp [hlb2])
              rw [hdm]
              refine ⟨⟨hres, fun h => absurd h (by decide), hokl2, q1⟩,
                Bal.black hbl q2, by simp [BLACK], ?_, hOk⟩
              simp only [ct_toList_node] at q4 ⊢
              rw [eraseC_skip _ hnohit hne2]
              rw [q4]
            | true =>
              cases hdx : remove cmp x (node rv rl rr RED) with
              | nil =>
                rw [hdx] at hres
                simp at hres
              | node qv qa qb qc =>
                rw [hdx] at q1 q2 q4 hres
                have hqc : qc = RED := by simpa using hres
                subst hqc
                obtain ⟨hqbb, hqared, hokqa, hokqb⟩ := q1
                obtain ⟨hbqa, hbqb⟩ := bal_red_inv q2
                have hdm : remove cmp x (node v l (node rv rl rr RED) BLACK)
                    = node qv (node v l qa RED) qb BLACK := by
                  rw [remove]
                  rw [if_neg hlt]
                  rw [if_neg (show ¬(isRed l = true) by simp [hlb2])]
                  rw [if_neg hgneg]
                  rw [ct_right_node]
                  rw [if_neg hcndneg]
                  simp only [ct_valD_node]
                  rw [if_neg hne2]
                  rw [ct_right_node]
                  simp only [ct_setRight_node]
                  rw [hdx]
                  rw [balance_rightRed hlb2 (hqared rfl) hqbb]
                have hOk : removeOk cmp x (node v l (node rv rl rr RED) BLACK) := by
                  rw [removeOk]
                  rw [if_neg hlt]
                  refine ⟨fun h => absurd h (by simp [hlb2]), ?_⟩
                  rw [if_neg (show ¬(isRed l = true) by simp [hlb2])]
                  rw [if_neg hgneg]
                  rw [ct_right_node]
                  refine ⟨by simp, fun h => absurd h hcndneg, ?_⟩
                  rw [if_neg hcndneg]
                  simp only [ct_valD_node]
                  rw [if_neg hne2]
                  rw [ct_right_node]
                  refine ⟨q5, ?_⟩
                  simp only [ct_setRight_node]
                  rw [hdx]
                  exact balanceOk_rightRed hlb2 hqbb
                rw [hdm]
                refine ⟨⟨hqbb, fun h => absurd h (by decide),
                    ⟨hqared rfl, fun _ => hlb2, hokl2, hokqa⟩, hokqb⟩,
                  Bal.black (Bal.red hbl hbqa) hbqb, by simp [BLACK], ?_, hOk⟩
                simp only [ct_toList_node] at q4 ⊢
                rw [eraseC_skip _ hnohit hne2]
                simp only [List.append_assoc, List.cons_append]
                rw [q4]
        · -- both the right child and its left child are black: moveRedRight
          obtain ⟨hrb, hrlb⟩ : isRed (node rv rl rr rc) = false ∧
              isRed (node rv rl rr rc).left = false := by simpa using hcnd
          have hrc : rc = BLACK := by simpa using hrb
          subst hrc
          rw [ct_left_node] at hrlb
          have hshape2 : ok23 (node v l (node rv rl rr BLACK) c) ∧
              (isRed (node v l (node rv rl rr BLACK) c) = true ∨
                isRed (node v l (node rv rl rr BLACK) c).left = true) := by
            rcases hshape with h | ⟨_, _, hrr2, _, _, _⟩
            · exact h
            · rw [ct_right_node] at hrr2
              exact absurd hrr2 (by simp [hrb])
          obtain ⟨hok, hpre⟩ := hshape2
          obtain ⟨hr23, hcred, hokl, hokr⟩ := hok
          have hc : c = RED := by
            rcases hpre with h | h
            · rw [ct_isRed_node] at h
              exact h
            · rw [ct_left_node] at h
              exact absurd h (by simp [hlred])
          subst hc
          obtain ⟨hbl, hbr⟩ := bal_red_inv hb
          obtain ⟨m, hmn, hbrl, hbrr⟩ := bal_black_inv hbr
          subst hmn
          obtain ⟨hrrb, _, hokrl, hokrr⟩ := hokr
          cases l with
          | nil => exact absurd (bal_nil_inv hbl) (by omega)
          | node lv la lb lc =>
            have hlc : lc = BLACK := by simpa using hlred
            subst hlc
            obtain ⟨hlbb, _, hokla, hoklb⟩ := hokl
            obtain ⟨m2, hm2, hbla, hblb⟩ := bal_black_inv hbl
            have hm2e : m = m2 := by omega
            subst hm2e
            obtain ⟨hola, holb, hlalt, hlbgt, _⟩ :=
              (ordered_node_iff cmp lv la lb BLACK).mp hol
            rw [if_pos hcnd] at hne2 ih
            have hnB : ∀ y ∈ toList lb, cmp x y ≠ 0 := by
              intro y hy
              refine hnohit y ?_
              simp only [ct_toList_node, List.mem_append, List.mem_cons]
              exact Or.inr (Or.inr hy)
            have hlbv : ∀ y ∈ toList lb, cmp y v < 0 := by
              intro y hy
              refine hltl y ?_
              simp only [ct_toList_node, List.mem_append, List.mem_cons]
              exact Or.inr (Or.inr hy)
            cases hla : isRed la with
            | true =>
              cases la with
              | nil => simp at hla
              | node lav laa lab lac =>
                have hlac : lac = RED := by simpa using hla
                subst hlac
                rw [moveRedRight_eq_rot] at hne2 ih
                rw [ct_valD_node] at hne2
                rw [ct_right_node] at ih
                obtain ⟨hlabb, hlaared, hoklaa, hoklab⟩ := hokla
                obtain ⟨hblaa, hblab⟩ := bal_red_inv hbla
                have hordX : ordered cmp (node v lb (node rv rl rr RED) BLACK) := by
                  refine ordered_node_of hcmp holb hor hlbv hgtr
                have hmemX : memC cmp x (node v lb (node rv rl rr RED) BLACK) := by
                  rcases hvr with h | h
                  · exact (memC_node_iff cmp x v lb
                      (node rv rl rr RED) BLACK).mpr (Or.inr (Or.inl h))
                  · exact (memC_node_iff cmp x v lb
                      (node rv rl rr RED) BLACK).mpr (Or.inr (Or.inr h))
                obtain ⟨q1, q2, q3, q4, q5⟩ := ih
                  (Bal.black hblb (Bal.red hbrl hbrr)) hordX hmemX
                  (Or.inr ⟨rfl, hlbb, rfl, hoklb,
                    ⟨hrrb, fun _ => hrlb, hokrl, hokrr⟩, hge⟩)
                have hres : isRed (remove cmp x
                    (node v lb (node rv rl rr RED) BLACK)) = false := by
                  cases hq : isRed (remove cmp x
                      (node v lb (node rv rl rr RED) BLACK)) with
                  | false => rfl
                  | true => exact absurd (q3 hq) (by simp [BLACK])
                have hnx : ∀ y ∈ (toList laa ++ lav :: toList lab) ++
                    lv :: toList lb, cmp x y ≠ 0 := by
                  intro y hy
                  refine hnohit y ?_
                  simpa [ct_toList_node] using hy
                have hdm : remove cmp x (node v
                      (node lv (node lav laa lab RED) lb BLACK)
                      (node rv rl rr BLACK) RED)
                    = node lv (node lav laa lab BLACK)
                        (remove cmp x (node v lb (node rv rl rr RED) BLACK))
                        RED := by
                  rw [remove]
                  rw [if_neg hlt]
                  rw [if_neg (show
                    ¬(isRed (node lv (node lav laa lab RED) lb BLACK) = true)
                    by simp [BLACK])]
                  rw [if_neg hgneg]
                  rw [ct_right_node]
                  rw [if_pos hcnd]
                  rw [moveRedRight_eq_rot]
                  simp only [ct_valD_node]
                  rw [if_neg hne2]
                  rw [ct_right_node]
                  simp only [ct_setRight_node]
                  rw [balance_id hres (show
                    ¬(isRed (node lav laa lab BLACK) = true ∧
                      isRed (node lav laa lab BLACK).left = true)
                    from by simp [BLACK])]
                have hOk : removeOk cmp x (node v
                    (node lv (node lav laa lab RED) lb BLACK)
                    (node rv rl rr BLACK) RED) := by
                  rw [removeOk]
                  rw [if_neg hlt]
                  refine ⟨fun h => absurd h (by simp [BLACK]), ?_⟩
                  rw [if_neg (show
                    ¬(isRed (node lv (node lav laa lab RED) lb BLACK) = true)
                    by simp [BLACK])]
                  rw [if_neg hgneg]
                  rw [ct_right_node]
                  refine ⟨by simp, fun _ => moveRedRightOk_shape hrlb, ?_⟩
                  rw [if_pos hcnd]
                  rw [moveRedRight_eq_rot]
                  simp only [ct_valD_node]
                  rw [if_neg hne2]
                  rw [ct_right_node]
                  refine ⟨q5, ?_⟩
                  simp only [ct_setRight_node]
                  exact balanceOk_id hres (by simp [BLACK])
                rw [hdm]
                refine ⟨⟨hres, fun _ => rfl,
                    ⟨hlabb, fun h => absurd h (by decide), hoklaa, hoklab⟩, q1⟩,
                  Bal.red (Bal.black hblaa hblab) q2, fun _ => rfl, ?_, hOk⟩
                simp only [ct_toList_node] at q4 ⊢
                rw [eraseC_append_no_hit _ hnB] at q4
                rw [eraseC_append_no_hit _ hnx]
                rw [q4]
                simp only [List.append_assoc, List.cons_append]
            | false =>
              rw [moveRedRight_eq_noRot hla] at hne2 ih
              rw [ct_valD_node] at hne2
              rw [ct_right_node] at ih
              have hmemr : memC cmp x (node rv rl rr RED) := by
                rcases hvr with h | h
                · exact absurd h hne2
                · exact h
              obtain ⟨q1, q2, q3, q4, q5⟩ := ih (Bal.red hbrl hbrr) hor hmemr
                (Or.inl ⟨⟨hrrb, fun _ => hrlb, hokrl, hokrr⟩, Or.inl rfl⟩)
              have hnx : ∀ y ∈ toList la ++ lv :: toList lb, cmp x y ≠ 0 := by
                intro y hy
                refine hnohit y ?_
                simpa [ct_toList_node] using hy
              cases hres : isRed (remove cmp x (node rv rl rr RED)) with
              | false =>
                have hdm : remove cmp x (node v (node lv la lb BLACK)
                      (node rv rl rr BLACK) RED)
                    = node v (node lv la lb RED)
                        (remove cmp x (node rv rl rr RED)) BLACK := by
                  rw [remove]
                  rw [if_neg hlt]
                  rw [if_neg (show ¬(isRed (node lv la lb BLACK) = true)
                    by simp [BLACK])]
                  rw [if_neg hgneg]
                  rw [ct_right_node]
                  rw [if_pos hcnd]
                  rw [moveRedRight_eq_noRot hla]
                  simp only [ct_valD_node]
                  rw [if_neg hne2]
                  rw [ct_right_node]
                  simp only [ct_setRight_node]
                  rw [balance_id hres (show
                    ¬(isRed (node lv la lb RED) = true ∧
                      isRed (node lv la lb RED).left = true) from by simp [hla])]
                have hOk : removeOk cmp x (node v (node lv la lb BLACK)
                    (node rv rl rr BLACK) RED) := by
                  rw [removeOk]
                  rw [if_neg hlt]
                  refine ⟨fun h => absurd h (by simp [BLACK]), ?_⟩
                  rw [if_neg (show ¬(isRed (node lv la lb BLACK) = true)
                    by simp [BLACK])]
                  rw [if_neg hgneg]
                  rw [ct_right_node]
                  refine ⟨by simp, fun _ => moveRedRightOk_shape hrlb, ?_⟩
                  rw [if_pos hcnd]
                  rw [moveRedRight_eq_noRot hla]
                  simp only [ct_valD_node]
                  rw [if_neg hne2]
                  rw [ct_right_node]
                  refine ⟨q5, ?_⟩
                  simp only [ct_setRight_node]
                  exact balanceOk_id hres (by simp [hla])
                rw [hdm]
                refine ⟨⟨hres, fun h => absurd h (by decide),
                    ⟨hlbb, fun _ => hla, hokla, hoklb⟩, q1⟩,
                  Bal.black (Bal.red hbla hblb) q2, by simp [BLACK], ?_, hOk⟩
                simp only [ct_toList_node] at q4 ⊢
                rw [eraseC_skip _ hnx hne2]
                rw [q4]
              | true =>
                cases hdx : remove cmp x (node rv rl rr RED) with
                | nil =>
                  rw [hdx] at hres
                  simp at hres
                | node qv qa qb qc =>
                  rw [hdx] at q1 q2 q4 hres
                  have hqc : qc = RED := by simpa using hres
                  subst hqc
                  obtain ⟨hqbb, hqared, hokqa, hokqb⟩ := q1
                  obtain ⟨hbqa, hbqb⟩ := bal_red_inv q2
                  have hdm : remove cmp x (node v (node lv la lb BLACK)
                        (node rv rl rr BLACK) RED)
                      = node v (node lv la lb BLACK)
                          (node qv qa qb BLACK) RED := by
                    rw [remove]
                    rw [if_neg hlt]
                    rw [if_neg (show ¬(isRed (node lv la lb BLACK) = true)
                      by simp [BLACK])]
                    rw [if_neg hgneg]
                    rw [ct_right_node]
                    rw [if_pos hcnd]
                    rw [moveRedRight_eq_noRot hla]
                    simp only [ct_valD_node]
                    rw [if_neg hne2]
                    rw [ct_right_node]
                    simp only [ct_setRight_node]
                    rw [hdx]
                    rw [balance_bothRed hla]
                  have hOk : removeOk cmp x (node v (node lv la lb BLACK)
                      (node rv rl rr BLACK) RED) := by
                    rw [removeOk]
                    rw [if_neg hlt]
                    refine ⟨fun h => absurd h (by simp [BLACK]), ?_⟩
                    rw [if_neg (show ¬(isRed (node lv la lb BLACK) = true)
                      by simp [BLACK])]
                    rw [if_neg hgneg]
                    rw [ct_right_node]
                    refine ⟨by simp, fun _ => moveRedRightOk_shape hrlb, ?_⟩
                    rw [if_pos hcnd]
                    rw [moveRedRight_eq_noRot hla]
                    simp only [ct_valD_node]
                    rw [if_neg hne2]
                    rw [ct_right_node]
                    refine ⟨q5, ?_⟩
                    simp only [ct_setRight_node]
                    rw [hdx]
                    exact balanceOk_bothRed hla
                  rw [hdm]
                  refine ⟨⟨rfl, fun _ => rfl,
                      ⟨hlbb, fun h => absurd h (by decide), hokla, hoklb⟩,
                      ⟨hqbb, fun h => absurd h (by decide), hokqa, hokqb⟩⟩,
                    Bal.red (Bal.black hbla hblb) (Bal.black hbqa hbqb),
                    fun _ => rfl, ?_, hOk⟩
                  simp only [ct_toList_node] at q4 ⊢
                  rw [eraseC_skip _ hnx hne2]
                  rw [q4]

end CTree

/-! ### The façade invariant of the sorted set (claim C6) -/

namespace CTree

variable {α : Type}

theorem memC_setColor (cmp : RBT.Cmp α) (x : α) (u : CTree α) (c : Color) :
    memC cmp x (setColor u c) ↔ memC cmp x u := by
  unfold memC
  rw [toList_setColor]

theorem ordered_setColor (cmp : RBT.Cmp α) (u : CTree α) (c : Color) :
    ordered cmp (setColor u c) ↔ ordered cmp u := by
  unfold ordered
  rw [toList_setColor]

end CTree

namespace RBT

variable {α : Type}

theorem isRed_setColor_black (t : RBT α) : isRed (setColor t BLACK) = false := by
  cases t <;> simp [setColor, isRed, BLACK, RED]

/-- Search correctness: on an ordered tree, `has` returns true exactly when
some stored element compares equal to the query. -/
theorem has_iff_memC {cmp : Cmp α} (hcmp : CmpLaws cmp) (x : α) :
    ∀ {t : RBT α}, CTree.ordered cmp (strip t) →
      (has cmp x t = true ↔ CTree.memC cmp x (strip t)) := by
  intro t
  induction t with
  | nil =>
    intro _
    constructor
    · intro h
      simp [has] at h
    · intro h
      exact absurd h (CTree.memC_nil cmp x)
  | node v l r c s ihl ihr =>
    intro hord
    rw [strip_node] at hord ⊢
    obtain ⟨hol, hor, hltl, hgtr, _⟩ :=
      (CTree.ordered_node_iff cmp v (strip l) (strip r) c).mp hord
    rcases lt_trichotomy (cmp x v) 0 with hlt | heq | hgt
    · rw [show has cmp x (node v l r c s) = has cmp x l from by
        rw [has]; rw [if_pos hlt]]
      constructor
      · intro h
        exact (CTree.memC_node_iff cmp x v (strip l) (strip r) c).mpr
          (Or.inl ((ihl hol).mp h))
      · intro h
        exact (ihl hol).mpr (CTree.memC_left_of_lt hcmp hord h hlt)
    · rw [show has cmp x (node v l r c s) = true from by
        rw [has]; rw [if_neg (by omega), if_neg (by omega)]]
      constructor
      · intro _
        exact ⟨v, by simp, heq⟩
      · intro _
        rfl
    · rw [show has cmp x (node v l r c s) = has cmp x r from by
        rw [has]; rw [if_neg (by omega), if_pos hgt]]
      constructor
      · intro h
        exact (CTree.memC_node_iff cmp x v (strip l) (strip r) c).mpr
          (Or.inr (Or.inr ((ihr hor).mp h)))
      · intro h
        rcases CTree.memC_right_of_ge hcmp hord h (by omega) with h2 | h2
        · omega
        · exact (ihr hor).mpr h2

/-- The façade state invariant of the sorted set: a black root and
invariants 1-5 (BST order, no red right child, no red-red chain, equal
black height) on the size-erased tree. -/
def SInv (cmp : Cmp α) (t : RBT α) : Prop :=
  isRed t = false ∧ CTree.ok23 (strip t) ∧ (∃ n, CTree.Bal (strip t) n) ∧
    CTree.ordered cmp (strip t)

/-- All structural assertions one façade call triggers inside the
recursive helpers, as a proposition on the pre-call state (calls that
assert nothing contribute `True`).  Mirrors the paths of `sstep`. -/
def sopAssertOk (cmp : Cmp α) (t : RBT α) : SOp α → Prop
  | .add x => CTree.insertOk cmp x (strip t)
  | .del x =>
    if !has cmp x t then True
    else
      CTree.removeOk cmp x
        (strip (if !isRed t.left && !isRed t.right then setColor t RED else t))
  | .delMin =>
    if isNil t then True
    else
      CTree.deleteMinOk
        (strip (if !isRed t.left && !isRed t.right then setColor t RED else t))
  | .delMax =>
    if isNil t then True
    else
      CTree.deleteMaxOk
        (strip (if !isRed t.left && !isRed t.right then setColor t RED else t))
  | .clear => True

/-- One façade call preserves the invariant, and every assertion its
helpers check holds on entry. -/
theorem sstep_SInv {cmp : Cmp α} (hcmp : CmpLaws cmp) {t : RBT α}
    (h : SInv cmp t) (op : SOp α) :
    SInv cmp (sstep cmp t op) ∧ sopAssertOk cmp t op := by
  obtain ⟨hblk, hok, ⟨n, hbal⟩, hord⟩ := h
  cases op with
  | clear =>
    refine ⟨?_, trivial⟩
    rw [show sstep cmp t .clear = nil from rfl]
    exact ⟨rfl, trivial, ⟨0, CTree.Bal.nil⟩, by simp [CTree.ordered]⟩
  | add x =>
    obtain ⟨hne, hbu, hres, hoku⟩ := CTree.insert_spec cmp x hok hbal
    have hoku23 : CTree.ok23 (CTree.insert cmp x (strip t)) := by
      rcases hres with h | ⟨hlr, _⟩
      · exact h
      · rw [strip_isRed, hblk] at hlr
        exact absurd hlr (by simp)
    constructor
    · refine ⟨?_, ?_, ?_, ?_⟩
      · exact isRed_setColor_black _
      · rw [show sstep cmp t (.add x) = setColor (insert cmp x t) BLACK from rfl]
        rw [strip_setColor, strip_insert]
        exact CTree.ok23_setColor_black hoku23
      · rw [show sstep cmp t (.add x) = setColor (insert cmp x t) BLACK from rfl]
        rw [strip_setColor, strip_insert]
        cases hu : CTree.isRed (CTree.insert cmp x (strip t)) with
        | true => exact ⟨n + 1, CTree.bal_setColor_black hbu hu⟩
        | false => exact ⟨n, CTree.bal_setColor_black_of_black hbu hu⟩
      · rw [show sstep cmp t (.add x) = setColor (insert cmp x t) BLACK from rfl]
        rw [strip_setColor, strip_insert]
        rw [(CTree.ordered_setColor cmp _ BLACK)]
        unfold CTree.ordered
        rw [CTree.toList_insert cmp x hcmp hord]
        exact insV_pairwise hcmp x hord
    · exact hoku
  | del x =>
    cases hhas : has cmp x t with
    | false =>
      have hstep : sstep cmp t (.del x) = t := by
        rw [show sstep cmp t (.del x) = (deleteS cmp x t).2 from rfl]
        rw [deleteS, if_pos (by rw [hhas]; rfl)]
      have hass : sopAssertOk cmp t (.del x) = True := by
        rw [sopAssertOk, if_pos (by rw [hhas]; rfl)]
      rw [hstep, hass]
      exact ⟨⟨hblk, hok, ⟨n, hbal⟩, hord⟩, trivial⟩
    | true =>
      have hmem : CTree.memC cmp x (strip t) := (has_iff_memC hcmp x hord).mp hhas
      cases t with
      | nil => exact absurd hmem (CTree.memC_nil cmp x)
      | node v l r c s =>
        have hc : c = BLACK := by simpa using hblk
        subst hc
        rw [strip_node] at hok hbal hord hmem
        obtain ⟨hokr23, _, hokl, hokr⟩ := hok
        -- the pre-colored tree and the remove entry facts
        have hmain : ∀ t0 : RBT α,
            strip t0 = CTree.setColor (strip (node v l r BLACK s)) RED ∨
              strip t0 = strip (node v l r BLACK s) →
            CTree.ok23 (strip t0) →
            CTree.Bal (strip t0) n ∨ (∃ m, n = m + 1 ∧ CTree.Bal (strip t0) m) →
            (CTree.isRed (strip t0) = true ∨
              CTree.isRed (strip t0).left = true) →
            SInv cmp (setColor (remove cmp x t0) BLACK) ∧
              CTree.removeOk cmp x (strip t0) := by
          intro t0 hst0 hok0 hbal0 hpre0
          have hord0 : CTree.ordered cmp (strip t0) := by
            rcases hst0 with h | h
            · rw [h, CTree.ordered_setColor]
              exact hord
            · rw [h]
              exact hord
          have hmem0 : CTree.memC cmp x (strip t0) := by
            rcases hst0 with h | h
            · rw [h, CTree.memC_setColor]
              exact hmem
            · rw [h]
              exact hmem
          have hbal1 : ∃ m, CTree.Bal (strip t0) m := by
            rcases hbal0 with h | ⟨m, _, h⟩
            · exact ⟨n, h⟩
            · exact ⟨m, h⟩
          obtain ⟨m, hbal2⟩ := hbal1
          obtain ⟨r1, r2, r3, r4, r5⟩ := CTree.remove_spec cmp x hcmp hbal2
            hord0 hmem0 (Or.inl ⟨hok0, hpre0⟩)
          refine ⟨⟨isRed_setColor_black _, ?_, ?_, ?_⟩, r5⟩
          · rw [strip_setColor, strip_remove]
            exact CTree.ok23_setColor_black r1
          · rw [strip_setColor, strip_remove]
            cases hu : CTree.isRed (CTree.remove cmp x (strip t0)) with
            | true => exact ⟨m + 1, CTree.bal_setColor_black r2 hu⟩
            | false => exact ⟨m, CTree.bal_setColor_black_of_black r2 hu⟩
          · rw [strip_setColor, strip_remove]
            rw [CTree.ordered_setColor]
            unfold CTree.ordered
            unfold CTree.ordered at hord0
            rw [r4]
            exact List.Pairwise.sublist (eraseC_sublist cmp x _) hord0
        cases hguard : (!isRed (node v l r BLACK s).left &&
            !isRed (node v l r BLACK s).right) with
        | true =>
          obtain ⟨hlb, hrb⟩ : isRed l = false ∧ isRed r = false := by
            simpa using hguard
          have hstep : sstep cmp (node v l r BLACK s) (.del x)
              = setColor (remove cmp x (setColor (node v l r BLACK s) RED))
                  BLACK := by
            rw [show sstep cmp (node v l r BLACK s) (.del x)
              = (deleteS cmp x (node v l r BLACK s)).2 from rfl]
            rw [deleteS, if_neg (by rw [hhas]; simp), if_pos hguard]
          have hass : sopAssertOk cmp (node v l r BLACK s) (.del x)
              = CTree.removeOk cmp x
                  (strip (setColor (node v l r BLACK s) RED)) := by
            rw [sopAssertOk, if_neg (by rw [hhas]; simp), if_pos hguard]
          rw [hstep, hass]
          have hq := hmain (setColor (node v l r BLACK s) RED)
            (Or.inl (by rw [strip_setColor, strip_node]))
            (by
              rw [strip_setColor, strip_node]
              refine CTree.ok23_setColor_red ⟨hokr23, fun h => absurd h (by decide),
                hokl, hokr⟩ ?_
              rw [CTree.ct_left_node, strip_isRed]
              exact hlb)
            (by
              rw [strip_setColor, strip_node]
              exact Or.inr (CTree.bal_setColor_red hbal))
            (by
              rw [strip_setColor, strip_node]
              exact Or.inl rfl)
          exact hq
        | false =>
          have hlred : isRed l = true := by
            have hrb : isRed r = false := by
              rw [← strip_isRed]
              rw [show (strip r) = (CTree.node v (strip l) (strip r) BLACK).right
                from rfl] at *
              exact hokr23
            rcases Or.symm (Bool.eq_false_or_eq_true (isRed l)) with h | h
            · exfalso
              rw [show isRed (node v l r BLACK s).left = isRed l from rfl,
                show isRed (node v l r BLACK s).right = isRed r from rfl] at hguard
              rw [h, hrb] at hguard
              simp at hguard
            · exact h
          have hstep : sstep cmp (node v l r BLACK s) (.del x)
              = setColor (remove cmp x (node v l r BLACK s)) BLACK := by
            rw [show sstep cmp (node v l r BLACK s) (.del x)
              = (deleteS cmp x (node v l r BLACK s)).2 from rfl]
            rw [deleteS, if_neg (by rw [hhas]; simp),
              if_neg (by rw [hguard]; simp)]
          have hass : sopAssertOk cmp (node v l r BLACK s) (.del x)
              = CTree.removeOk cmp x (strip (node v l r BLACK s)) := by
            rw [sopAssertOk, if_neg (by rw [hhas]; simp),
              if_neg (by rw [hguard]; simp)]
          rw [hstep, hass]
          exact hmain (node v l r BLACK s) (Or.inr rfl)
            ⟨hokr23, fun h => absurd h (by decide), hokl, hokr⟩
            (Or.inl hbal)
            (Or.inr (by
              rw [strip_node, CTree.ct_left_node, strip_isRed]
              exact hlred))
  | delMin =>
    cases ht : t with
    | nil =>
      have hstep : sstep cmp (nil : RBT α) .delMin = nil := by
        rw [show sstep cmp (nil : RBT α) .delMin
          = (match deleteMinS (nil : RBT α) with
             | .ok u => u | .error _ => nil) from rfl]
        rw [deleteMinS, if_pos (show isNil (nil : RBT α) = true from rfl)]
      rw [hstep]
      refine ⟨⟨rfl, trivial, ⟨0, CTree.Bal.nil⟩, by simp [CTree.ordered]⟩, ?_⟩
      rw [sopAssertOk, if_pos (show isNil (nil : RBT α) = true from rfl)]
      trivial
    | node v l r c s =>
      subst ht
      have hc : c = BLACK := by simpa using hblk
      subst hc
      rw [strip_node] at hok hbal hord
      obtain ⟨hokr23, _, hokl, hokr⟩ := hok
      have hrb : isRed r = false := by
        rw [← strip_isRed]
        exact hokr23
      -- generic post-processing for a pre-colored tree t0
      have hmain : ∀ t0 : RBT α,
          strip t0 = CTree.setColor (strip (node v l r BLACK s)) RED ∨
            strip t0 = strip (node v l r BLACK s) →
          CTree.ok23 (strip t0) →
          (∃ m, CTree.Bal (strip t0) m) →
          (CTree.isRed (strip t0) = true ∨
            CTree.isRed (strip t0).left = true) →
          SInv cmp (setColor (deleteMin t0) BLACK) ∧
            CTree.deleteMinOk (strip t0) := by
        intro t0 hst0 hok0 ⟨m, hbal0⟩ hpre0
        have hord0 : CTree.ordered cmp (strip t0) := by
          rcases hst0 with h | h
          · rw [h, CTree.ordered_setColor]
            exact hord
          · rw [h]
            exact hord
        have hne0 : strip t0 ≠ CTree.nil := by
          rcases hst0 with h | h <;> rw [h] <;> simp [CTree.setColor]
        obtain ⟨r1, r2, r3, r4, r5⟩ := CTree.deleteMin_spec hok0 hbal0 hpre0 hne0
        refine ⟨⟨isRed_setColor_black _, ?_, ?_, ?_⟩, r5⟩
        · rw [strip_setColor, strip_deleteMin]
          exact CTree.ok23_setColor_black r1
        · rw [strip_setColor, strip_deleteMin]
          cases hu : CTree.isRed (CTree.deleteMin (strip t0)) with
          | true => exact ⟨m + 1, CTree.bal_setColor_black r2 hu⟩
          | false => exact ⟨m, CTree.bal_setColor_black_of_black r2 hu⟩
        · rw [strip_setColor, strip_deleteMin]
          rw [CTree.ordered_setColor]
          unfold CTree.ordered
          unfold CTree.ordered at hord0
          rw [r4]
          exact List.Pairwise.sublist (List.tail_sublist _) hord0
      cases hguard : (!isRed (node v l r BLACK s).left &&
          !isRed (node v l r BLACK s).right) with
      | true =>
        have hstep : sstep cmp (node v l r BLACK s) .delMin
            = setColor (deleteMin (setColor (node v l r BLACK s) RED)) BLACK := by
          rw [show sstep cmp (node v l r BLACK s) .delMin
            = (match deleteMinS (node v l r BLACK s) with
               | .ok u => u | .error _ => node v l r BLACK s) from rfl]
          rw [deleteMinS, if_neg (by simp [isNil]), if_pos hguard]
        have hass : sopAssertOk cmp (node v l r BLACK s) .delMin
            = CTree.deleteMinOk (strip (setColor (node v l r BLACK s) RED)) := by
          rw [sopAssertOk, if_neg (by simp [isNil]), if_pos hguard]
        rw [hstep, hass]
        obtain ⟨hlb, _⟩ : isRed l = false ∧ isRed r = false := by
          simpa using hguard
        exact hmain (setColor (node v l r BLACK s) RED)
          (Or.inl (by rw [strip_setColor, strip_node]))
          (by
            rw [strip_setColor, strip_node]
            refine CTree.ok23_setColor_red ⟨hokr23, fun h => absurd h (by decide),
              hokl, hokr⟩ ?_
            rw [CTree.ct_left_node, strip_isRed]
            exact hlb)
          (by
            rw [strip_setColor, strip_node]
            obtain ⟨m, hm, hb2⟩ := CTree.bal_setColor_red hbal
            exact ⟨m, hb2⟩)
          (by
            rw [strip_setColor, strip_node]
            exact Or.inl rfl)
      | false =>
        have hlred : isRed l = true := by
          rcases Or.symm (Bool.eq_false_or_eq_true (isRed l)) with h | h
          · exfalso
            rw [show isRed (node v l r BLACK s).left = isRed l from rfl,
              show isRed (node v l r BLACK s).right = isRed r from rfl] at hguard
            rw [h, hrb] at hguard
            simp at hguard
          · exact h
        have hstep : sstep cmp (node v l r BLACK s) .delMin
            = setColor (deleteMin (node v l r BLACK s)) BLACK := by
          rw [show sstep cmp (node v l r BLACK s) .delMin
            = (match deleteMinS (node v l r BLACK s) with
               | .ok u => u | .error _ => node v l r BLACK s) from rfl]
          rw [deleteMinS, if_neg (by simp [isNil]), if_neg (by rw [hguard]; simp)]
        have hass : sopAssertOk cmp (node v l r BLACK s) .delMin
            = CTree.deleteMinOk (strip (node v l r BLACK s)) := by
          rw [sopAssertOk, if_neg (by simp [isNil]), if_neg (by rw [hguard]; simp)]
        rw [hstep, hass]
        exact hmain (node v l r BLACK s) (Or.inr rfl)
          ⟨hokr23, fun h => absurd h (by decide), hokl, hokr⟩
          ⟨n, hbal⟩
          (Or.inr (by
            rw [strip_node, CTree.ct_left_node, strip_isRed]
            exact hlred))
  | delMax =>
    cases ht : t with
    | nil =>
      have hstep : sstep cmp (nil : RBT α) .delMax = nil := by
        rw [show sstep cmp (nil : RBT α) .delMax
          = (match deleteMaxS (nil : RBT α) with
             | .ok u => u | .error _ => nil) from rfl]
        rw [deleteMaxS, if_pos (show isNil (nil : RBT α) = true from rfl)]
      rw [hstep]
      refine ⟨⟨rfl, trivial, ⟨0, CTree.Bal.nil⟩, by simp [CTree.ordered]⟩, ?_⟩
      rw [sopAssertOk, if_pos (show isNil (nil : RBT α) = true from rfl)]
      trivial
    | node v l r c s =>
      subst ht
      have hc : c = BLACK := by simpa using hblk
      subst hc
      rw [strip_node] at hok hbal hord
      obtain ⟨hokr23, _, hokl, hokr⟩ := hok
      have hrb : isRed r = false := by
        rw [← strip_isRed]
        exact hokr23
      have hmain : ∀ t0 : RBT α,
          strip t0 = CTree.setColor (strip (node v l r BLACK s)) RED ∨
            strip t0 = strip (node v l r BLACK s) →
          CTree.ok23 (strip t0) →
          (∃ m, CTree.Bal (strip t0) m) →
          (CTree.isRed (strip t0) = true ∨
            CTree.isRed (strip t0).left = true) →
          SInv cmp (setColor (deleteMax t0) BLACK) ∧
            CTree.deleteMaxOk (strip t0) := by
        intro t0 hst0 hok0 ⟨m, hbal0⟩ hpre0
        have hord0 : CTree.ordered cmp (strip t0) := by
          rcases hst0 with h | h
          · rw [h, CTree.ordered_setColor]
            exact hord
          · rw [h]
            exact hord
        have hne0 : strip t0 ≠ CTree.nil := by
          rcases hst0 with h | h <;> rw [h] <;> simp [CTree.setColor]
        obtain ⟨r1, r2, r3, r4, r5⟩ := CTree.deleteMax_spec hbal0 hne0
          (Or.inl ⟨hok0, hpre0⟩)
        refine ⟨⟨isRed_setColor_black _, ?_, ?_, ?_⟩, r5⟩
        · rw [strip_setColor, strip_deleteMax]
          exact CTree.ok23_setColor_black r1
        · rw [strip_setColor, strip_deleteMax]
          cases hu : CTree.isRed (CTree.deleteMax (strip t0)) with
          | true => exact ⟨m + 1, CTree.bal_setColor_black r2 hu⟩
          | false => exact ⟨m, CTree.bal_setColor_black_of_black r2 hu⟩
        · rw [strip_setColor, strip_deleteMax]
          rw [CTree.ordered_setColor]
          unfold CTree.ordered
          unfold CTree.ordered at hord0
          rw [r4]
          exact List.Pairwise.sublist (List.dropLast_sublist _) hord0
      cases hguard : (!isRed (node v l r BLACK s).left &&
          !isRed (node v l r BLACK s).right) with
      | true =>
        have hstep : sstep cmp (node v l r BLACK s) .delMax
            = setColor (deleteMax (setColor (node v l r BLACK s) RED)) BLACK := by
          rw [show sstep cmp (node v l r BLACK s) .delMax
            = (match deleteMaxS (node v l r BLACK s) with
               | .ok u => u | .error _ => node v l r BLACK s) from rfl]
          rw [deleteMaxS, if_neg (by simp [isNil]), if_pos hguard]
        have hass : sopAssertOk cmp (node v l r BLACK s) .delMax
            = CTree.deleteMaxOk (strip (setColor (node v l r BLACK s) RED)) := by
          rw [sopAssertOk, if_neg (by simp [isNil]), if_pos hguard]
        rw [hstep, hass]
        obtain ⟨hlb, _⟩ : isRed l = false ∧ isRed r = false := by
          simpa using hguard
        exact hmain (setColor (node v l r BLACK s) RED)
          (Or.inl (by rw [strip_setColor, strip_node]))
          (by
            rw [strip_setColor, strip_node]
            refine CTree.ok23_setColor_red ⟨hokr23, fun h => absurd h (by decide),
              hokl, hokr⟩ ?_
            rw [CTree.ct_left_node, strip_isRed]
            exact hlb)
          (by
            rw [strip_setColor, strip_node]
            obtain ⟨m, hm, hb2⟩ := CTree.bal_setColor_red hbal
            exact ⟨m, hb2⟩)
          (by
            rw [strip_setColor, strip_node]
            exact Or.inl rfl)
      | false =>
        have hlred : isRed l = true := by
          rcases Or.symm (Bool.eq_false_or_eq_true (isRed l)) with h | h
          · exfalso
            rw [show isRed (node v l r BLACK s).left = isRed l from rfl,
              show isRed (node v l r BLACK s).right = isRed r from rfl] at hguard
            rw [h, hrb] at hguard
            simp at hguard
          · exact h
        have hstep : sstep cmp (node v l r BLACK s) .delMax
            = setColor (deleteMax (node v l r BLACK s)) BLACK := by
          rw [show sstep cmp (node v l r BLACK s) .delMax
            = (match deleteMaxS (node v l r BLACK s) with
               | .ok u => u | .error _ => node v l r BLACK s) from rfl]
          rw [deleteMaxS, if_neg (by simp [isNil]), if_neg (by rw [hguard]; simp)]
        have hass : sopAssertOk cmp (node v l r BLACK s) .delMax
            = CTree.deleteMaxOk (strip (node v l r BLACK s)) := by
          rw [sopAssertOk, if_neg (by simp [isNil]), if_neg (by rw [hguard]; simp)]
        rw [hstep, hass]
        exact hmain (node v l r BLACK s) (Or.inr rfl)
          ⟨hokr23, fun h => absurd h (by decide), hokl, hokr⟩
          ⟨n, hbal⟩
          (Or.inr (by
            rw [strip_node, CTree.ct_left_node, strip_isRed]
            exact hlred))

/-- The invariant holds in every façade-reachable state. -/
theorem SInv_srun {cmp : Cmp α} (hcmp : CmpLaws cmp) (ops : List (SOp α)) :
    SInv cmp (srun cmp ops) := by
  suffices h : ∀ t, SInv cmp t → SInv cmp (ops.foldl (sstep cmp) t) by
    exact h nil ⟨rfl, trivial, ⟨0, CTree.Bal.nil⟩, by simp [CTree.ordered]⟩
  induction ops with
  | nil =>
    intro t h
    exact h
  | cons op rest ih =>
    intro t h
    exact ih _ (sstep_SInv hcmp h op).1

end RBT

/-! ### Claim C6 -/

/-- C6: along every sequence of public sorted-set calls (from a fresh
container), every structural assertion the internal recursive helpers
check — `deleteMin`'s "root or root.left is red" precondition, the
red-child preconditions of `rotateLeft`/`rotateRight`, `flipColors`'
two-children-of-opposite-color precondition, and the preconditions of
`moveRedLeft`/`moveRedRight` and `remove` — holds whenever its helper is
reached, because the façade establishes them: it pre-colors the root red
before a deletion when both root children are black, and pre-checks
membership before `remove`. -/
theorem C6_assertions_never_fire {α : Type} {cmp : RBT.Cmp α}
    (hcmp : CmpLaws cmp) (ops : List (RBT.SOp α)) (op : RBT.SOp α) :
    RBT.sopAssertOk cmp (RBT.srun cmp ops) op :=
  (RBT.sstep_SInv hcmp (RBT.SInv_srun hcmp ops) op).2

theorem C6_assertions_never_fire_witness :
    RBT.sopAssertOk intCmp
      (RBT.srun intCmp [RBT.SOp.add 2, RBT.SOp.add 1, RBT.SOp.add 3])
      RBT.SOp.delMin :=
  C6_assertions_never_fire intCmp_laws.toCmpLaws
    [RBT.SOp.add 2, RBT.SOp.add 1, RBT.SOp.add 3] RBT.SOp.delMin

/-! ### The map `insert` preserves the color invariants -/

namespace CTree

variable {κ ν : Type}

theorem insertP_spec (cmp : RBT.Cmp κ) (k : κ) (w : ν) :
    ∀ {t : CTree (κ × ν)} {n : Nat}, ok23 t → Bal t n →
      insertP cmp k w t ≠ nil ∧ Bal (insertP cmp k w t) n ∧
      insRes t (insertP cmp k w t) := by
  intro t
  induction t with
  | nil =>
    intro n _ hb
    have h0 := bal_nil_inv hb
    subst h0
    exact ⟨by simp [insertP], Bal.red Bal.nil Bal.nil,
      Or.inl ⟨rfl, fun _ => rfl, trivial, trivial⟩⟩
  | node p l r c ihl ihr =>
    intro n h23 hb
    obtain ⟨hr23, hlred, h23l, h23r⟩ := h23
    rcases lt_trichotomy (cmp k p.1) 0 with hlt | heq | hgt
    · have hmain : insertP cmp k w (node p l r c)
          = balance (node p (insertP cmp k w l) r c) := by
        rw [insertP, if_pos hlt]
      rw [hmain]
      rcases Or.symm (Bool.eq_false_or_eq_true c) with hc | hc
      · have hc2 : c = BLACK := hc
        subst hc2
        obtain ⟨m, hm, hbl, hbr⟩ := bal_black_inv hb
        subst hm
        obtain ⟨hne, hbu, hres⟩ := ihl h23l hbl
        rcases hres with hoku23 | ⟨hlr, hured, hulred, hurb, hokul, hokur⟩
        · rw [balance_id hr23 (ok23_no_redred hoku23)]
          exact ⟨by simp, Bal.black hbu hbr,
            Or.inl ⟨hr23, fun h => absurd h (by decide), hoku23, h23r⟩⟩
        · cases hu : insertP cmp k w l with
          | nil => exact absurd hu hne
          | node a ua ub uc =>
            rw [hu] at hbu hured hulred hurb hokul hokur
            rw [ct_isRed_node] at hured
            have huc : uc = RED := hured
            subst huc
            rw [ct_left_node] at hulred hokul
            rw [ct_right_node] at hurb hokur
            cases ua with
            | nil => simp at hulred
            | node b a1 a2 ac =>
              rw [ct_isRed_node] at hulred
              have hac : ac = RED := hulred
              subst hac
              obtain ⟨ha2, hba, hoka1, hoka2⟩ := hokul
              obtain ⟨hbua, hbub⟩ := bal_red_inv hbu
              obtain ⟨hba1, hba2⟩ := bal_red_inv hbua
              rw [balance_leftRedRed hr23]
              exact ⟨by simp, Bal.red (Bal.black hba1 hba2) (Bal.black hbub hbr),
                Or.inl ⟨rfl, fun _ => rfl,
                  ⟨ha2, fun h => absurd h (by decide), hoka1, hoka2⟩,
                  ⟨hr23, fun h => absurd h (by decide), hokur, h23r⟩⟩⟩
      · have hc2 : c = RED := hc
        subst hc2
        have hlb : isRed l = false := hlred rfl
        obtain ⟨hbl, hbr⟩ := bal_red_inv hb
        obtain ⟨hne, hbu, hres⟩ := ihl h23l hbl
        have hoku23 : ok23 (insertP cmp k w l) := by
          rcases hres with h | ⟨hlr, _⟩
          · exact h
          · simp [hlb] at hlr
        rw [balance_id hr23 (ok23_no_redred hoku23)]
        refine ⟨by simp, Bal.red hbu hbr, ?_⟩
        cases hured : isRed (insertP cmp k w l) with
        | false =>
          exact Or.inl ⟨hr23, fun _ => hured, hoku23, h23r⟩
        | true =>
          exact Or.inr ⟨rfl, rfl, hured, hr23, hoku23, h23r⟩
    · have hmain : insertP cmp k w (node p l r c)
          = balance (node (p.1, w) l r c) := by
        rw [insertP, if_neg (by omega), if_neg (by omega)]
      rw [hmain, balance_id hr23 (ok23_no_redred h23l)]
      refine ⟨by simp, ?_, Or.inl ⟨hr23, hlred, h23l, h23r⟩⟩
      cases c with
      | true =>
        obtain ⟨hbl, hbr⟩ := bal_red_inv hb
        exact Bal.red hbl hbr
      | false =>
        obtain ⟨m, hm, hbl, hbr⟩ := bal_black_inv hb
        subst hm
        exact Bal.black hbl hbr
    · have hmain : insertP cmp k w (node p l r c)
          = balance (node p l (insertP cmp k w r) c) := by
        rw [insertP, if_neg (by omega), if_pos hgt]
      rw [hmain]
      rcases Or.symm (Bool.eq_false_or_eq_true c) with hc | hc
      · have hc2 : c = BLACK := hc
        subst hc2
        obtain ⟨m, hm, hbl, hbr⟩ := bal_black_inv hb
        subst hm
        obtain ⟨hne, hbu, hres⟩ := ihr h23r hbr
        have hoku23 : ok23 (insertP cmp k w r) := by
          rcases hres with h | ⟨hrr, _⟩
          · exact h
          · simp [hr23] at hrr
        cases hured : isRed (insertP cmp k w r) with
        | false =>
          rw [balance_id hured (ok23_no_redred h23l)]
          exact ⟨by simp, Bal.black hbl hbu,
            Or.inl ⟨hured, fun h => absurd h (by decide), h23l, hoku23⟩⟩
        | true =>
          cases hu : insertP cmp k w r with
          | nil => exact absurd hu hne
          | node a ua ub uc =>
            rw [hu] at hbu hoku23 hured
            rw [ct_isRed_node] at hured
            have huc : uc = RED := hured
            subst huc
            obtain ⟨hub, hua_red, hoka, hokb⟩ := hoku23
            obtain ⟨hbua, hbub⟩ := bal_red_inv hbu
            cases hlc : isRed l with
            | false =>
              rw [balance_rightRed hlc (hua_red rfl) hub]
              exact ⟨by simp, Bal.black (Bal.red hbl hbua) hbub,
                Or.inl ⟨hub, fun h => absurd h (by decide),
                  ⟨hua_red rfl, fun _ => hlc, h23l, hoka⟩, hokb⟩⟩
            | true =>
              cases l with
              | nil => simp at hlc
              | node b la lb lc =>
                rw [ct_isRed_node] at hlc
                have hlc2 : lc = RED := hlc
                subst hlc2
                obtain ⟨hlb2, hla_red, hokla, hoklb⟩ := h23l
                obtain ⟨hbla, hblb⟩ := bal_red_inv hbl
                rw [balance_bothRed (hla_red rfl)]
                exact ⟨by simp,
                  Bal.red (Bal.black hbla hblb) (Bal.black hbua hbub),
                  Or.inl ⟨rfl, fun _ => rfl,
                    ⟨hlb2, fun h => absurd h (by decide), hokla, hoklb⟩,
                    ⟨hub, fun h => absurd h (by decide), hoka, hokb⟩⟩⟩
      · have hc2 : c = RED := hc
        subst hc2
        have hlb : isRed l = false := hlred rfl
        obtain ⟨hbl, hbr⟩ := bal_red_inv hb
        obtain ⟨hne, hbu, hres⟩ := ihr h23r hbr
        have hoku23 : ok23 (insertP cmp k w r) := by
          rcases hres with h | ⟨hrr, _⟩
          · exact h
          · simp [hr23] at hrr
        cases hured : isRed (insertP cmp k w r) with
        | false =>
          rw [balance_id hured (by simp [hlb])]
          exact ⟨by simp, Bal.red hbl hbu,
            Or.inl ⟨hured, fun _ => hlb, h23l, hoku23⟩⟩
        | true =>
          cases hu : insertP cmp k w r with
          | nil => exact absurd hu hne
          | node a ua ub uc =>
            rw [hu] at hbu hoku23 hured
            rw [ct_isRed_node] at hured
            have huc : uc = RED := hured
            subst huc
            obtain ⟨hub, hua_red, hoka, hokb⟩ := hoku23
            obtain ⟨hbua, hbub⟩ := bal_red_inv hbu
            rw [balance_rightRed hlb (hua_red rfl) hub]
            exact ⟨by simp, Bal.red (Bal.red hbl hbua) hbub,
              Or.inr ⟨rfl, rfl, rfl, hub,
                ⟨hua_red rfl, fun _ => hlb, h23l, hoka⟩, hokb⟩⟩

end CTree

/-! ### Invariant 6 for the spec-modelled map operations -/

namespace RBT

variable {α : Type} {κ ν : Type}

@[simp] theorem size_nil : size (nil : RBT α) = 0 := rfl

@[simp] theorem size_node (v : α) (l r : RBT α) (c : Color) (s : Nat) :
    size (node v l r c s) = s := rfl

@[simp] theorem sizeOk_nil : sizeOk (nil : RBT α) = true := rfl

theorem sizeOk_node_iff (v : α) (l r : RBT α) (c : Color) (s : Nat) :
    sizeOk (node v l r c s) = true ↔
      s = size l + size r + 1 ∧ sizeOk l = true ∧ sizeOk r = true := by
  simp [sizeOk, Bool.and_eq_true, and_assoc]

theorem size_eq_count_of_sizeOk : ∀ {t : RBT α},
    sizeOk t = true → size t = count t := by
  intro t
  induction t with
  | nil => intro _; rfl
  | node v l r c s ihl ihr =>
    intro h
    obtain ⟨hs, hl, hr⟩ := (sizeOk_node_iff v l r c s).mp h
    rw [size_node, count_node, hs, ihl hl, ihr hr]

theorem size_setColor (t : RBT α) (c : Color) : size (setColor t c) = size t := by
  cases t <;> rfl

theorem size_setValue (t : RBT α) (v : α) : size (setValue t v) = size t := by
  cases t <;> rfl

theorem size_rotateLeft (t : RBT α) : size (rotateLeft t) = size t := by
  cases t with
  | nil => rfl
  | node v l r c s => cases r <;> rfl

theorem size_rotateRight (t : RBT α) : size (rotateRight t) = size t := by
  cases t with
  | nil => rfl
  | node v l r c s => cases l <;> rfl

theorem size_flipColors (t : RBT α) : size (flipColors t) = size t := by
  cases t with
  | nil => rfl
  | node v l r c s => cases l <;> cases r <;> rfl

theorem sizeOk_setColor {t : RBT α} (c : Color) (h : sizeOk t = true) :
    sizeOk (setColor t c) = true := by
  cases t with
  | nil => exact h
  | node v l r c0 s =>
    rw [show setColor (node v l r c0 s) c = node v l r c s from rfl]
    rw [sizeOk_node_iff] at h ⊢
    exact h

theorem sizeOk_setValue {t : RBT α} (v : α) (h : sizeOk t = true) :
    sizeOk (setValue t v) = true := by
  cases t with
  | nil => exact h
  | node v0 l r c s =>
    rw [show setValue (node v0 l r c s) v = node v l r c s from rfl]
    rw [sizeOk_node_iff] at h ⊢
    exact h

theorem sizeOk_flipColors {t : RBT α} (h : sizeOk t = true) :
    sizeOk (flipColors t) = true := by
  cases t with
  | nil => exact h
  | node v l r c s =>
    cases l with
    | nil => exact h
    | node lv ll lr lc ls =>
      cases r with
      | nil => exact h
      | node rv rl rr rc rs =>
        rw [show flipColors (node v (node lv ll lr lc ls) (node rv rl rr rc rs) c s)
          = node v (node lv ll lr (!lc) ls) (node rv rl rr (!rc) rs) (!c) s
          from rfl]
        obtain ⟨hs, hl2, hr2⟩ := (sizeOk_node_iff _ _ _ _ _).mp h
        obtain ⟨hls, hll, hlr⟩ := (sizeOk_node_iff _ _ _ _ _).mp hl2
        obtain ⟨hrs, hrl, hrr⟩ := (sizeOk_node_iff _ _ _ _ _).mp hr2
        refine (sizeOk_node_iff _ _ _ _ _).mpr ⟨?_,
          (sizeOk_node_iff _ _ _ _ _).mpr ⟨hls, hll, hlr⟩,
          (sizeOk_node_iff _ _ _ _ _).mpr ⟨hrs, hrl, hrr⟩⟩
        rw [size_node] at hs ⊢
        rw [size_node] at hs ⊢
        exact hs

theorem sizeOk_rotateLeft {t : RBT α} (h : sizeOk t = true) :
    sizeOk (rotateLeft t) = true := by
  cases t with
  | nil => exact h
  | node v l r c s =>
    cases r with
    | nil => exact h
    | node rv rl rr rc rs =>
      rw [show rotateLeft (node v l (node rv rl rr rc rs) c s)
        = node rv (node v l rl RED (size l + size rl + 1)) rr c s from rfl]
      obtain ⟨hs, hl, hr2⟩ := (sizeOk_node_iff _ _ _ _ _).mp h
      obtain ⟨hrs, hrl, hrr⟩ := (sizeOk_node_iff _ _ _ _ _).mp hr2
      rw [size_node] at hs
      refine (sizeOk_node_iff _ _ _ _ _).mpr ⟨?_,
        (sizeOk_node_iff _ _ _ _ _).mpr ⟨rfl, hl, hrl⟩, hrr⟩
      rw [size_node]
      omega

theorem sizeOk_rotateRight {t : RBT α} (h : sizeOk t = true) :
    sizeOk (rotateRight t) = true := by
  cases t with
  | nil => exact h
  | node v l r c s =>
    cases l with
    | nil => exact h
    | node lv ll lr lc ls =>
      rw [show rotateRight (node v (node lv ll lr lc ls) r c s)
        = node lv ll (node v lr r RED (size lr + size r + 1)) c s from rfl]
      obtain ⟨hs, hl2, hr⟩ := (sizeOk_node_iff _ _ _ _ _).mp h
      obtain ⟨hls, hll, hlr⟩ := (sizeOk_node_iff _ _ _ _ _).mp hl2
      rw [size_node] at hs
      refine (sizeOk_node_iff _ _ _ _ _).mpr ⟨?_, hll,
        (sizeOk_node_iff _ _ _ _ _).mpr ⟨rfl, hlr, hr⟩⟩
      rw [size_node]
      omega

theorem sizeOk_setRight_pres {t x : RBT α} (h : sizeOk t = true)
    (hx : sizeOk x = true) (hsz : size x = size t.right) :
    sizeOk (setRight t x) = true := by
  cases t with
  | nil => exact h
  | node v l r c s =>
    rw [show setRight (node v l r c s) x = node v l x c s from rfl]
    rw [right_node] at hsz
    rw [sizeOk_node_iff] at h ⊢
    exact ⟨by omega, h.2.1, hx⟩

theorem sizeOk_left {t : RBT α} (h : sizeOk t = true) :
    sizeOk t.left = true := by
  cases t with
  | nil => exact h
  | node v l r c s => exact ((sizeOk_node_iff _ _ _ _ _).mp h).2.1

theorem sizeOk_right {t : RBT α} (h : sizeOk t = true) :
    sizeOk t.right = true := by
  cases t with
  | nil => exact h
  | node v l r c s => exact ((sizeOk_node_iff _ _ _ _ _).mp h).2.2

theorem sizeOk_moveRedLeft {t : RBT α} (h : sizeOk t = true) :
    sizeOk (moveRedLeft t) = true := by
  rw [moveRedLeft]
  split
  · exact sizeOk_flipColors (sizeOk_rotateLeft (sizeOk_setRight_pres
      (sizeOk_flipColors h)
      (sizeOk_rotateRight (sizeOk_right (sizeOk_flipColors h)))
      (size_rotateRight _)))
  · exact sizeOk_flipColors h

theorem sizeOk_moveRedRight {t : RBT α} (h : sizeOk t = true) :
    sizeOk (moveRedRight t) = true := by
  rw [moveRedRight]
  split
  · exact sizeOk_flipColors (sizeOk_rotateRight (sizeOk_flipColors h))
  · exact sizeOk_flipColors h

/-- All non-root nodes carry correct size fields (the root's may be stale,
awaiting the recompute of the spec-modelled map `balance`). -/
def childOk : RBT α → Prop
  | nil => True
  | node _ l r _ _ => sizeOk l = true ∧ sizeOk r = true

theorem childOk_of_sizeOk {t : RBT α} (h : sizeOk t = true) : childOk t := by
  cases t with
  | nil => trivial
  | node v l r c s =>
    obtain ⟨_, hl, hr⟩ := (sizeOk_node_iff v l r c s).mp h
    exact ⟨hl, hr⟩

theorem childOk_rotateLeft {t : RBT α} (h : childOk t) :
    childOk (rotateLeft t) := by
  cases t with
  | nil => trivial
  | node v l r c s =>
    cases r with
    | nil => exact h
    | node rv rl rr rc rs =>
      obtain ⟨hl, hr⟩ := h
      obtain ⟨_, hrl, hrr⟩ := (sizeOk_node_iff rv rl rr rc rs).mp hr
      exact ⟨(sizeOk_node_iff _ _ _ _ _).mpr ⟨rfl, hl, hrl⟩, hrr⟩

theorem childOk_rotateRight {t : RBT α} (h : childOk t) :
    childOk (rotateRight t) := by
  cases t with
  | nil => trivial
  | node v l r c s =>
    cases l with
    | nil => exact h
    | node lv ll lr lc ls =>
      obtain ⟨hl, hr⟩ := h
      obtain ⟨_, hll, hlr⟩ := (sizeOk_node_iff lv ll lr lc ls).mp hl
      exact ⟨hll, (sizeOk_node_iff _ _ _ _ _).mpr ⟨rfl, hlr, hr⟩⟩

theorem childOk_flipColors {t : RBT α} (h : childOk t) :
    childOk (flipColors t) := by
  cases t with
  | nil => trivial
  | node v l r c s =>
    cases l with
    | nil => exact h
    | node lv ll lr lc ls =>
      cases r with
      | nil => exact h
      | node rv rl rr rc rs =>
        obtain ⟨hl, hr⟩ := h
        refine ⟨?_, ?_⟩
        · rw [sizeOk_node_iff] at hl ⊢
          exact hl
        · rw [sizeOk_node_iff] at hr ⊢
          exact hr

theorem childOk_balance {t : RBT α} (h : childOk t) :
    childOk (balance t) := by
  rw [balance]
  split
  · split
    · split
      · exact childOk_flipColors (childOk_rotateRight (childOk_rotateLeft h))
      · exact childOk_rotateRight (childOk_rotateLeft h)
    · split
      · exact childOk_flipColors (childOk_rotateLeft h)
      · exact childOk_rotateLeft h
  · split
    · split
      · exact childOk_flipColors (childOk_rotateRight h)
      · exact childOk_rotateRight h
    · split
      · exact childOk_flipColors h
      · exact h

theorem sizeOk_balanceM {t : RBT α} (h : childOk t) :
    sizeOk (balanceM t) = true := by
  rw [balanceM]
  have h2 := childOk_balance h
  cases hb : balance t with
  | nil => rfl
  | node v l r c s =>
    rw [hb] at h2
    rw [show recomputeSz (node v l r c s)
      = node v l r c (size l + size r + 1) from rfl]
    exact (sizeOk_node_iff _ _ _ _ _).mpr ⟨rfl, h2.1, h2.2⟩

theorem sizeOk_insertP (cmp : Cmp κ) (k : κ) (w : ν) :
    ∀ {t : RBT (κ × ν)}, sizeOk t = true → sizeOk (insertP cmp k w t) = true := by
  intro t
  induction t with
  | nil =>
    intro _
    rw [show insertP cmp k w nil = node (k, w) nil nil RED 1 from rfl]
    rfl
  | node p l r c s ihl ihr =>
    intro h
    obtain ⟨hs, hl, hr⟩ := (sizeOk_node_iff p l r c s).mp h
    rw [insertP]
    split
    · exact sizeOk_balanceM ⟨ihl hl, hr⟩
    · split
      · exact sizeOk_balanceM ⟨hl, ihr hr⟩
      · exact sizeOk_balanceM ⟨hl, hr⟩

theorem sizeOk_deleteMinP : ∀ {t : RBT α},
    sizeOk t = true → sizeOk (deleteMinP t) = true := by
  intro t
  induction t using deleteMinP.induct with
  | case1 =>
    intro _
    rw [deleteMinP]
    rfl
  | case2 v l r c s hnil =>
    intro _
    rw [deleteMinP, if_pos hnil]
    rfl
  | case3 v l r c s hnil hcond ih =>
    intro h
    rw [deleteMinP, if_neg hnil, if_pos hcond]
    have hmrl : sizeOk (moveRedLeft (node v l r c s)) = true :=
      sizeOk_moveRedLeft h
    have hl2 : sizeOk (moveRedLeft (node v l r c s)).left = true := by
      cases hm : moveRedLeft (node v l r c s) with
      | nil => rfl
      | node v2 l2 r2 c2 s2 =>
        rw [hm] at hmrl
        exact ((sizeOk_node_iff _ _ _ _ _).mp hmrl).2.1
    refine sizeOk_balanceM ?_
    cases hm : moveRedLeft (node v l r c s) with
    | nil => trivial
    | node v2 l2 r2 c2 s2 =>
      rw [hm] at hmrl ih hl2
      exact ⟨ih hl2, sizeOk_right hmrl⟩
  | case4 v l r c s hnil hcond ih =>
    intro h
    rw [deleteMinP, if_neg hnil, if_neg hcond]
    obtain ⟨_, hl, hr⟩ := (sizeOk_node_iff v l r c s).mp h
    exact sizeOk_balanceM ⟨ih hl, hr⟩

theorem sizeOk_deleteMaxP : ∀ {t : RBT α},
    sizeOk t = true → sizeOk (deleteMaxP t) = true := by
  intro t
  induction t using deleteMaxP.induct with
  | case1 =>
    intro _
    rw [deleteMaxP]
    rfl
  | case2 v l r c s t1 hnil =>
    unfold_let t1 at hnil
    simp only [dite_eq_ite] at hnil
    intro _
    rw [deleteMaxP, if_pos hnil]
    rfl
  | case3 v l r c s t1 hnil hcond ih =>
    unfold_let t1 at hnil hcond ih
    simp only [dite_eq_ite] at hnil hcond ih
    intro h
    have ht1 : sizeOk (if isRed l = true then rotateRight (node v l r c s)
        else node v l r c s) = true := by
      split
      · exact sizeOk_rotateRight h
      · exact h
    rw [deleteMaxP, if_neg hnil, if_pos hcond]
    have hmrr : sizeOk (moveRedRight (if isRed l = true
        then rotateRight (node v l r c s) else node v l r c s)) = true :=
      sizeOk_moveRedRight ht1
    refine sizeOk_balanceM ?_
    cases hm : moveRedRight (if isRed l = true then rotateRight (node v l r c s)
        else node v l r c s) with
    | nil => trivial
    | node v2 l2 r2 c2 s2 =>
      rw [hm] at hmrr ih
      exact ⟨sizeOk_left hmrr, ih (sizeOk_right hmrr)⟩
  | case4 v l r c s t1 hnil hcond ih =>
    unfold_let t1 at hnil hcond ih
    simp only [dite_eq_ite] at hnil hcond ih
    intro h
    have ht1 : sizeOk (if isRed l = true then rotateRight (node v l r c s)
        else node v l r c s) = true := by
      split
      · exact sizeOk_rotateRight h
      · exact h
    rw [deleteMaxP, if_neg hnil, if_neg hcond]
    refine sizeOk_balanceM ?_
    cases hm : (if isRed l = true then rotateRight (node v l r c s)
        else node v l r c s) with
    | nil => trivial
    | node v2 l2 r2 c2 s2 =>
      rw [hm] at ht1 ih
      exact ⟨sizeOk_left ht1, ih (sizeOk_right ht1)⟩

theorem sizeOk_removeP (cmp : Cmp κ) (k : κ) : ∀ {t : RBT (κ × ν)},
    sizeOk t = true → sizeOk (removeP cmp k t) = true := by
  intro t
  induction t using removeP.induct cmp k with
  | case1 =>
    intro _
    rw [removeP]
    rfl
  | case2 p l r c s hlt hcond ih =>
    intro h
    rw [removeP, if_pos hlt, if_pos hcond]
    have hmrl : sizeOk (moveRedLeft (node p l r c s)) = true :=
      sizeOk_moveRedLeft h
    refine sizeOk_balanceM ?_
    cases hm : moveRedLeft (node p l r c s) with
    | nil => trivial
    | node v2 l2 r2 c2 s2 =>
      rw [hm] at hmrl ih
      exact ⟨ih (sizeOk_left hmrl), sizeOk_right hmrl⟩
  | case3 p l r c s hlt hcond ih =>
    intro h
    rw [removeP, if_pos hlt, if_neg hcond]
    obtain ⟨_, hl, hr⟩ := (sizeOk_node_iff p l r c s).mp h
    exact sizeOk_balanceM ⟨ih hl, hr⟩
  | case4 p l r c s hlt t2 hguard =>
    unfold_let t2 at hguard
    simp only [dite_eq_ite] at hguard
    intro _
    rw [removeP, if_neg hlt, if_pos hguard]
    rfl
  | case5 p l r c s hlt t2 hguard t3 heq m hm =>
    unfold_let t3 at heq hm
    unfold_let t2 at hguard heq hm
    simp only [dite_eq_ite] at hguard heq hm
    intro h
    have ht2 : sizeOk (if isRed l = true then rotateRight (node p l r c s)
        else node p l r c s) = true := by
      split
      · exact sizeOk_rotateRight h
      · exact h
    rw [removeP, if_neg hlt, if_neg hguard, if_pos heq]
    simp only [hm]
    have ht3 : sizeOk (if (!isRed (if isRed l = true
          then rotateRight (node p l r c s) else node p l r c s).right &&
          !isRed (if isRed l = true then rotateRight (node p l r c s)
            else node p l r c s).right.left) = true
        then moveRedRight (if isRed l = true then rotateRight (node p l r c s)
          else node p l r c s)
        else (if isRed l = true then rotateRight (node p l r c s)
          else node p l r c s)) = true := by
      split
      · split
        · exact sizeOk_moveRedRight (sizeOk_rotateRight h)
        · exact sizeOk_rotateRight h
      · split
        · exact sizeOk_moveRedRight h
        · exact h
    refine sizeOk_balanceM ?_
    generalize hx : (if (!isRed (if isRed l = true
        then rotateRight (node p l r c s) else node p l r c s).right &&
        !isRed (if isRed l = true then rotateRight (node p l r c s)
          else node p l r c s).right.left) = true
      then moveRedRight (if isRed l = true then rotateRight (node p l r c s)
        else node p l r c s)
      else (if isRed l = true then rotateRight (node p l r c s)
        else node p l r c s)) = u at ht3 ⊢
    cases u with
    | nil => trivial
    | node v2 l2 r2 c2 s2 =>
      exact ⟨sizeOk_left ht3, sizeOk_deleteMinP (sizeOk_right ht3)⟩
  | case6 p l r c s hlt t2 hguard t3 heq hm =>
    unfold_let t3 at heq hm
    unfold_let t2 at hguard heq hm
    simp only [dite_eq_ite] at hguard heq hm
    intro h
    have ht2 : sizeOk (if isRed l = true then rotateRight (node p l r c s)
        else node p l r c s) = true := by
      split
      · exact sizeOk_rotateRight h
      · exact h
    rw [removeP, if_neg hlt, if_neg hguard, if_pos heq]
    simp only [hm]
    have ht3 : sizeOk (if (!isRed (if isRed l = true
          then rotateRight (node p l r c s) else node p l r c s).right &&
          !isRed (if isRed l = true then rotateRight (node p l r c s)
            else node p l r c s).right.left) = true
        then moveRedRight (if isRed l = true then rotateRight (node p l r c s)
          else node p l r c s)
        else (if isRed l = true then rotateRight (node p l r c s)
          else node p l r c s)) = true := by
      split
      · split
        · exact sizeOk_moveRedRight (sizeOk_rotateRight h)
        · exact sizeOk_rotateRight h
      · split
        · exact sizeOk_moveRedRight h
        · exact h
    refine sizeOk_balanceM ?_
    generalize hx : (if (!isRed (if isRed l = true
        then rotateRight (node p l r c s) else node p l r c s).right &&
        !isRed (if isRed l = true then rotateRight (node p l r c s)
          else node p l r c s).right.left) = true
      then moveRedRight (if isRed l = true then rotateRight (node p l r c s)
        else node p l r c s)
      else (if isRed l = true then rotateRight (node p l r c s)
        else node p l r c s)) = u at ht3 ⊢
    cases u with
    | nil => trivial
    | node v2 l2 r2 c2 s2 =>
      exact ⟨sizeOk_left ht3, sizeOk_deleteMinP (sizeOk_right ht3)⟩
  | case7 p l r c s hlt t2 hguard t3 hne ih =>
    unfold_let t3 at hne ih
    unfold_let t2 at hguard hne ih
    simp only [dite_eq_ite] at hguard hne ih
    intro h
    have ht2 : sizeOk (if isRed l = true then rotateRight (node p l r c s)
        else node p l r c s) = true := by
      split
      · exact sizeOk_rotateRight h
      · exact h
    rw [removeP, if_neg hlt, if_neg hguard, if_neg hne]
    have ht3 : sizeOk (if (!isRed (if isRed l = true
          then rotateRight (node p l r c s) else node p l r c s).right &&
          !isRed (if isRed l = true then rotateRight (node p l r c s)
            else node p l r c s).right.left) = true
        then moveRedRight (if isRed l = true then rotateRight (node p l r c s)
          else node p l r c s)
        else (if isRed l = true then rotateRight (node p l r c s)
          else node p l r c s)) = true := by
      split
      · split
        · exact sizeOk_moveRedRight (sizeOk_rotateRight h)
        · exact sizeOk_rotateRight h
      · split
        · exact sizeOk_moveRedRight h
        · exact h
    refine sizeOk_balanceM ?_
    generalize hx : (if (!isRed (if isRed l = true
        then rotateRight (node p l r c s) else node p l r c s).right &&
        !isRed (if isRed l = true then rotateRight (node p l r c s)
          else node p l r c s).right.left) = true
      then moveRedRight (if isRed l = true then rotateRight (node p l r c s)
        else node p l r c s)
      else (if isRed l = true then rotateRight (node p l r c s)
        else node p l r c s)) = u at ht3 ih ⊢
    cases u with
    | nil => trivial
    | node v2 l2 r2 c2 s2 =>
      exact ⟨sizeOk_left ht3, ih (sizeOk_right ht3)⟩

end RBT

/-! ### The map façade refines a sorted association list (claim C2) -/

theorem CmpLaws.pair {κ ν : Type} {cmp : RBT.Cmp κ} (h : CmpLaws cmp) :
    CmpLaws (pairCmp (ν := ν) cmp) where
  asymm := fun a b => h.asymm a.1 b.1
  lt_trans := fun a b c => h.lt_trans a.1 b.1 c.1
  eq_lt := fun a b c => h.eq_lt a.1 b.1 c.1
  eq_eq := fun a b c => h.eq_eq a.1 b.1 c.1

/-- List-level lookup by key comparison: the value of the first entry with
a compare-equal key. -/
def lookK {κ ν : Type} (cmp : RBT.Cmp κ) (k : κ) : List (κ × ν) → Option ν
  | [] => none
  | p :: rest => if cmp k p.1 = 0 then some p.2 else lookK cmp k rest

theorem lookK_append_some {κ ν : Type} {cmp : RBT.Cmp κ} {k : κ}
    {w : ν} : ∀ {xs : List (κ × ν)} (ys : List (κ × ν)),
    lookK cmp k xs = some w → lookK cmp k (xs ++ ys) = some w := by
  intro xs
  induction xs with
  | nil =>
    intro ys h
    simp [lookK] at h
  | cons p rest ih =>
    intro ys h
    rw [lookK] at h
    rw [List.cons_append, lookK]
    split
    · rwa [if_pos (by assumption)] at h
    · rw [if_neg (by assumption)] at h
      exact ih ys h

theorem lookK_append_none {κ ν : Type} {cmp : RBT.Cmp κ} {k : κ} :
    ∀ {xs : List (κ × ν)} (ys : List (κ × ν)),
    lookK cmp k xs = none → lookK cmp k (xs ++ ys) = lookK cmp k ys := by
  intro xs
  induction xs with
  | nil =>
    intro ys _
    rfl
  | cons p rest ih =>
    intro ys h
    rw [lookK] at h
    rw [List.cons_append, lookK]
    split
    · rw [if_pos (by assumption)] at h
      exact absurd h (by simp)
    · rw [if_neg (by assumption)] at h
      exact ih ys h

theorem lookK_no_hit {κ ν : Type} {cmp : RBT.Cmp κ} {k : κ} :
    ∀ {xs : List (κ × ν)}, (∀ q ∈ xs, cmp k q.1 ≠ 0) →
      lookK cmp k xs = none := by
  intro xs
  induction xs with
  | nil => intro _; rfl
  | cons p rest ih =>
    intro h
    rw [lookK, if_neg (h p (by simp))]
    exact ih (fun q hq => h q (by simp [hq]))

namespace RBT

variable {κ ν : Type}

/-- `has` on pairs coincides with the set-level search under the lifted
comparator. -/
theorem hasK_eq_has (cmp : Cmp κ) (k : κ) (w0 : ν) :
    ∀ t : RBT (κ × ν), hasK cmp k t = has (pairCmp cmp) (k, w0) t := by
  intro t
  induction t with
  | nil => rfl
  | node p l r c s ihl ihr =>
    rw [hasK, has, pairCmp_app]
    rw [ihl, ihr]

/-- BST search correctness of the map `get`: on an ordered tree it returns
the unique compare-equal entry's value, i.e. the list-level lookup. -/
theorem getK_eq_lookK {cmp : Cmp κ} (hcmp : CmpLaws cmp) (k : κ) :
    ∀ {t : RBT (κ × ν)}, CTree.ordered (pairCmp cmp) (strip t) →
      getK cmp k t = lookK cmp k (CTree.toList (strip t)) := by
  intro t
  induction t with
  | nil => intro _; rfl
  | node p l r c s ihl ihr =>
    intro hord
    rw [strip_node] at hord ⊢
    obtain ⟨hol, hor, hltl, hgtr, _⟩ :=
      (CTree.ordered_node_iff (pairCmp cmp) p (strip l) (strip r) c).mp hord
    rw [CTree.ct_toList_node]
    rcases lt_trichotomy (cmp k p.1) 0 with hlt | heq | hgt
    · rw [show getK cmp k (node p l r c s) = getK cmp k l from by
        rw [getK, if_pos hlt]]
      have hnr : ∀ q ∈ CTree.toList (strip r), cmp k q.1 ≠ 0 := by
        intro q hq h0
        have h1 := (hcmp.eq_lt k q.1 p.1 h0).mp hlt
        have h2 := (hcmp.asymm p.1 q.1).mp (hgtr q hq)
        omega
      cases hx : lookK cmp k (CTree.toList (strip l)) with
      | some w =>
        rw [lookK_append_some _ hx]
        rw [ihl hol, hx]
      | none =>
        rw [lookK_append_none _ hx]
        rw [lookK, if_neg (by omega)]
        rw [lookK_no_hit hnr]
        rw [ihl hol, hx]
    · rw [show getK cmp k (node p l r c s) = some p.2 from by
        rw [getK, if_neg (by omega), if_neg (by omega)]]
      have hnl : ∀ q ∈ CTree.toList (strip l), cmp k q.1 ≠ 0 := by
        intro q hq h0
        have h1 := (hcmp.eq_eq k q.1 p.1 h0).mp heq
        have h2 := hltl q hq
        rw [pairCmp_app] at h2
        have h3 := hcmp.eq_symm h1
        omega
      rw [lookK_append_none _ (lookK_no_hit hnl)]
      rw [lookK, if_pos heq]
    · rw [show getK cmp k (node p l r c s) = getK cmp k r from by
        rw [getK, if_neg (by omega), if_pos hgt]]
      have hnl : ∀ q ∈ CTree.toList (strip l), cmp k q.1 ≠ 0 := by
        intro q hq h0
        have h1 := (hcmp.eq_lt k q.1 p.1 h0).mpr
          (by have h2 := hltl q hq; rwa [pairCmp_app] at h2)
        omega
      rw [lookK_append_none _ (lookK_no_hit hnl)]
      rw [lookK, if_neg (by omega)]
      exact ihr hor

/-- The façade state invariant of the sorted map: that of the set plus
invariant 6 (correct size fields, maintained by the size-recomputing map
`balance`). -/
def MInv (cmp : Cmp κ) (t : RBT (κ × ν)) : Prop :=
  isRed t = false ∧ CTree.ok23 (strip t) ∧ (∃ n, CTree.Bal (strip t) n) ∧
    CTree.ordered (pairCmp cmp) (strip t) ∧ sizeOk t = true

/-- One map façade call preserves the invariant and acts on the in-order
entry list exactly as the list model `mLStep` prescribes. -/
theorem mstep_MInv {cmp : Cmp κ} (hcmp : CmpLaws cmp) {t : RBT (κ × ν)}
    (h : MInv cmp t) (op : MOp κ ν) :
    MInv cmp (mstep cmp t op) ∧
    CTree.toList (strip (mstep cmp t op))
      = mLStep cmp (CTree.toList (strip t)) op := by
  obtain ⟨hblk, hok, ⟨n, hbal⟩, hord, hsz⟩ := h
  cases op with
  | clear =>
    refine ⟨?_, ?_⟩
    · rw [show mstep cmp t .clear = nil from rfl]
      exact ⟨rfl, trivial, ⟨0, CTree.Bal.nil⟩, by simp [CTree.ordered], rfl⟩
    · rw [show mstep cmp t .clear = nil from rfl]
      rfl
  | set k v =>
    obtain ⟨hne, hbu, hres⟩ := CTree.insertP_spec cmp k v hok hbal
    have hoku23 : CTree.ok23 (CTree.insertP cmp k v (strip t)) := by
      rcases hres with h | ⟨hlr, _⟩
      · exact h
      · rw [strip_isRed, hblk] at hlr
        exact absurd hlr (by simp)
    have hlist : CTree.toList (strip (mstep cmp t (.set k v)))
        = insKV cmp k v (CTree.toList (strip t)) := by
      rw [show mstep cmp t (.set k v) = setColor (insertP cmp k v t) BLACK
        from rfl]
      rw [strip_setColor, strip_insertP, CTree.toList_setColor]
      exact CTree.toList_insertP cmp k v hcmp hord
    refine ⟨⟨isRed_setColor_black _, ?_, ?_, ?_, ?_⟩, hlist⟩
    · rw [show mstep cmp t (.set k v) = setColor (insertP cmp k v t) BLACK
        from rfl]
      rw [strip_setColor, strip_insertP]
      exact CTree.ok23_setColor_black hoku23
    · rw [show mstep cmp t (.set k v) = setColor (insertP cmp k v t) BLACK
        from rfl]
      rw [strip_setColor, strip_insertP]
      cases hu : CTree.isRed (CTree.insertP cmp k v (strip t)) with
      | true => exact ⟨n + 1, CTree.bal_setColor_black hbu hu⟩
      | false => exact ⟨n, CTree.bal_setColor_black_of_black hbu hu⟩
    · unfold CTree.ordered
      rw [hlist]
      exact insKV_pairwise hcmp k v hord
    · rw [show mstep cmp t (.set k v) = setColor (insertP cmp k v t) BLACK
        from rfl]
      exact sizeOk_setColor BLACK (sizeOk_insertP cmp k v hsz)
  | del k =>
    cases hhas : hasK cmp k t with
    | false =>
      have hstep : mstep cmp t (.del k) = t := by
        rw [show mstep cmp t (.del k) = (deleteM cmp k t).2 from rfl]
        rw [deleteM, if_pos (by rw [hhas]; rfl)]
      have hnomem : ∀ q ∈ CTree.toList (strip t), cmp k q.1 ≠ 0 := by
        intro q hq h0
        have hmem : CTree.memC (pairCmp cmp) (k, q.2) (strip t) := ⟨q, hq, h0⟩
        have := (has_iff_memC hcmp.pair (k, q.2) hord).mpr hmem
        rw [← hasK_eq_has cmp k q.2 t, hhas] at this
        exact absurd this (by simp)
      have hlist : eraseK cmp k (CTree.toList (strip t))
          = CTree.toList (strip t) := by
        generalize CTree.toList (strip t) = L at hnomem ⊢
        induction L with
        | nil => rfl
        | cons q rest ih =>
          rw [eraseK, if_neg (hnomem q (by simp))]
          rw [ih (fun q2 hq2 => hnomem q2 (by simp [hq2]))]
      rw [hstep]
      refine ⟨⟨hblk, hok, ⟨n, hbal⟩, hord, hsz⟩, ?_⟩
      rw [show mLStep cmp (CTree.toList (strip t)) (.del k)
        = eraseK cmp k (CTree.toList (strip t)) from rfl]
      rw [hlist]
    | true =>
      cases t with
      | nil => simp [hasK] at hhas
      | node p l r c s =>
        have hmem : CTree.memC (pairCmp cmp) (k, p.2)
            (strip (node p l r c s)) := by
          refine (has_iff_memC hcmp.pair (k, p.2) hord).mp ?_
          rw [← hasK_eq_has cmp k p.2 (node p l r c s)]
          exact hhas
        have herase : ∀ L : List (κ × ν),
            eraseC (pairCmp cmp) (k, p.2) L = eraseK cmp k L := by
          intro L
          induction L with
          | nil => rfl
          | cons q rest ih =>
            rw [eraseC, eraseK, pairCmp_app]
            split
            · rfl
            · rw [ih]
        have hc : c = BLACK := by simpa using hblk
        subst hc
        rw [strip_node] at hok hbal hord hmem
        obtain ⟨hokr23, _, hokl, hokr⟩ := hok
        have hmain : ∀ t0 : RBT (κ × ν),
            strip t0 = CTree.setColor (strip (node p l r BLACK s)) RED ∨
              strip t0 = strip (node p l r BLACK s) →
            sizeOk t0 = true →
            CTree.ok23 (strip t0) →
            (∃ m, CTree.Bal (strip t0) m) →
            (CTree.isRed (strip t0) = true ∨
              CTree.isRed (strip t0).left = true) →
            MInv cmp (setColor (removeP cmp k t0) BLACK) ∧
              CTree.toList (strip (setColor (removeP cmp k t0) BLACK))
                = eraseK cmp k (CTree.toList (strip (node p l r BLACK s))) := by
          intro t0 hst0 hsz0 hok0 ⟨m, hbal0⟩ hpre0
          have hord0 : CTree.ordered (pairCmp cmp) (strip t0) := by
            rcases hst0 with h | h
            · rw [h, CTree.ordered_setColor]
              exact hord
            · rw [h]
              exact hord
          have hmem0 : CTree.memC (pairCmp cmp) (k, p.2) (strip t0) := by
            rcases hst0 with h | h
            · rw [h, CTree.memC_setColor]
              exact hmem
            · rw [h]
              exact hmem
          obtain ⟨r1, r2, r3, r4, r5⟩ := CTree.remove_spec (pairCmp cmp) (k, p.2)
            hcmp.pair hbal0 hord0 hmem0 (Or.inl ⟨hok0, hpre0⟩)
          have hlist0 : CTree.toList (strip t0)
              = CTree.toList (strip (node p l r BLACK s)) := by
            rcases hst0 with h | h
            · rw [h, CTree.toList_setColor]
            · rw [h]
          refine ⟨⟨isRed_setColor_black _, ?_, ?_, ?_, ?_⟩, ?_⟩
          · rw [strip_setColor, strip_removeP cmp k p.2]
            exact CTree.ok23_setColor_black r1
          · rw [strip_setColor, strip_removeP cmp k p.2]
            cases hu : CTree.isRed (CTree.remove (pairCmp cmp) (k, p.2)
                (strip t0)) with
            | true => exact ⟨m + 1, CTree.bal_setColor_black r2 hu⟩
            | false => exact ⟨m, CTree.bal_setColor_black_of_black r2 hu⟩
          · rw [strip_setColor, strip_removeP cmp k p.2]
            rw [CTree.ordered_setColor]
            unfold CTree.ordered
            unfold CTree.ordered at hord0
            rw [r4]
            exact List.Pairwise.sublist (eraseC_sublist _ _ _) hord0
          · exact sizeOk_setColor BLACK (sizeOk_removeP cmp k hsz0)
          · rw [strip_setColor, strip_removeP cmp k p.2, CTree.toList_setColor]
            rw [r4, herase, hlist0]
        cases hguard : (!isRed (node p l r BLACK s).left &&
            !isRed (node p l r BLACK s).right) with
        | true =>
          obtain ⟨hlb, hrb⟩ : isRed l = false ∧ isRed r = false := by
            simpa using hguard
          have hstep : mstep cmp (node p l r BLACK s) (.del k)
              = setColor (removeP cmp k (setColor (node p l r BLACK s) RED))
                  BLACK := by
            rw [show mstep cmp (node p l r BLACK s) (.del k)
              = (deleteM cmp k (node p l r BLACK s)).2 from rfl]
            rw [deleteM, if_neg (by rw [hhas]; simp), if_pos hguard]
          rw [hstep]
          exact hmain (setColor (node p l r BLACK s) RED)
            (Or.inl (by rw [strip_setColor, strip_node]))
            (sizeOk_setColor RED hsz)
            (by
              rw [strip_setColor, strip_node]
              refine CTree.ok23_setColor_red ⟨hokr23,
                fun h => absurd h (by decide), hokl, hokr⟩ ?_
              rw [CTree.ct_left_node, strip_isRed]
              exact hlb)
            (by
              rw [strip_setColor, strip_node]
              obtain ⟨m, _, hb2⟩ := CTree.bal_setColor_red hbal
              exact ⟨m, hb2⟩)
            (by
              rw [strip_setColor, strip_node]
              exact Or.inl rfl)
        | false =>
          have hrb : isRed r = false := by
            rw [← strip_isRed]
            exact hokr23
          have hlred : isRed l = true := by
            rcases Or.symm (Bool.eq_false_or_eq_true (isRed l)) with h2 | h2
            · exfalso
              rw [show isRed (node p l r BLACK s).left = isRed l from rfl,
                show isRed (node p l r BLACK s).right = isRed r from rfl]
                at hguard
              rw [h2, hrb] at hguard
              simp at hguard
            · exact h2
          have hstep : mstep cmp (node p l r BLACK s) (.del k)
              = setColor (removeP cmp k (node p l r BLACK s)) BLACK := by
            rw [show mstep cmp (node p l r BLACK s) (.del k)
              = (deleteM cmp k (node p l r BLACK s)).2 from rfl]
            rw [deleteM, if_neg (by rw [hhas]; simp),
              if_neg (by rw [hguard]; simp)]
          rw [hstep]
          exact hmain (node p l r BLACK s) (Or.inr rfl) hsz
            ⟨hokr23, fun h => absurd h (by decide), hokl, hokr⟩
            ⟨n, hbal⟩
            (Or.inr (by
              rw [strip_node, CTree.ct_left_node, strip_isRed]
              exact hlred))
  | delMin =>
    cases ht : t with
    | nil =>
      have hstep : mstep cmp (nil : RBT (κ × ν)) .delMin = nil := by
        rw [show mstep cmp (nil : RBT (κ × ν)) .delMin
          = (match deleteMinM (nil : RBT (κ × ν)) with
             | .ok u => u | .error _ => nil) from rfl]
        rw [deleteMinM, if_pos (show isNil (nil : RBT (κ × ν)) = true from rfl)]
      rw [hstep]
      exact ⟨⟨rfl, trivial, ⟨0, CTree.Bal.nil⟩, by simp [CTree.ordered], rfl⟩, rfl⟩
    | node p l r c s =>
      subst ht
      have hc : c = BLACK := by simpa using hblk
      subst hc
      rw [strip_node] at hok hbal hord
      obtain ⟨hokr23, _, hokl, hokr⟩ := hok
      have hrb : isRed r = false := by
        rw [← strip_isRed]
        exact hokr23
      have hmain : ∀ t0 : RBT (κ × ν),
          strip t0 = CTree.setColor (strip (node p l r BLACK s)) RED ∨
            strip t0 = strip (node p l r BLACK s) →
          sizeOk t0 = true →
          CTree.ok23 (strip t0) →
          (∃ m, CTree.Bal (strip t0) m) →
          (CTree.isRed (strip t0) = true ∨
            CTree.isRed (strip t0).left = true) →
          MInv cmp (setColor (deleteMinP t0) BLACK) ∧
            CTree.toList (strip (setColor (deleteMinP t0) BLACK))
              = (CTree.toList (strip (node p l r BLACK s))).tail := by
        intro t0 hst0 hsz0 hok0 ⟨m, hbal0⟩ hpre0
        have hord0 : CTree.ordered (pairCmp cmp) (strip t0) := by
          rcases hst0 with h | h
          · rw [h, CTree.ordered_setColor]
            exact hord
          · rw [h]
            exact hord
        have hne0 : strip t0 ≠ CTree.nil := by
          rcases hst0 with h | h <;> rw [h] <;> simp [CTree.setColor]
        have hlist0 : CTree.toList (strip t0)
            = CTree.toList (strip (node p l r BLACK s)) := by
          rcases hst0 with h | h
          · rw [h, CTree.toList_setColor]
          · rw [h]
        obtain ⟨r1, r2, r3, r4, r5⟩ := CTree.deleteMin_spec hok0 hbal0 hpre0 hne0
        refine ⟨⟨isRed_setColor_black _, ?_, ?_, ?_, ?_⟩, ?_⟩
        · rw [strip_setColor, strip_deleteMinP]
          exact CTree.ok23_setColor_black r1
        · rw [strip_setColor, strip_deleteMinP]
          cases hu : CTree.isRed (CTree.deleteMin (strip t0)) with
          | true => exact ⟨m + 1, CTree.bal_setColor_black r2 hu⟩
          | false => exact ⟨m, CTree.bal_setColor_black_of_black r2 hu⟩
        · rw [strip_setColor, strip_deleteMinP]
          rw [CTree.ordered_setColor]
          unfold CTree.ordered
          unfold CTree.ordered at hord0
          rw [r4]
          exact List.Pairwise.sublist (List.tail_sublist _) hord0
        · exact sizeOk_setColor BLACK (sizeOk_deleteMinP hsz0)
        · rw [strip_setColor, strip_deleteMinP, CTree.toList_setColor]
          rw [r4, hlist0]
      cases hguard : (!isRed (node p l r BLACK s).left &&
          !isRed (node p l r BLACK s).right) with
      | true =>
        have hstep : mstep cmp (node p l r BLACK s) .delMin
            = setColor (deleteMinP (setColor (node p l r BLACK s) RED))
                BLACK := by
          rw [show mstep cmp (node p l r BLACK s) .delMin
            = (match deleteMinM (node p l r BLACK s) with
               | .ok u => u | .error _ => node p l r BLACK s) from rfl]
          rw [deleteMinM, if_neg (by simp [isNil]), if_pos hguard]
        rw [hstep]
        obtain ⟨hlb, _⟩ : isRed l = false ∧ isRed r = false := by
          simpa using hguard
        exact hmain (setColor (node p l r BLACK s) RED)
          (Or.inl (by rw [strip_setColor, strip_node]))
          (sizeOk_setColor RED hsz)
          (by
            rw [strip_setColor, strip_node]
            refine CTree.ok23_setColor_red ⟨hokr23,
              fun h => absurd h (by decide), hokl, hokr⟩ ?_
            rw [CTree.ct_left_node, strip_isRed]
            exact hlb)
          (by
            rw [strip_setColor, strip_node]
            obtain ⟨m, _, hb2⟩ := CTree.bal_setColor_red hbal
            exact ⟨m, hb2⟩)
          (by
            rw [strip_setColor, strip_node]
            exact Or.inl rfl)
      | false =>
        have hlred : isRed l = true := by
          rcases Or.symm (Bool.eq_false_or_eq_true (isRed l)) with h2 | h2
          · exfalso
            rw [show isRed (node p l r BLACK s).left = isRed l from rfl,
              show isRed (node p l r BLACK s).right = isRed r from rfl]
              at hguard
            rw [h2, hrb] at hguard
            simp at hguard
          · exact h2
        have hstep : mstep cmp (node p l r BLACK s) .delMin
            = setColor (deleteMinP (node p l r BLACK s)) BLACK := by
          rw [show mstep cmp (node p l r BLACK s) .delMin
            = (match deleteMinM (node p l r BLACK s) with
               | .ok u => u | .error _ => node p l r BLACK s) from rfl]
          rw [deleteMinM, if_neg (by simp [isNil]),
            if_neg (by rw [hguard]; simp)]
        rw [hstep]
        exact hmain (node p l r BLACK s) (Or.inr rfl) hsz
          ⟨hokr23, fun h => absurd h (by decide), hokl, hokr⟩
          ⟨n, hbal⟩
          (Or.inr (by
            rw [strip_node, CTree.ct_left_node, strip_isRed]
            exact hlred))
  | delMax =>
    cases ht : t with
    | nil =>
      have hstep : mstep cmp (nil : RBT (κ × ν)) .delMax = nil := by
        rw [show mstep cmp (nil : RBT (κ × ν)) .delMax
          = (match deleteMaxM (nil : RBT (κ × ν)) with
             | .ok u => u | .error _ => nil) from rfl]
        rw [deleteMaxM, if_pos (show isNil (nil : RBT (κ × ν)) = true from rfl)]
      rw [hstep]
      exact ⟨⟨rfl, trivial, ⟨0, CTree.Bal.nil⟩, by simp [CTree.ordered], rfl⟩, rfl⟩
    | node p l r c s =>
      subst ht
      have hc : c = BLACK := by simpa using hblk
      subst hc
      rw [strip_node] at hok hbal hord
      obtain ⟨hokr23, _, hokl, hokr⟩ := hok
      have hrb : isRed r = false := by
        rw [← strip_isRed]
        exact hokr23
      have hmain : ∀ t0 : RBT (κ × ν),
          strip t0 = CTree.setColor (strip (node p l r BLACK s)) RED ∨
            strip t0 = strip (node p l r BLACK s) →
          sizeOk t0 = true →
          CTree.ok23 (strip t0) →
          (∃ m, CTree.Bal (strip t0) m) →
          (CTree.isRed (strip t0) = true ∨
            CTree.isRed (strip t0).left = true) →
          MInv cmp (setColor (deleteMaxP t0) BLACK) ∧
            CTree.toList (strip (setColor (deleteMaxP t0) BLACK))
              = (CTree.toList (strip (node p l r BLACK s))).dropLast := by
        intro t0 hst0 hsz0 hok0 ⟨m, hbal0⟩ hpre0
        have hord0 : CTree.ordered (pairCmp cmp) (strip t0) := by
          rcases hst0 with h | h
          · rw [h, CTree.ordered_setColor]
            exact hord
          · rw [h]
            exact hord
        have hne0 : strip t0 ≠ CTree.nil := by
          rcases hst0 with h | h <;> rw [h] <;> simp [CTree.setColor]
        have hlist0 : CTree.toList (strip t0)
            = CTree.toList (strip (node p l r BLACK s)) := by
          rcases hst0 with h | h
          · rw [h, CTree.toList_setColor]
          · rw [h]
        obtain ⟨r1, r2, r3, r4, r5⟩ := CTree.deleteMax_spec hbal0 hne0
          (Or.inl ⟨hok0, hpre0⟩)
        refine ⟨⟨isRed_setColor_black _, ?_, ?_, ?_, ?_⟩, ?_⟩
        · rw [strip_setColor, strip_deleteMaxP]
          exact CTree.ok23_setColor_black r1
        · rw [strip_setColor, strip_deleteMaxP]
          cases hu : CTree.isRed (CTree.deleteMax (strip t0)) with
          | true => exact ⟨m + 1, CTree.bal_setColor_black r2 hu⟩
          | false => exact ⟨m, CTree.bal_setColor_black_of_black r2 hu⟩
        · rw [strip_setColor, strip_deleteMaxP]
          rw [CTree.ordered_setColor]
          unfold CTree.ordered
          unfold CTree.ordered at hord0
          rw [r4]
          exact List.Pairwise.sublist (List.dropLast_sublist _) hord0
        · exact sizeOk_setColor BLACK (sizeOk_deleteMaxP hsz0)
        · rw [strip_setColor, strip_deleteMaxP, CTree.toList_setColor]
          rw [r4, hlist0]
      cases hguard : (!isRed (node p l r BLACK s).left &&
          !isRed (node p l r BLACK s).right) with
      | true =>
        have hstep : mstep cmp (node p l r BLACK s) .delMax
            = setColor (deleteMaxP (setColor (node p l r BLACK s) RED))
                BLACK := by
          rw [show mstep cmp (node p l r BLACK s) .delMax
            = (match deleteMaxM (node p l r BLACK s) with
               | .ok u => u | .error _ => node p l r BLACK s) from rfl]
          rw [deleteMaxM, if_neg (by simp [isNil]), if_pos hguard]
        rw [hstep]
        obtain ⟨hlb, _⟩ : isRed l = false ∧ isRed r = false := by
          simpa using hguard
        exact hmain (setColor (node p l r BLACK s) RED)
          (Or.inl (by rw [strip_setColor, strip_node]))
          (sizeOk_setColor RED hsz)
          (by
            rw [strip_setColor, strip_node]
            refine CTree.ok23_setColor_red ⟨hokr23,
              fun h => absurd h (by decide), hokl, hokr⟩ ?_
            rw [CTree.ct_left_node, strip_isRed]
            exact hlb)
          (by
            rw [strip_setColor, strip_node]
            obtain ⟨m, _, hb2⟩ := CTree.bal_setColor_red hbal
            exact ⟨m, hb2⟩)
          (by
            rw [strip_setColor, strip_node]
            exact Or.inl rfl)
      | false =>
        have hlred : isRed l = true := by
          rcases Or.symm (Bool.eq_false_or_eq_true (isRed l)) with h2 | h2
          · exfalso
            rw [show isRed (node p l r BLACK s).left = isRed l from rfl,
              show isRed (node p l r BLACK s).right = isRed r from rfl]
              at hguard
            rw [h2, hrb] at hguard
            simp at hguard
          · exact h2
        have hstep : mstep cmp (node p l r BLACK s) .delMax
            = setColor (deleteMaxP (node p l r BLACK s)) BLACK := by
          rw [show mstep cmp (node p l r BLACK s) .delMax
            = (match deleteMaxM (node p l r BLACK s) with
               | .ok u => u | .error _ => node p l r BLACK s) from rfl]
          rw [deleteMaxM, if_neg (by simp [isNil]),
            if_neg (by rw [hguard]; simp)]
        rw [hstep]
        exact hmain (node p l r BLACK s) (Or.inr rfl) hsz
          ⟨hokr23, fun h => absurd h (by decide), hokl, hokr⟩
          ⟨n, hbal⟩
          (Or.inr (by
            rw [strip_node, CTree.ct_left_node, strip_isRed]
            exact hlred))

/-- The map invariant holds in every reachable state, and the in-order
entry list of the reachable state is the fold of the list model. -/
theorem mrun_model {cmp : Cmp κ} (hcmp : CmpLaws cmp)
    (ops : List (MOp κ ν)) :
    MInv cmp (mrun cmp ops) ∧
    CTree.toList (strip (mrun cmp ops)) = ops.foldl (mLStep cmp) [] := by
  suffices h : ∀ t L, MInv cmp t → CTree.toList (strip t) = L →
      MInv cmp (ops.foldl (mstep cmp) t) ∧
      CTree.toList (strip (ops.foldl (mstep cmp) t))
        = ops.foldl (mLStep cmp) L by
    exact h nil [] ⟨rfl, trivial, ⟨0, CTree.Bal.nil⟩,
      by simp [CTree.ordered], rfl⟩ rfl
  induction ops with
  | nil =>
    intro t L h hL
    exact ⟨h, hL⟩
  | cons op rest ih =>
    intro t L h hL
    obtain ⟨h1, h2⟩ := mstep_MInv hcmp h op
    exact ih _ _ h1 (by rw [h2, hL])

end RBT

/-! ### The list model meets the last-write/distinct-keys reference -/

theorem lookK_insKV {κ ν : Type} {cmp : RBT.Cmp κ} (hcmp : CmpLaws cmp)
    (k k2 : κ) (v : ν) :
    ∀ (L : List (κ × ν)),
      lookK cmp k (insKV cmp k2 v L)
        = if cmp k k2 = 0 then some v else lookK cmp k L := by
  intro L
  induction L with
  | nil =>
    rw [show insKV cmp k2 v ([] : List (κ × ν)) = [(k2, v)] from rfl]
    rfl
  | cons p rest ih =>
    rw [insKV]
    split
    · rfl
    · split
      · rw [lookK]
        cases hkp : decide (cmp k p.1 = 0) with
        | true =>
          have hkp2 : cmp k p.1 = 0 := by simpa using hkp
          rw [if_pos hkp2]
          have hk2 : ¬(cmp k k2 = 0) := by
            intro h0
            have h1 := (hcmp.eq_eq k k2 p.1 h0).mp hkp2
            omega
          rw [if_neg hk2, lookK, if_pos hkp2]
        | false =>
          have hkp2 : ¬(cmp k p.1 = 0) := by simpa using hkp
          rw [if_neg hkp2, ih, lookK, if_neg hkp2]
      · rename_i h1 h2
        have heqv : cmp k2 p.1 = 0 := by omega
        have hcond : (cmp k p.1 = 0) ↔ (cmp k k2 = 0) :=
          hcmp.snd_eq_eq k (hcmp.eq_symm heqv)
        rw [show lookK cmp k ((p.1, v) :: rest)
          = if cmp k p.1 = 0 then some v else lookK cmp k rest from rfl]
        cases hkp : decide (cmp k p.1 = 0) with
        | true =>
          have hkp2 : cmp k p.1 = 0 := by simpa using hkp
          rw [if_pos hkp2, if_pos (hcond.mp hkp2)]
        | false =>
          have hkp2 : ¬(cmp k p.1 = 0) := by simpa using hkp
          rw [if_neg hkp2, if_neg (fun h => hkp2 (hcond.mpr h)), lookK,
            if_neg hkp2]

theorem lookK_eraseK {κ ν : Type} {cmp : RBT.Cmp κ} (hcmp : CmpLaws cmp)
    (k k2 : κ) :
    ∀ {L : List (κ × ν)}, L.Pairwise (fun p q => cmp p.1 q.1 < 0) →
      lookK cmp k (eraseK cmp k2 L)
        = if cmp k k2 = 0 then none else lookK cmp k L := by
  intro L
  induction L with
  | nil =>
    intro _
    rw [show eraseK cmp k2 ([] : List (κ × ν)) = [] from rfl]
    split
    · rfl
    · rfl
  | cons p rest ih =>
    intro hp
    obtain ⟨hhead, hrest⟩ := List.pairwise_cons.mp hp
    rw [eraseK]
    split
    · rename_i h2
      cases hk2 : decide (cmp k k2 = 0) with
      | true =>
        have hk2b : cmp k k2 = 0 := by simpa using hk2
        rw [if_pos hk2b]
        have hkp : cmp k p.1 = 0 := (hcmp.snd_eq_eq k h2).mp hk2b
        refine lookK_no_hit ?_
        intro q hq h0
        have h3 := (hcmp.eq_eq k p.1 q.1 hkp).mp h0
        have h4 := hhead q hq
        omega
      | false =>
        have hk2b : ¬(cmp k k2 = 0) := by simpa using hk2
        rw [if_neg hk2b, lookK]
        have hkp : ¬(cmp k p.1 = 0) := by
          intro h0
          exact hk2b ((hcmp.snd_eq_eq k h2).mpr h0)
        rw [if_neg hkp]
    · rename_i h2
      rw [lookK]
      cases hkp : decide (cmp k p.1 = 0) with
      | true =>
        have hkpb : cmp k p.1 = 0 := by simpa using hkp
        rw [if_pos hkpb]
        have hk2 : ¬(cmp k k2 = 0) := by
          intro h0
          exact h2 ((hcmp.snd_eq_eq k2 hkpb).mp (hcmp.eq_symm h0))
        rw [if_neg hk2, lookK, if_pos hkpb]
      | false =>
        have hkpb : ¬(cmp k p.1 = 0) := by simpa using hkp
        rw [if_neg hkpb, ih hrest]
        split
        · rfl
        · rw [lookK, if_neg hkpb]

/-- The invariant of the list model along a `set`/`delete` sequence:
sortedness, and lookup agreeing with the fold that keeps the most recent
`set` not followed by a `delete`. -/
theorem kv_model_core {κ ν : Type} [DecidableEq κ] {cmp : RBT.Cmp κ}
    (hcmp : CmpLawsEq cmp) :
    ∀ (ops : List (KVOp κ ν)) (L : List (κ × ν)),
      L.Pairwise (fun p q => cmp p.1 q.1 < 0) →
      ((ops.map KVOp.toM).foldl (mLStep cmp) L).Pairwise
        (fun p q => cmp p.1 q.1 < 0) ∧
      ∀ k, lookK cmp k ((ops.map KVOp.toM).foldl (mLStep cmp) L)
        = ops.foldl (fun acc op => match op with
            | KVOp.set k2 v => if k2 = k then some v else acc
            | KVOp.del k2 => if k2 = k then none else acc)
            (lookK cmp k L) := by
  intro ops
  induction ops with
  | nil =>
    intro L hL
    exact ⟨hL, fun _ => rfl⟩
  | cons op rest ih =>
    intro L hL
    cases op with
    | set k2 v =>
      have hL2 : (insKV cmp k2 v L).Pairwise (fun p q => cmp p.1 q.1 < 0) :=
        insKV_pairwise hcmp.toCmpLaws k2 v hL
      obtain ⟨q1, q2⟩ := ih (insKV cmp k2 v L) hL2
      refine ⟨q1, ?_⟩
      intro k
      rw [show (KVOp.set k2 v :: rest).map KVOp.toM
        = RBT.MOp.set k2 v :: rest.map KVOp.toM from rfl]
      rw [List.foldl_cons, List.foldl_cons]
      rw [show mLStep cmp L (RBT.MOp.set k2 v) = insKV cmp k2 v L from rfl]
      rw [q2 k]
      have harg : lookK cmp k (insKV cmp k2 v L)
          = (if k2 = k then some v else lookK cmp k L) := by
        rw [lookK_insKV hcmp.toCmpLaws]
        cases hd : decide (k2 = k) with
        | true =>
          have hd2 : k2 = k := by simpa using hd
          subst hd2
          rw [if_pos (hcmp.toCmpLaws.self k2), if_pos rfl]
        | false =>
          have hd2 : ¬(k2 = k) := by simpa using hd
          rw [if_neg hd2, if_neg (fun h0 => hd2 (hcmp.eq_iff k2 k
            (hcmp.toCmpLaws.eq_symm h0)))]
      rw [harg]
    | del k2 =>
      have hL2 : (eraseK cmp k2 L).Pairwise (fun p q => cmp p.1 q.1 < 0) :=
        List.Pairwise.sublist (eraseK_sublist cmp k2 L) hL
      obtain ⟨q1, q2⟩ := ih (eraseK cmp k2 L) hL2
      refine ⟨q1, ?_⟩
      intro k
      rw [show (KVOp.del k2 :: rest).map KVOp.toM
        = RBT.MOp.del k2 :: rest.map KVOp.toM from rfl]
      rw [List.foldl_cons, List.foldl_cons]
      rw [show mLStep cmp L (RBT.MOp.del k2) = eraseK cmp k2 L from rfl]
      rw [q2 k]
      have harg : lookK cmp k (eraseK cmp k2 L)
          = (if k2 = k then none else lookK cmp k L) := by
        rw [lookK_eraseK hcmp.toCmpLaws k k2 hL]
        cases hd : decide (k2 = k) with
        | true =>
          have hd2 : k2 = k := by simpa using hd
          subst hd2
          rw [if_pos (hcmp.toCmpLaws.self k2), if_pos rfl]
        | false =>
          have hd2 : ¬(k2 = k) := by simpa using hd
          rw [if_neg hd2, if_neg (fun h0 => hd2 (hcmp.eq_iff k2 k
            (hcmp.toCmpLaws.eq_symm h0)))]
      rw [harg]

theorem kvSetKeys_mem_of_isSome {κ ν : Type} [DecidableEq κ] {k : κ} :
    ∀ (ops : List (KVOp κ ν)) (acc : Option ν),
      (ops.foldl (fun acc op => match op with
        | KVOp.set k2 v => if k2 = k then some v else acc
        | KVOp.del k2 => if k2 = k then none else acc) acc).isSome = true →
      k ∈ kvSetKeys ops ∨ acc.isSome = true := by
  intro ops
  induction ops with
  | nil =>
    intro acc h
    exact Or.inr h
  | cons op rest ih =>
    intro acc h
    rw [List.foldl_cons] at h
    cases op with
    | set k2 v =>
      rcases ih _ h with h2 | h2
      · exact Or.inl (by rw [kvSetKeys]; exact List.mem_cons_of_mem _ h2)
      · replace h2 : (if k2 = k then some v else acc).isSome = true := h2
        cases hd : decide (k2 = k) with
        | true =>
          have hd2 : k2 = k := by simpa using hd
          subst hd2
          exact Or.inl (by rw [kvSetKeys]; exact List.mem_cons_self _ _)
        | false =>
          have hd2 : ¬(k2 = k) := by simpa using hd
          rw [if_neg hd2] at h2
          exact Or.inr h2
    | del k2 =>
      rcases ih _ h with h2 | h2
      · exact Or.inl (by rw [kvSetKeys]; exact h2)
      · replace h2 : (if k2 = k then none else acc).isSome = true := h2
        cases hd : decide (k2 = k) with
        | true =>
          have hd2 : k2 = k := by simpa using hd
          rw [if_pos hd2] at h2
          simp at h2
        | false =>
          have hd2 : ¬(k2 = k) := by simpa using hd
          rw [if_neg hd2] at h2
          exact Or.inr h2

theorem lookK_isSome_iff_mem {κ ν : Type} {cmp : RBT.Cmp κ}
    (hcmp : CmpLawsEq cmp) (k : κ) :
    ∀ (L : List (κ × ν)),
      (lookK cmp k L).isSome = true ↔ k ∈ L.map Prod.fst := by
  intro L
  induction L with
  | nil => simp [lookK]
  | cons p rest ih =>
    rw [lookK]
    cases hd : decide (cmp k p.1 = 0) with
    | true =>
      have hd2 : cmp k p.1 = 0 := by simpa using hd
      rw [if_pos hd2]
      simp only [List.map_cons, List.mem_cons]
      constructor
      · intro _
        exact Or.inl (hcmp.eq_iff k p.1 hd2)
      · intro _
        rfl
    | false =>
      have hd2 : ¬(cmp k p.1 = 0) := by simpa using hd
      rw [if_neg hd2]
      simp only [List.map_cons, List.mem_cons]
      constructor
      · intro h
        exact Or.inr (ih.mp h)
      · intro h
        rcases h with h | h
        · exact absurd (by rw [h]; exact hcmp.toCmpLaws.self p.1) hd2
        · exact ih.mpr h

/-- The length of the model list is the number of distinct present keys. -/
theorem kv_length {κ ν : Type} [DecidableEq κ] {cmp : RBT.Cmp κ}
    (hcmp : CmpLawsEq cmp) (ops : List (KVOp κ ν)) :
    ((ops.map KVOp.toM).foldl (mLStep cmp) []).length = kvPresentCount ops := by
  obtain ⟨hsort, hlook⟩ := kv_model_core hcmp ops [] (List.Pairwise.nil)
  set L := (ops.map KVOp.toM).foldl (mLStep cmp) [] with hLdef
  have hget : ∀ k, lookK cmp k L = kvGet k ops := by
    intro k
    rw [hlook k]
    rfl
  have hMnodup : (L.map Prod.fst).Nodup := by
    have h1 : (L.map Prod.fst).Pairwise (fun a b => cmp a b < 0) :=
      List.Pairwise.map Prod.fst (fun a b h => h) hsort
    refine h1.imp ?_
    intro a b hab heq
    subst heq
    rw [hcmp.toCmpLaws.self a] at hab
    omega
  have hPnodup : ((kvSetKeys ops).dedup.filter
      (fun k => (kvGet k ops).isSome)).Nodup :=
    List.Nodup.filter _ (List.nodup_dedup _)
  have hmem : ∀ j, j ∈ L.map Prod.fst ↔
      j ∈ (kvSetKeys ops).dedup.filter (fun k => (kvGet k ops).isSome) := by
    intro j
    rw [List.mem_filter, List.mem_dedup]
    constructor
    · intro h
      have h1 : (lookK cmp j L).isSome = true :=
        (lookK_isSome_iff_mem hcmp j L).mpr h
      rw [hget] at h1
      have h2 : j ∈ kvSetKeys ops := by
        rcases kvSetKeys_mem_of_isSome ops none (by
          rw [show (ops.foldl (fun acc op => match op with
            | KVOp.set k2 v => if k2 = j then some v else acc
            | KVOp.del k2 => if k2 = j then none else acc) none)
            = kvGet j ops from rfl]
          exact h1) with h3 | h3
        · exact h3
        · simp at h3
      exact ⟨h2, by simpa using h1⟩
    · intro ⟨_, h2⟩
      refine (lookK_isSome_iff_mem hcmp j L).mp ?_
      rw [hget]
      simpa using h2
  have hperm : (L.map Prod.fst).Perm
      ((kvSetKeys ops).dedup.filter (fun k => (kvGet k ops).isSome)) := by
    rw [List.perm_ext_iff_of_nodup hMnodup hPnodup]
    exact hmem
  have := hperm.length_eq
  rw [List.length_map] at this
  rw [kvPresentCount]
  exact this

namespace CTree

theorem count_eq_length_toList {α : Type} : ∀ t : CTree α,
    count t = (toList t).length := by
  intro t
  induction t with
  | nil => rfl
  | node v l r c ihl ihr =>
    rw [ct_toList_node, ctCount_node, List.length_append, List.length_cons,
      ihl, ihr]
    omega

end CTree

/-! ### Claim C2 -/

/-- C2: for every `set`/`delete` call sequence on the sorted map (over
integer keys with the repository's `(a, b) => a - b` comparator), `get(k)`
returns the value of the most recent `set(k, ·)` not followed by a
`delete(k)` — for every key, with `undefined` (`none`) exactly on the
absent ones — and `size()` returns the number of distinct keys that have
been set and not subsequently deleted. -/
theorem C2_map_get_and_size {ν : Type} (ops : List (KVOp Int ν)) (k : Int) :
    RBT.getM intCmp k (RBT.mrun intCmp (ops.map KVOp.toM)) = kvGet k ops ∧
    RBT.sizeM (RBT.mrun intCmp (ops.map KVOp.toM)) = kvPresentCount ops := by
  obtain ⟨⟨hblk, hok, hbal, hord, hsz⟩, hlist⟩ :=
    RBT.mrun_model intCmp_laws.toCmpLaws (ops.map KVOp.toM)
  constructor
  · rw [show RBT.getM intCmp k (RBT.mrun intCmp (ops.map KVOp.toM))
      = RBT.getK intCmp k (RBT.mrun intCmp (ops.map KVOp.toM)) from rfl]
    rw [RBT.getK_eq_lookK intCmp_laws.toCmpLaws k hord]
    rw [hlist]
    obtain ⟨_, hlook⟩ := kv_model_core intCmp_laws ops [] List.Pairwise.nil
    rw [hlook k]
    rfl
  · rw [show RBT.sizeM (RBT.mrun intCmp (ops.map KVOp.toM))
      = RBT.size (RBT.mrun intCmp (ops.map KVOp.toM)) from rfl]
    rw [RBT.size_eq_count_of_sizeOk hsz]
    rw [← RBT.strip_count, CTree.count_eq_length_toList]
    rw [hlist]
    exact kv_length intCmp_laws ops

/-! ### Navigation correctness: min, max, floor, ceiling (claim C5) -/

theorem mem_of_getLast?_eq {β : Type _} : ∀ {l : List β} {a : β},
    l.getLast? = some a → a ∈ l := by
  intro l a h
  have h2 : a ∈ l.getLast? := Option.mem_def.mpr h
  obtain ⟨hne, heq⟩ := List.mem_getLast?_eq_getLast h2
  rw [heq]
  exact List.getLast_mem hne

namespace RBT

variable {κ ν : Type}

theorem maxVal_eq_getLast : ∀ t : RBT (κ × ν),
    maxVal t = (CTree.toList (strip t)).getLast? := by
  intro t
  induction t with
  | nil => rfl
  | node v l r c s ihl ihr =>
    rw [strip_node, CTree.ct_toList_node]
    cases r with
    | nil =>
      rw [show maxVal (node v l nil c s) = some v from rfl]
      rw [strip_nil, CTree.ct_toList_nil, List.getLast?_append_cons]
      rfl
    | node rv rl rr rc rs =>
      rw [show maxVal (node v l (node rv rl rr rc rs) c s)
        = maxVal (node rv rl rr rc rs) from rfl, ihr,
        List.getLast?_append_cons,
        show (v :: CTree.toList (strip (node rv rl rr rc rs)))
          = [v] ++ CTree.toList (strip (node rv rl rr rc rs)) from rfl,
        List.getLast?_append_of_ne_nil [v]
          (CTree.toList_ne_nil (by simp))]

/-- In a key-sorted entry list the head key is a lower bound. -/
theorem sorted_head_lb {cmp : Cmp κ} (hcmp : CmpLaws cmp)
    {L : List (κ × ν)} {p : κ × ν}
    (hs : L.Pairwise (fun a b => cmp a.1 b.1 < 0))
    (hh : L.head? = some p) : ∀ q ∈ L, cmp p.1 q.1 ≤ 0 := by
  intro q hq
  have hL : p :: L.tail = L := List.cons_head?_tail hh
  rw [← hL] at hs hq
  obtain ⟨hhead, _⟩ := List.pairwise_cons.mp hs
  rcases List.mem_cons.mp hq with h | h
  · rw [h, hcmp.self]
  · have := hhead q h
    omega

/-- In a key-sorted entry list the last key is an upper bound. -/
theorem sorted_getLast_ub {cmp : Cmp κ} (hcmp : CmpLaws cmp) :
    ∀ {L : List (κ × ν)},
      L.Pairwise (fun a b => cmp a.1 b.1 < 0) →
      ∀ {p : κ × ν}, L.getLast? = some p → ∀ q ∈ L, cmp q.1 p.1 ≤ 0 := by
  intro L
  induction L with
  | nil =>
    intro _ p h
    simp at h
  | cons a rest ih =>
    intro hp p hlast q hq
    obtain ⟨hhead, hrest⟩ := List.pairwise_cons.mp hp
    cases rest with
    | nil =>
      have ha : a = p := by simpa using hlast
      have hqa : q = a := by simpa using hq
      rw [hqa, ha, hcmp.self]
    | cons b rest2 =>
      rw [List.getLast?_cons_cons] at hlast
      rcases List.mem_cons.mp hq with h | h
      · have hpmem : p ∈ b :: rest2 := mem_of_getLast?_eq hlast
        have := hhead p hpmem
        rw [h]
        omega
      · exact ih hrest hlast q h

/-- BST descent correctness of the map `floor`: a `some` result is the
largest stored key at or below the query, a `none` result means every
stored key is above it. -/
theorem floorK_spec {cmp : Cmp κ} (hcmp : CmpLaws cmp) (k : κ) :
    ∀ {t : RBT (κ × ν)}, CTree.ordered (pairCmp cmp) (strip t) →
      (∀ p, floorK cmp k t = some p →
        p ∈ CTree.toList (strip t) ∧ 0 ≤ cmp k p.1 ∧
        ∀ q ∈ CTree.toList (strip t), 0 ≤ cmp k q.1 → cmp q.1 p.1 ≤ 0) ∧
      (floorK cmp k t = none →
        ∀ q ∈ CTree.toList (strip t), cmp k q.1 < 0) := by
  intro t
  induction t with
  | nil =>
    intro _
    constructor
    · intro p hp
      simp [floorK] at hp
    · intro _ q hq
      simp at hq
  | node p0 l r c s ihl ihr =>
    intro hord
    rw [strip_node] at hord ⊢
    obtain ⟨hol, hor, hltl, hgtr, _⟩ :=
      (CTree.ordered_node_iff (pairCmp cmp) p0 (strip l) (strip r) c).mp hord
    rw [CTree.ct_toList_node]
    rcases lt_trichotomy (cmp k p0.1) 0 with hlt | heq | hgt
    · -- descend left
      have hmain : floorK cmp k (node p0 l r c s) = floorK cmp k l := by
        rw [floorK, if_neg (by omega), if_pos hlt]
      rw [hmain]
      obtain ⟨ihs, ihn⟩ := ihl hol
      have hrq : ∀ q ∈ CTree.toList (strip r), cmp k q.1 < 0 := by
        intro q hq
        have h1 := hgtr q hq
        rw [pairCmp_app] at h1
        exact hcmp.lt_trans k p0.1 q.1 hlt h1
      constructor
      · intro p hp
        obtain ⟨hmem, hle, hmax⟩ := ihs p hp
        refine ⟨List.mem_append.mpr (Or.inl hmem), hle, ?_⟩
        intro q hq hq2
        rcases List.mem_append.mp hq with h | h
        · exact hmax q h hq2
        · rcases List.mem_cons.mp h with h2 | h2
          · rw [h2] at hq2
            omega
          · have := hrq q h2
            omega
      · intro hn q hq
        rcases List.mem_append.mp hq with h | h
        · exact ihn hn q h
        · rcases List.mem_cons.mp h with h2 | h2
          · rw [h2]
            exact hlt
          · exact hrq q h2
    · -- exact match at the root
      have hmain : floorK cmp k (node p0 l r c s) = some p0 := by
        rw [floorK, if_pos heq]
      rw [hmain]
      constructor
      · intro p hp
        have hpp : p = p0 := by
          have := hp
          simp at this
          rw [this]
        subst p
        refine ⟨by simp, by omega, ?_⟩
        intro q hq hq2
        rcases List.mem_append.mp hq with h | h
        · have h1 := hltl q h
          rw [pairCmp_app] at h1
          omega
        · rcases List.mem_cons.mp h with h2 | h2
          · rw [h2, hcmp.self]
          · have h1 := hgtr q h2
            rw [pairCmp_app] at h1
            have h3 := (hcmp.eq_lt k p0.1 q.1 heq).mpr h1
            omega
      · intro hn
        exact absurd hn (by simp)
    · -- descend right, root as fallback
      obtain ⟨ihs, ihn⟩ := ihr hor
      cases hr : floorK cmp k r with
      | some pr =>
        have hmain : floorK cmp k (node p0 l r c s) = some pr := by
          rw [floorK, if_neg (by omega), if_neg (by omega), hr]
          rfl
        rw [hmain]
        obtain ⟨hmem, hle, hmax⟩ := ihs pr hr
        constructor
        · intro p hp
          have hpp : p = pr := by
            have := hp
            simp at this
            rw [this]
          subst p
          refine ⟨List.mem_append.mpr (Or.inr (List.mem_cons_of_mem p0 hmem)),
            hle, ?_⟩
          intro q hq hq2
          have hp0pr : cmp p0.1 pr.1 < 0 := by
            have h1 := hgtr pr hmem
            rw [pairCmp_app] at h1
            exact h1
          rcases List.mem_append.mp hq with h | h
          · have h1 := hltl q h
            rw [pairCmp_app] at h1
            have := hcmp.lt_trans q.1 p0.1 pr.1 h1 hp0pr
            omega
          · rcases List.mem_cons.mp h with h2 | h2
            · rw [h2]
              omega
            · exact hmax q h2 hq2
        · intro hn
          exact absurd hn (by simp)
      | none =>
        have hmain : floorK cmp k (node p0 l r c s) = some p0 := by
          rw [floorK, if_neg (by omega), if_neg (by omega), hr]
          rfl
        rw [hmain]
        constructor
        · intro p hp
          have hpp : p = p0 := by
            have := hp
            simp at this
            rw [this]
          subst p
          refine ⟨by simp, by omega, ?_⟩
          intro q hq hq2
          rcases List.mem_append.mp hq with h | h
          · have h1 := hltl q h
            rw [pairCmp_app] at h1
            omega
          · rcases List.mem_cons.mp h with h2 | h2
            · rw [h2, hcmp.self]
            · have := ihn hr q h2
              omega
        · intro hn
          exact absurd hn (by simp)

/-- BST descent correctness of the map `ceiling`. -/
theorem ceilingK_spec {cmp : Cmp κ} (hcmp : CmpLaws cmp) (k : κ) :
    ∀ {t : RBT (κ × ν)}, CTree.ordered (pairCmp cmp) (strip t) →
      (∀ p, ceilingK cmp k t = some p →
        p ∈ CTree.toList (strip t) ∧ cmp k p.1 ≤ 0 ∧
        ∀ q ∈ CTree.toList (strip t), cmp k q.1 ≤ 0 → cmp p.1 q.1 ≤ 0) ∧
      (ceilingK cmp k t = none →
        ∀ q ∈ CTree.toList (strip t), 0 < cmp k q.1) := by
  intro t
  induction t with
  | nil =>
    intro _
    constructor
    · intro p hp
      simp [ceilingK] at hp
    · intro _ q hq
      simp at hq
  | node p0 l r c s ihl ihr =>
    intro hord
    rw [strip_node] at hord ⊢
    obtain ⟨hol, hor, hltl, hgtr, _⟩ :=
      (CTree.ordered_node_iff (pairCmp cmp) p0 (strip l) (strip r) c).mp hord
    rw [CTree.ct_toList_node]
    rcases lt_trichotomy (cmp k p0.1) 0 with hlt | heq | hgt
    · -- descend left, root as fallback
      obtain ⟨ihs, ihn⟩ := ihl hol
      cases hl : ceilingK cmp k l with
      | some pl =>
        have hmain : ceilingK cmp k (node p0 l r c s) = some pl := by
          rw [ceilingK, if_neg (by omega), if_neg (by omega), hl]
          rfl
        rw [hmain]
        obtain ⟨hmem, hle, hmin⟩ := ihs pl hl
        constructor
        · intro p hp
          have hpp : p = pl := by
            have := hp
            simp at this
            rw [this]
          subst p
          refine ⟨List.mem_append.mpr (Or.inl hmem), hle, ?_⟩
          intro q hq hq2
          have hplp0 : cmp pl.1 p0.1 < 0 := by
            have h1 := hltl pl hmem
            rw [pairCmp_app] at h1
            exact h1
          rcases List.mem_append.mp hq with h | h
          · exact hmin q h hq2
          · rcases List.mem_cons.mp h with h2 | h2
            · rw [h2]
              omega
            · have h1 := hgtr q h2
              rw [pairCmp_app] at h1
              have := hcmp.lt_trans pl.1 p0.1 q.1 hplp0 h1
              omega
        · intro hn
          exact absurd hn (by simp)
      | none =>
        have hmain : ceilingK cmp k (node p0 l r c s) = some p0 := by
          rw [ceilingK, if_neg (by omega), if_neg (by omega), hl]
          rfl
        rw [hmain]
        constructor
        · intro p hp
          have hpp : p = p0 := by
            have := hp
            simp at this
            rw [this]
          subst p
          refine ⟨by simp, by omega, ?_⟩
          intro q hq hq2
          rcases List.mem_append.mp hq with h | h
          · have := ihn hl q h
            omega
          · rcases List.mem_cons.mp h with h2 | h2
            · rw [h2, hcmp.self]
            · have h1 := hgtr q h2
              rw [pairCmp_app] at h1
              omega
        · intro hn
          exact absurd hn (by simp)
    · -- exact match at the root
      have hmain : ceilingK cmp k (node p0 l r c s) = some p0 := by
        rw [ceilingK, if_pos heq]
      rw [hmain]
      constructor
      · intro p hp
        have hpp : p = p0 := by
          have := hp
          simp at this
          rw [this]
        subst p
        refine ⟨by simp, by omega, ?_⟩
        intro q hq hq2
        rcases List.mem_append.mp hq with h | h
        · have h1 := hltl q h
          rw [pairCmp_app] at h1
          -- q.1 < p0.1 ≈ k, but cmp k q.1 ≤ 0 says k ≤ q.1: contradiction
          have h6 := (hcmp.snd_eq_lt q.1 (hcmp.eq_symm heq)).mp h1
          have h7 := (hcmp.asymm q.1 k).mp h6
          omega
        · rcases List.mem_cons.mp h with h2 | h2
          · rw [h2, hcmp.self]
          · have h1 := hgtr q h2
            rw [pairCmp_app] at h1
            omega
      · intro hn
        exact absurd hn (by simp)
    · -- descend right
      have hmain : ceilingK cmp k (node p0 l r c s) = ceilingK cmp k r := by
        rw [ceilingK, if_neg (by omega), if_pos hgt]
      rw [hmain]
      obtain ⟨ihs, ihn⟩ := ihr hor
      have hlq : ∀ q ∈ CTree.toList (strip l), 0 < cmp k q.1 := by
        intro q hq
        have h1 := hltl q hq
        rw [pairCmp_app] at h1
        have h4 := hcmp.lt_trans q.1 p0.1 k h1 ((hcmp.asymm p0.1 k).mpr hgt)
        exact (hcmp.asymm q.1 k).mp h4
      constructor
      · intro p hp
        obtain ⟨hmem, hle, hmin⟩ := ihs p hp
        refine ⟨List.mem_append.mpr (Or.inr (List.mem_cons_of_mem p0 hmem)),
          hle, ?_⟩
        intro q hq hq2
        rcases List.mem_append.mp hq with h | h
        · have := hlq q h
          omega
        · rcases List.mem_cons.mp h with h2 | h2
          · rw [h2] at hq2
            omega
          · exact hmin q h2 hq2
      · intro hn q hq
        rcases List.mem_append.mp hq with h | h
        · exact hlq q h
        · rcases List.mem_cons.mp h with h2 | h2
          · rw [h2]
            exact hgt
          · exact ihn hn q h2

end RBT

/-! ### Claim C5 -/

/-- C5: on every non-empty ordered map state, `min()` is at or below and
`max()` at or above every stored key; `floor(k)` returns the largest
stored key at or below `k` and fails with the bound error exactly when all
stored keys are above `k`; `ceiling(k)` returns the smallest stored key at
or above `k` and fails exactly when all stored keys are below `k`; and on
an exact (compare-equal) match both return that key. -/
theorem C5_navigation_correct {κ ν : Type} {cmp : RBT.Cmp κ}
    (hcmp : CmpLaws cmp) (t : RBT (κ × ν)) (k : κ)
    (hord : CTree.ordered (pairCmp cmp) (RBT.strip t))
    (hne : RBT.isNil t = false) :
    (∃ p, RBT.minVal t = some p ∧ RBT.minM t = Except.ok p.1 ∧
      ∀ q ∈ CTree.toList (RBT.strip t), cmp p.1 q.1 ≤ 0) ∧
    (∃ p, RBT.maxVal t = some p ∧ RBT.maxM t = Except.ok p.1 ∧
      ∀ q ∈ CTree.toList (RBT.strip t), cmp q.1 p.1 ≤ 0) ∧
    (∀ p, RBT.floorK cmp k t = some p →
      RBT.floorM cmp k t = Except.ok p.1 ∧
      p ∈ CTree.toList (RBT.strip t) ∧ 0 ≤ cmp k p.1 ∧
      ∀ q ∈ CTree.toList (RBT.strip t), 0 ≤ cmp k q.1 → cmp q.1 p.1 ≤ 0) ∧
    (RBT.floorK cmp k t = none →
      RBT.floorM cmp k t = Except.error RBT.Err.noBound ∧
      ∀ q ∈ CTree.toList (RBT.strip t), cmp k q.1 < 0) ∧
    (∀ p, RBT.ceilingK cmp k t = some p →
      RBT.ceilingM cmp k t = Except.ok p.1 ∧
      p ∈ CTree.toList (RBT.strip t) ∧ cmp k p.1 ≤ 0 ∧
      ∀ q ∈ CTree.toList (RBT.strip t), cmp k q.1 ≤ 0 → cmp p.1 q.1 ≤ 0) ∧
    (RBT.ceilingK cmp k t = none →
      RBT.ceilingM cmp k t = Except.error RBT.Err.noBound ∧
      ∀ q ∈ CTree.toList (RBT.strip t), 0 < cmp k q.1) ∧
    (∀ p ∈ CTree.toList (RBT.strip t), cmp k p.1 = 0 →
      (∃ f, RBT.floorK cmp k t = some f ∧ cmp f.1 k = 0) ∧
      (∃ g, RBT.ceilingK cmp k t = some g ∧ cmp g.1 k = 0)) := by
  have hnil : RBT.strip t ≠ CTree.nil := by
    intro h2
    rw [(RBT.strip_eq_nil_iff t).mp h2] at hne
    exact absurd hne (by simp [RBT.isNil])
  have hlne : CTree.toList (RBT.strip t) ≠ [] := CTree.toList_ne_nil hnil
  have hsorted : (CTree.toList (RBT.strip t)).Pairwise
      (fun a b => cmp a.1 b.1 < 0) := by
    have h2 := hord
    unfold CTree.ordered at h2
    exact h2
  obtain ⟨fs, fn⟩ := RBT.floorK_spec hcmp k hord
  obtain ⟨cs, cn⟩ := RBT.ceilingK_spec hcmp k hord
  refine ⟨?_, ?_, ?_, ?_, ?_, ?_, ?_⟩
  · -- min
    cases hh : (CTree.toList (RBT.strip t)).head? with
    | none => exact absurd (List.head?_eq_none_iff.mp hh) hlne
    | some p =>
      have hmv : RBT.minVal t = some p := by
        rw [← RBT.strip_minVal, CTree.minVal_eq_head, hh]
      refine ⟨p, hmv, ?_, RBT.sorted_head_lb hcmp hsorted hh⟩
      rw [RBT.minM, if_neg (by rw [hne]; simp), hmv]
  · -- max
    cases hh : (CTree.toList (RBT.strip t)).getLast? with
    | none => exact absurd (List.getLast?_eq_none_iff.mp hh) hlne
    | some p =>
      have hmv : RBT.maxVal t = some p := by
        rw [RBT.maxVal_eq_getLast, hh]
      refine ⟨p, hmv, ?_, RBT.sorted_getLast_ub hcmp hsorted hh⟩
      rw [RBT.maxM, if_neg (by rw [hne]; simp), hmv]
  · -- floor, found
    intro p hp
    obtain ⟨hmem, hle, hmax⟩ := fs p hp
    refine ⟨?_, hmem, hle, hmax⟩
    rw [RBT.floorM, if_neg (by rw [hne]; simp), hp]
  · -- floor, absent
    intro hn
    refine ⟨?_, fn hn⟩
    rw [RBT.floorM, if_neg (by rw [hne]; simp), hn]
  · -- ceiling, found
    intro p hp
    obtain ⟨hmem, hle, hmin⟩ := cs p hp
    refine ⟨?_, hmem, hle, hmin⟩
    rw [RBT.ceilingM, if_neg (by rw [hne]; simp), hp]
  · -- ceiling, absent
    intro hn
    refine ⟨?_, cn hn⟩
    rw [RBT.ceilingM, if_neg (by rw [hne]; simp), hn]
  · -- exact match
    intro p hmem heq
    constructor
    · cases hf : RBT.floorK cmp k t with
      | none =>
        have := fn hf p hmem
        omega
      | some f =>
        obtain ⟨hfmem, hfle, hfmax⟩ := fs f hf
        have h1 := hfmax p hmem (by omega)
        -- p ≤ f (maximality at p) and f ≤ k ≈ p force cmp f.1 k = 0
        have h2 : cmp f.1 k = 0 := by
          have hpk : cmp p.1 k = 0 := hcmp.eq_symm heq
          have hkf : cmp k f.1 = 0 := by
            rcases lt_trichotomy (cmp p.1 f.1) 0 with hx | hx | hx
            · have := (hcmp.eq_lt p.1 k f.1 hpk).mp hx
              omega
            · exact (hcmp.eq_eq p.1 k f.1 hpk).mp hx
            · omega
          exact hcmp.eq_symm hkf
        exact ⟨f, rfl, h2⟩
    · cases hc : RBT.ceilingK cmp k t with
      | none =>
        have := cn hc p hmem
        omega
      | some g =>
        obtain ⟨hgmem, hgle, hgmin⟩ := cs g hc
        have h1 := hgmin p hmem (by omega)
        -- g ≤ p ≈ k (minimality at p) and k ≤ g force cmp g.1 k = 0
        have h2 : cmp g.1 k = 0 := by
          have hpk : cmp p.1 k = 0 := hcmp.eq_symm heq
          have hge : 0 ≤ cmp g.1 k := by
            rcases lt_trichotomy (cmp g.1 k) 0 with hx | hx | hx
            · have := (hcmp.asymm g.1 k).mp hx
              omega
            · omega
            · omega
          rcases lt_trichotomy (cmp g.1 p.1) 0 with hx | hx | hx
          · have := (hcmp.snd_eq_lt g.1 hpk).mp hx
            omega
          · have := (hcmp.snd_eq_eq g.1 hpk).mp hx
            omega
          · omega
        exact ⟨g, rfl, h2⟩

theorem C5_navigation_correct_witness :
    ∃ p, RBT.minVal (RBT.node ((1 : Int), (10 : Int)) RBT.nil RBT.nil BLACK 1)
        = some p ∧
      RBT.minM (RBT.node ((1 : Int), (10 : Int)) RBT.nil RBT.nil BLACK 1)
        = Except.ok p.1 ∧
      ∀ q ∈ CTree.toList (RBT.strip
        (RBT.node ((1 : Int), (10 : Int)) RBT.nil RBT.nil BLACK 1)),
        intCmp p.1 q.1 ≤ 0 :=
  (C5_navigation_correct intCmp_laws.toCmpLaws
    (RBT.node ((1 : Int), (10 : Int)) RBT.nil RBT.nil BLACK 1) 1
    (by simp [CTree.ordered])
    rfl).1

/-! ### Snapshot: sorted in-order point-in-time copy (claim C8) -/

/-- C8: on every reachable map state, iteration yields the snapshot — the
in-order entry sequence of that state — and that sequence is strictly
increasing in the comparator key order.  The third conjunct is the
point-in-time reading available in the value model: the produced sequence
is fully determined by the calls made so far (the fold of the list model),
so it is a value the container's later mutations cannot reach into. -/
theorem C8_snapshot_sorted_copy {κ ν : Type} {cmp : RBT.Cmp κ}
    (hcmp : CmpLaws cmp) (ops : List (RBT.MOp κ ν)) :
    RBT.iterM (RBT.mrun cmp ops)
      = CTree.toList (RBT.strip (RBT.mrun cmp ops)) ∧
    (RBT.iterM (RBT.mrun cmp ops)).Pairwise
      (fun a b => cmp a.1 b.1 < 0) ∧
    RBT.iterM (RBT.mrun cmp ops) = ops.foldl (mLStep cmp) [] := by
  obtain ⟨hinv, hmodel⟩ := RBT.mrun_model hcmp ops
  have he : RBT.iterM (RBT.mrun cmp ops)
      = CTree.toList (RBT.strip (RBT.mrun cmp ops)) :=
    (RBT.strip_toList (RBT.mrun cmp ops)).symm
  refine ⟨he, ?_, by rw [he, hmodel]⟩
  rw [he]
  have hord := hinv.2.2.2.1
  unfold CTree.ordered at hord
  exact hord

theorem C8_snapshot_sorted_copy_witness :
    RBT.iterM (RBT.mrun intCmp
        [RBT.MOp.set (2 : Int) (20 : Int), RBT.MOp.set 1 10])
      = CTree.toList (RBT.strip (RBT.mrun intCmp
        [RBT.MOp.set (2 : Int) (20 : Int), RBT.MOp.set 1 10])) :=
  (C8_snapshot_sorted_copy intCmp_laws.toCmpLaws
    [RBT.MOp.set (2 : Int) (20 : Int), RBT.MOp.set 1 10]).1
